import Mathlib

/-!
Verification of the OSEL discrete-event simulation engines.

This file gives a shallow embedding, in Lean, of the three engines of the
repository — the CPU scheduler (`src/components/SchedulerEngine.js`), the
contiguous-memory allocator (`src/components/memory/MemoryEngine.js`) and the
paging simulator (`src/components/memory/PagingEngine.js`) — and proves
properties about them.

Modelling conventions, applied throughout:
* JavaScript numbers are modelled as `Int` (all engine arithmetic on the
  claimed workloads is integer arithmetic); averages computed with
  `toFixed(2)` are modelled as integers in hundredths (see `avgHundredths`),
  and `NaN` arising from `Number()` coercion as `Option Int` (see `Coerce`).
* JavaScript object references held in engine arrays (the ready queue, the
  running process, segments, frames) are modelled as indices into the owning
  list, so that mutation through a reference is mutation of the list entry.
* Presentational strings (trace explanations, log messages) carry no
  simulation state and are modelled by their structured content only
  (event kinds, times, pids).
-/

namespace Sched

/-- The five scheduling policies (`Algorithm` in SchedulerEngine.js). -/
inductive Algo
  | FCFS | SJF | SRTF | PRIORITY | RR
deriving DecidableEq, Repr

/-- Process lifecycle states (`ProcessState` in SchedulerEngine.js). -/
inductive PState
  | NEW | READY | RUNNING | TERMINATED
deriving DecidableEq, Repr

/-- One scheduled process, as built by `cloneProcesses`.  `pid` is a numeric
rendering of the JS pid string; `completionTime`, `turnaroundTime` and
`waitingTime` are `null` (here `none`) until set. -/
structure Process where
  pid : Nat
  arrivalTime : Int
  burstTime : Int
  remainingTime : Int
  priority : Int
  completionTime : Option Int
  turnaroundTime : Option Int
  waitingTime : Option Int
  state : PState
deriving DecidableEq, Repr

instance : Inhabited Process :=
  ⟨{ pid := 0, arrivalTime := 0, burstTime := 0, remainingTime := 0,
     priority := 0, completionTime := none, turnaroundTime := none,
     waitingTime := none, state := PState.NEW }⟩

/-- Trace event kinds emitted by `pushTrace`. -/
inductive EventKind
  | ARRIVAL | DISPATCH | PREEMPT | IDLE | COMPLETE | TICK
deriving DecidableEq, Repr

/-- A trace entry: the structured fields of the records pushed by
`pushTrace` (clock, kind, running pid or null, ready-queue pids).  The
natural-language `explanation`/`decision` strings affect no state and are
not modelled. -/
structure TraceEvent where
  time : Int
  event : EventKind
  running : Option Nat
  ready : List Nat
deriving DecidableEq, Repr

/-- A Gantt-chart segment (`{pid, start, end}` in the source; `end` is a
Lean keyword, so the field is named `stop`). -/
structure GanttEntry where
  pid : Nat
  start : Int
  stop : Int
deriving DecidableEq, Repr

/-- The whole engine state.  `ready` and `running` hold indices into
`processes`: the JS engine stores object references into its `processes`
array, so mutating the running process mutates the array entry. -/
structure State where
  algorithm : Algo
  quantum : Int
  time : Int
  ready : List Nat
  running : Option Nat
  completedCount : Nat
  gantt : List GanttEntry
  trace : List TraceEvent
  quantumCounter : Int
  processes : List Process
deriving DecidableEq, Repr

/-- Constructor input (`{pid, arrivalTime, burstTime, priority?}`);
`priority = none` models an absent (`undefined`) priority field. -/
structure ProcSpec where
  pid : Nat
  arrivalTime : Int
  burstTime : Int
  priority : Option Int
deriving DecidableEq, Repr

/-- `cloneProcesses`: builds fresh process records from the specs. -/
def cloneProcesses (ps : List ProcSpec) : List Process :=
  ps.map fun p =>
    { pid := p.pid
      arrivalTime := p.arrivalTime
      burstTime := p.burstTime
      remainingTime := p.burstTime
      priority := p.priority.getD 0
      completionTime := none
      turnaroundTime := none
      waitingTime := none
      state := PState.NEW }

/-- Engine construction followed by `reset()`: the initial state.  The JS
quantum is `Number(options.quantum) || 1`, so a zero (or missing, i.e. NaN)
quantum falls back to 1. -/
def mkEngine (ps : List ProcSpec) (algo : Algo) (quantumOpt : Int) : State :=
  { algorithm := algo
    quantum := if quantumOpt = 0 then 1 else quantumOpt
    time := 0
    ready := []
    running := none
    completedCount := 0
    gantt := []
    trace := []
    quantumCounter := 0
    processes := cloneProcesses ps }

/-- Read process `i` (dereference a stored JS reference). -/
def proc (s : State) (i : Nat) : Process :=
  s.processes.getD i default

/-- Write process `i` (mutation through a stored JS reference). -/
def setProc (s : State) (i : Nat) (p : Process) : State :=
  { s with processes := s.processes.set i p }

/-- `isDone()`: all processes completed. -/
def isDone (s : State) : Bool :=
  s.completedCount == s.processes.length

/-- `arrivalsAtTime()`: indices of the NEW processes whose arrival time is
the current clock, in array order. -/
def arrivalIdxs (s : State) : List Nat :=
  (List.range s.processes.length).filter fun i =>
    decide ((proc s i).state = PState.NEW ∧ (proc s i).arrivalTime = s.time)

/-- `pushTrace`: append a trace record carrying the current clock, the
running pid (or null) and the ready-queue pids. -/
def pushTrace (s : State) (ev : EventKind) : State :=
  { s with trace := s.trace ++
      [{ time := s.time
         event := ev
         running := s.running.map fun i => (proc s i).pid
         ready := s.ready.map fun i => (proc s i).pid }] }

/-- The `a.key - b.key || a.tie - b.tie` JS comparator, rendered as the
relation "the comparator returns ≤ 0" (element `a` sorts no later than
`b`). -/
def leBy (key tie : Process → Int) (a b : Process) : Bool :=
  decide (key a < key b) || (decide (key a = key b) && decide (tie a ≤ tie b))

/-- The comparator as a relation on ready-queue entries (indices into
`processes`).  `Array.prototype.sort` is stable in modern JS engines and
this relation is a total preorder, so the JS sort result is the unique
stable one, which `List.insertionSort` computes. -/
abbrev leRel (s : State) (key tie : Process → Int) (i j : Nat) : Prop :=
  leBy key tie (proc s i) (proc s j) = true

/-- `sortReady`: reorder the ready queue by the policy comparator (SJF by
burst time, SRTF by remaining time, PRIORITY by priority value, each
tie-broken by arrival time; FCFS and RR leave FIFO order). -/
def sortReady (s : State) : List Nat :=
  match s.algorithm with
  | Algo.SJF =>
    List.insertionSort (leRel s (fun p => p.burstTime) (fun p => p.arrivalTime)) s.ready
  | Algo.SRTF =>
    List.insertionSort (leRel s (fun p => p.remainingTime) (fun p => p.arrivalTime)) s.ready
  | Algo.PRIORITY =>
    List.insertionSort (leRel s (fun p => p.priority) (fun p => p.arrivalTime)) s.ready
  | _ => s.ready

/-- The queue `dispatchNext` selects from: FIFO order for FCFS/RR, the
policy-sorted order otherwise (the source sorts `this.ready` in place
before shifting). -/
def dispatchQueue (s : State) : List Nat :=
  match s.algorithm with
  | Algo.RR | Algo.FCFS => s.ready
  | _ => sortReady s

/-- `dispatchNext()`: pick the next process (FIFO head for FCFS/RR, head of
the policy-sorted queue otherwise), emit a DISPATCH trace record (after the
queue shift, before `running` is assigned), and set it RUNNING with a fresh
quantum counter. -/
def dispatchNext (s : State) : State :=
  if s.ready.isEmpty then s
  else
    match dispatchQueue s with
    | [] => s
    | chosen :: rest =>
      let s1 := pushTrace { s with ready := rest } EventKind.DISPATCH
      let s2 := setProc s1 chosen { proc s1 chosen with state := PState.RUNNING }
      { s2 with running := some chosen, quantumCounter := 0 }

/-- `shouldPreempt()`: SRTF preempts when the best ready candidate (by
remaining time, then arrival) has strictly smaller remaining time; PRIORITY
when the best candidate (by priority, then arrival) has strictly smaller
priority value; RR when the quantum counter has reached the quantum. -/
def shouldPreempt (s : State) : Bool :=
  match s.running with
  | none => false
  | some r =>
    match s.algorithm with
    | Algo.SRTF =>
      match (List.insertionSort
          (leRel s (fun p => p.remainingTime) (fun p => p.arrivalTime)) s.ready).head? with
      | some b => decide ((proc s b).remainingTime < (proc s r).remainingTime)
      | none => false
    | Algo.PRIORITY =>
      match (List.insertionSort
          (leRel s (fun p => p.priority) (fun p => p.arrivalTime)) s.ready).head? with
      | some b => decide ((proc s b).priority < (proc s r).priority)
      | none => false
    | Algo.RR => decide (s.quantum ≤ s.quantumCounter)
    | _ => false

/-- `preemptRunning()`: move the running process to the back of the ready
queue, emit a PREEMPT trace record (with `running` still set), then clear
`running` and the quantum counter. -/
def preemptRunning (s : State) : State :=
  match s.running with
  | none => s
  | some r =>
    let s1 := setProc s r { proc s r with state := PState.READY }
    let s2 := { s1 with ready := s1.ready ++ [r] }
    let s3 := pushTrace s2 EventKind.PREEMPT
    { s3 with running := none, quantumCounter := 0 }

/-- `extendGantt`: extend the last timeline segment when the same pid keeps
running, otherwise open a new one-unit segment at the current clock. -/
def extendGantt (s : State) (pid : Nat) : State :=
  match s.gantt.getLast? with
  | some g =>
    if g.pid = pid then
      { s with gantt := s.gantt.dropLast ++ [{ g with stop := g.stop + 1 }] }
    else
      { s with gantt := s.gantt ++ [{ pid := pid, start := s.time, stop := s.time + 1 }] }
  | none => { s with gantt := s.gantt ++ [{ pid := pid, start := s.time, stop := s.time + 1 }] }

/-- Arrival handling for one process: mark it READY, append it to the ready
queue, emit an ARRIVAL trace record. -/
def handleArrival (s : State) (i : Nat) : State :=
  let s1 := setProc s i { proc s i with state := PState.READY }
  let s2 := { s1 with ready := s1.ready ++ [i] }
  pushTrace s2 EventKind.ARRIVAL

/-- Phase 1 of `step()`: process the arrivals computed on the pre-state. -/
def stepArrivals (s : State) : State :=
  (arrivalIdxs s).foldl handleArrival s

/-- Phase 2 of `step()`: for preemptive policies other than RR, preempt
the running process when a better candidate is ready. -/
def stepPreempt (s : State) : State :=
  match s.running with
  | some _ =>
    if shouldPreempt s ∧ s.algorithm ≠ Algo.RR then preemptRunning s else s
  | none => s

/-- Phase 3 of `step()`: dispatch when no process is running. -/
def stepDispatch (s : State) : State :=
  match s.running with
  | none => dispatchNext s
  | some _ => s

/-- Phase 5 of `step()`: execute one unit of work for the running process
`r` — extend the Gantt chart, decrement its `remainingTime`, bump the
quantum counter. -/
def execTick (s : State) (r : Nat) : State :=
  let s4 := extendGantt s (proc s r).pid
  let s5 := setProc s4 r
    { proc s4 r with remainingTime := (proc s4 r).remainingTime - 1 }
  { s5 with quantumCounter := s5.quantumCounter + 1 }

/-- Phase 6 of `step()`: the running process finished — mark it
TERMINATED with completion time `clock + 1`, record a COMPLETE trace
event, free the CPU and advance the clock. -/
def completeRunning (s : State) (r : Nat) : State :=
  let s7 := setProc s r
    { proc s r with state := PState.TERMINATED
                    completionTime := some (s.time + 1) }
  let s8 := pushTrace s7 EventKind.COMPLETE
  { s8 with running := none
            completedCount := s8.completedCount + 1
            quantumCounter := 0
            time := s8.time + 1 }

/-- Phases 4-8 of `step()`: record IDLE and advance the clock when no one
runs; otherwise execute one unit of work, then terminate on zero remaining
time, else preempt on RR quantum expiry (after the clock advance), else
record a plain TICK. -/
def stepExec (s : State) : State :=
  match s.running with
  | none =>
    let s4 := pushTrace s EventKind.IDLE
    { s4 with time := s4.time + 1 }
  | some r =>
    let s6 := execTick s r
    if (proc s6 r).remainingTime = 0 then
      completeRunning s6 r
    else if s6.algorithm = Algo.RR ∧ shouldPreempt s6 then
      preemptRunning { s6 with time := s6.time + 1 }
    else
      let s7 := pushTrace s6 EventKind.TICK
      { s7 with time := s7.time + 1 }

/-- `step()`: one unit of simulated time, with the source's fixed phase
order — arrivals; SRTF/PRIORITY preemption check; dispatch; idle; execute
one unit; completion check; RR quantum check (after the tick); plain tick. -/
def step (s : State) : State :=
  if isDone s then s
  else stepExec (stepDispatch (stepPreempt (stepArrivals s)))

/-- The `runToEnd(maxTicks)` loop: step until done or out of fuel. -/
def runSteps : Nat → State → State
  | 0, s => s
  | n + 1, s => if isDone s then s else runSteps n (step s)

/-- The mean `total / n` rounded to two decimals, represented in hundredths:
`avgHundredths t n = 567` models the JS value `Number((t/n).toFixed(2)) =
5.67`.  For `n > 0` this is `⌊(t/n) * 100 + 1/2⌋` computed by integer floor
division (the claimed averages are not representation-boundary ties of the
binary doubles, so decimal round-half-up matches `toFixed`). -/
def avgHundredths (total n : Int) : Int := (200 * total + n) / (2 * n)

/-- The record `finalizeMetrics()` returns.  The two-decimal averages are
carried in hundredths (see `avgHundredths`). -/
structure Metrics where
  processes : List Process
  gantt : List GanttEntry
  avgWaitingH : Int
  avgTurnaroundH : Int
  finalClock : Int
deriving DecidableEq, Repr

/-- `finalizeMetrics()`: per-process turnaround (`CT - AT`, with JS `null`
coercing to 0) and waiting (`TAT - BT`), then two-decimal averages. -/
def finalizeMetrics (s : State) : Metrics :=
  let ps := s.processes.map fun p =>
    let tat := p.completionTime.getD 0 - p.arrivalTime
    { p with turnaroundTime := some tat, waitingTime := some (tat - p.burstTime) }
  let totalW : Int := (ps.map fun p => p.waitingTime.getD 0).sum
  let totalT : Int := (ps.map fun p => p.turnaroundTime.getD 0).sum
  { processes := ps
    gantt := s.gantt
    avgWaitingH := avgHundredths totalW ps.length
    avgTurnaroundH := avgHundredths totalT ps.length
    finalClock := s.time }

/-- The three-process workload used by the FCFS and RR claims:
P1(AT=0,BT=8), P2(AT=1,BT=4), P3(AT=2,BT=2); pid `k` models the string
`Pk`. -/
def demoProcs : List ProcSpec :=
  [⟨1, 0, 8, none⟩, ⟨2, 1, 4, none⟩, ⟨3, 2, 2, none⟩]

/-- The FCFS demo run, driven to completion by `runToEnd`'s default guard. -/
def fcfsRun : State := runSteps 10000 (mkEngine demoProcs Algo.FCFS 1)

/-- The RR (quantum 2) demo run, driven to completion. -/
def rrRun : State := runSteps 10000 (mkEngine demoProcs Algo.RR 2)

/-- The policy-independent data of a process record — everything except
its lifecycle `state`.  Arrival handling, dispatch and preemption change
only `state`; execution changes `remainingTime` of the running process
only.  Used to phrase frame lemmas. -/
def pdata (p : Process) : Nat × Int × Int × Int × Int × Option Int :=
  (p.pid, p.arrivalTime, p.burstTime, p.remainingTime, p.priority, p.completionTime)

/-- Per-process invariant at clock `time`.  A NEW process still holds its
full burst and has not been passed by the clock; a READY/RUNNING process
has executed `burstTime - remainingTime` units, none before its arrival; a
TERMINATED process completed no earlier than `arrivalTime + burstTime`. -/
def procInv (time : Int) (p : Process) : Prop :=
  1 ≤ p.burstTime ∧ 0 ≤ p.arrivalTime ∧
  (p.state = PState.NEW → p.remainingTime = p.burstTime ∧ time ≤ p.arrivalTime) ∧
  (p.state = PState.READY ∨ p.state = PState.RUNNING →
      1 ≤ p.remainingTime ∧ p.remainingTime ≤ p.burstTime ∧
      p.arrivalTime + (p.burstTime - p.remainingTime) ≤ time) ∧
  (p.state = PState.TERMINATED →
      p.completionTime ≠ none ∧ p.arrivalTime + p.burstTime ≤ p.completionTime.getD 0)

/-- Engine-state invariant: ready entries are in-range READY processes and
pairwise distinct, the running entry is an in-range RUNNING process,
`completedCount` counts the TERMINATED processes, and every process
satisfies `procInv` at the current clock. -/
def Inv (s : State) : Prop :=
  (∀ i ∈ s.ready, i < s.processes.length ∧ (proc s i).state = PState.READY) ∧
  (∀ r ∈ s.running.toList, r < s.processes.length ∧ (proc s r).state = PState.RUNNING) ∧
  s.ready.Nodup ∧
  s.completedCount = ((Finset.range s.processes.length).filter
      (fun j => (proc s j).state = PState.TERMINATED)).card ∧
  ∀ j, j < s.processes.length → procInv s.time (proc s j)

/-- After the arrival phase of a step, no NEW process has the current
clock as its arrival time (it would have just arrived).  This is what
makes the end-of-step clock increment safe for NEW processes. -/
def PostArr (s : State) : Prop :=
  ∀ j, j < s.processes.length →
    (proc s j).state = PState.NEW → (proc s j).arrivalTime ≠ s.time

/-- Number of PREEMPT events in the trace so far. -/
def countPreempt (s : State) : Nat :=
  (s.trace.filter (fun e => decide (e.event = EventKind.PREEMPT))).length

/-- A concrete SRTF state: P0 running with 5 remaining, P1 ready with 2. -/
def srtfDemoState : State :=
  { algorithm := Algo.SRTF, quantum := 1, time := 0, ready := [1]
    running := some 0, completedCount := 0, gantt := [], trace := []
    quantumCounter := 0
    processes :=
      [{ pid := 0, arrivalTime := 0, burstTime := 5, remainingTime := 5
         priority := 0, completionTime := none, turnaroundTime := none
         waitingTime := none, state := PState.RUNNING },
       { pid := 1, arrivalTime := 0, burstTime := 2, remainingTime := 2
         priority := 0, completionTime := none, turnaroundTime := none
         waitingTime := none, state := PState.READY }] }

/-- A concrete PRIORITY state with the running and ready process at equal
priority. -/
def prioDemoState : State :=
  { srtfDemoState with algorithm := Algo.PRIORITY }

/-- A concrete RR state whose quantum counter has reached the quantum. -/
def rrDemoState : State :=
  { srtfDemoState with algorithm := Algo.RR, quantum := 2, quantumCounter := 2 }

instance decInv (s : State) : Decidable (Inv s) := by
  unfold Inv procInv
  infer_instance

end Sched

/-! ## The contiguous-memory allocator (`MemoryEngine.js`) -/

namespace Mem

/-- The three hole-selection policies (`MemoryAlgorithms`). -/
inductive MemAlgo
  | FIRST_FIT | BEST_FIT | WORST_FIT
deriving DecidableEq, Repr

/-- A memory segment `{start, size, free, processId}`; allocated segments
additionally carry `requestedSize`. -/
structure Segment where
  start : Int
  size : Int
  free : Bool
  processId : Option Nat
  requestedSize : Option Int
deriving DecidableEq, Repr

instance : Inhabited Segment :=
  ⟨{ start := 0, size := 0, free := true, processId := none,
     requestedSize := none }⟩

/-- Request lifecycle states. -/
inductive ReqStatus
  | PENDING | ALLOCATED | FAILED
deriving DecidableEq, Repr

/-- A hydrated memory request. `allocation` is `{start, size}` or null. -/
structure Request where
  pid : Nat
  size : Int
  status : ReqStatus
  allocation : Option (Int × Int)
deriving DecidableEq, Repr

instance : Inhabited Request :=
  ⟨{ pid := 0, size := 1, status := ReqStatus.PENDING, allocation := none }⟩

/-- An allocation-log event: the structured fields of the records pushed to
`logs` (`description` is presentational and `timestamp` is wall-clock; both
affect no simulation state). -/
structure MemEvent where
  pid : Nat
  allocated : Bool
  holeStart : Option Int
  size : Int
deriving DecidableEq, Repr

/-- The allocator state. -/
structure MemState where
  algorithm : MemAlgo
  initialHoles : List Int
  memorySize : Int
  allocationUnit : Int
  requests : List Request
  segments : List Segment
  currentIndex : Nat
  logs : List MemEvent
  internalFragmentation : Int
  lastEvent : Option MemEvent
deriving DecidableEq, Repr

/-- Constructor input `{pid, size}`. -/
structure ReqSpec where
  pid : Nat
  size : Int
deriving DecidableEq, Repr

/-- `_hydrateRequests`: `Number(req.size) || 1` maps a zero (or, for
non-numeric input, NaN — see the `JsHydrate` model) size to 1. -/
def hydrateRequests (reqs : List ReqSpec) : List Request :=
  reqs.map fun (r : ReqSpec) =>
    ({ pid := r.pid
       size := if r.size = 0 then 1 else r.size
       status := ReqStatus.PENDING
       allocation := none } : Request)

/-- `Math.ceil(value / unit) * unit` over integers (for `unit > 0`):
`Int` division is floor division, so the ceiling is `-((-value) / unit)`. -/
def alignUp (value unit : Int) : Int := -((-value) / unit) * unit

/-- `_buildInitialSegments`: one free segment per configured hole, laid out
consecutively from offset 0. -/
def buildInitialSegments (holes : List Int) : List Segment :=
  (holes.foldl
    (fun (acc : List Segment × Int) size =>
      (acc.1 ++ [{ start := acc.2, size := size, free := true,
                   processId := none, requestedSize := none }],
       acc.2 + size))
    ([], 0)).1

/-- Engine construction; `memorySize` is the sum of the initial holes. -/
def mkMemEngine (reqs : List ReqSpec) (algo : MemAlgo) (holes : List Int)
    (unit : Int) : MemState :=
  { algorithm := algo
    initialHoles := holes
    memorySize := holes.sum
    allocationUnit := unit
    requests := hydrateRequests reqs
    segments := buildInitialSegments holes
    currentIndex := 0
    logs := []
    internalFragmentation := 0
    lastEvent := none }

/-- Read segment `i` (dereference a stored JS reference). -/
def seg (s : MemState) (i : Nat) : Segment :=
  s.segments.getD i default

/-- `isDone()`. -/
def memIsDone (s : MemState) : Bool :=
  s.requests.length ≤ s.currentIndex

/-- `findCandidates`: the free segments at least as large as the aligned
request, as indices in address (array) order.  The JS filter returns the
segment objects themselves; an index here models that object identity
(`findIndex(segment => segment === hole)` in `step` recovers exactly it). -/
def candIdxs (s : MemState) (aligned : Int) : List Nat :=
  (List.range s.segments.length).filter fun i =>
    (seg s i).free && decide (aligned ≤ (seg s i).size)

/-- `selectHole`: align the request, then reduce the candidates — best fit
keeps the strictly smaller candidate (so the first of equally small ones),
worst fit the strictly larger, first fit the head. -/
def selectHole (s : MemState) (req : Request) : Option Nat × Int :=
  let aligned := alignUp req.size s.allocationUnit
  match candIdxs s aligned with
  | [] => (none, aligned)
  | c :: cs =>
    let chosen := match s.algorithm with
      | MemAlgo.BEST_FIT =>
        cs.foldl (fun best cand =>
          if (seg s cand).size < (seg s best).size then cand else best) c
      | MemAlgo.WORST_FIT =>
        cs.foldl (fun best cand =>
          if (seg s best).size < (seg s cand).size then cand else best) c
      | MemAlgo.FIRST_FIT => c
    (some chosen, aligned)

/-- `allocateSegment`: split the chosen hole (index `holeIdx`) into an
allocated segment and, when a positive remainder exists, a trailing free
segment (`splice(holeIndex, 1, ...)`); mark the request, accumulate the
alignment fragmentation, and log. -/
def allocateSegment (s : MemState) (req : Request) (holeIdx : Nat)
    (aligned : Int) : MemState :=
  let hole := seg s holeIdx
  let remainder := hole.size - aligned
  let allocatedSegment : Segment :=
    { start := hole.start, size := aligned, free := false,
      processId := some req.pid, requestedSize := some req.size }
  let segmentsToInsert :=
    if remainder > 0 then
      [allocatedSegment,
       { start := hole.start + aligned, size := remainder, free := true,
         processId := none, requestedSize := none }]
    else [allocatedSegment]
  let event : MemEvent :=
    { pid := req.pid, allocated := true, holeStart := some hole.start,
      size := aligned }
  { s with
    segments := s.segments.take holeIdx ++ segmentsToInsert ++
      s.segments.drop (holeIdx + 1)
    internalFragmentation := s.internalFragmentation + (aligned - req.size)
    requests := s.requests.set s.currentIndex
      { req with status := ReqStatus.ALLOCATED
                 allocation := some (hole.start, aligned) }
    logs := s.logs ++ [event]
    lastEvent := some event }

/-- `logFailure`. -/
def logFailure (s : MemState) (req : Request) (aligned : Int) : MemState :=
  let event : MemEvent :=
    { pid := req.pid, allocated := false, holeStart := none, size := aligned }
  { s with
    requests := s.requests.set s.currentIndex
      { req with status := ReqStatus.FAILED, allocation := none }
    logs := s.logs ++ [event]
    lastEvent := some event }

/-- `step()`: process the next pending request and advance the index. -/
def memStep (s : MemState) : MemState :=
  if memIsDone s then s
  else
    let req := s.requests.getD s.currentIndex default
    match selectHole s req with
    | (some holeIdx, aligned) =>
      { allocateSegment s req holeIdx aligned with
        currentIndex := s.currentIndex + 1 }
    | (none, aligned) =>
      { logFailure s req aligned with currentIndex := s.currentIndex + 1 }

/-- Iterated `step()` (`runToEnd` drains all requests; `currentIndex`
strictly increases until done, so `requests.length` steps suffice). -/
def memRunSteps : Nat → MemState → MemState
  | 0, s => s
  | n + 1, s => if memIsDone s then s else memRunSteps n (memStep s)

/-- The segments chain consecutively from the given offset: each segment
starts where the previous one ends.  `chainB 0 segs` is the no-gap,
no-overlap partition property of the claim. -/
def chainB (off : Int) : List Segment → Bool
  | [] => true
  | g :: rest => decide (g.start = off) && chainB (off + g.size) rest

/-- Recursive form of the initial-segment layout, used to reason about
`buildInitialSegments`. -/
def buildFrom (off : Int) : List Int → List Segment
  | [] => []
  | size :: rest =>
    { start := off, size := size, free := true, processId := none,
      requestedSize := none } :: buildFrom (off + size) rest

/-- The demo workload of the claim: requests P1=24, P2=16, P3=32, P4=8
against holes [100, 500, 200, 300] with allocation unit 1. -/
def memDemo : MemState :=
  mkMemEngine [⟨1, 24⟩, ⟨2, 16⟩, ⟨3, 32⟩, ⟨4, 8⟩] MemAlgo.BEST_FIT
    [100, 500, 200, 300] 1

/-- The well-formedness facts proved at every reachable state: segments
chain from 0, their sizes sum to the memory size, every segment and every
request size is positive, and the allocation unit is positive. -/
def MemWf (s : MemState) : Prop :=
  chainB 0 s.segments = true ∧
  (s.segments.map (fun g => g.size)).sum = s.memorySize ∧
  (∀ g ∈ s.segments, 1 ≤ g.size) ∧
  1 ≤ s.allocationUnit ∧
  (∀ r ∈ s.requests, 1 ≤ r.size)

instance decMemWf (s : MemState) : Decidable (MemWf s) := by
  unfold MemWf
  infer_instance

end Mem

namespace Paging

/-- `PagingAlgorithms`. -/
inductive PAlgo
  | FIFO
  | LRU
  | OPTIMAL
deriving DecidableEq, Repr

/-- A physical frame (`this.frames[i]`).  `pageId`/`processId` are `null`
exactly when the frame is free. -/
structure Frame where
  frameId : Nat
  isFree : Bool
  pageId : Option Nat
  processId : Option Nat
deriving DecidableEq, Repr

instance : Inhabited Frame :=
  ⟨{ frameId := 0, isFree := true, pageId := none, processId := none }⟩

/-- A page reference `{ pid, page }` of the reference queue.  The JS string
pids (`'P1'`) are modelled as numerals; the page-key string
`pid + ':' + page` used by `lastAccessed` is modelled by the pair itself
(the two are in bijection). -/
abbrev PRef := Nat × Nat

/-- A normalized process (`_normalizeProcesses` output). -/
structure PProc where
  pid : Nat
  totalPages : Nat
  referenceString : List Nat
deriving DecidableEq, Repr

instance : Inhabited PProc :=
  ⟨{ pid := 0, totalPages := 1, referenceString := [0] }⟩

/-- An entry of `this.fifoQueue`. -/
structure FifoEntry where
  frameId : Nat
  pid : Nat
  page : Nat
deriving DecidableEq, Repr

instance : Inhabited FifoEntry := ⟨{ frameId := 0, pid := 0, page := 0 }⟩

/-- JS plain objects keyed by pid and the `lastAccessed` `Map` are modelled
as association lists; `assocSet` overwrites the existing binding exactly as
JS property assignment and `Map.set` do. -/
def assocGet {κ α : Type} [DecidableEq κ] (k : κ) : List (κ × α) → Option α
  | [] => none
  | (k', v) :: rest => if k' = k then some v else assocGet k rest

def assocSet {κ α : Type} [DecidableEq κ] (k : κ) (v : α) :
    List (κ × α) → List (κ × α)
  | [] => [(k, v)]
  | (k', v') :: rest =>
    if k' = k then (k, v) :: rest else (k', v') :: assocSet k v rest

def assocRemove {κ α : Type} [DecidableEq κ] (k : κ) :
    List (κ × α) → List (κ × α)
  | [] => []
  | (k', v') :: rest =>
    if k' = k then assocRemove k rest else (k', v') :: assocRemove k rest

/-- The engine state.  Log strings are presentational and dropped
(`MAX_LOGS` trimming affects only them); `Date.now()` timestamps are
modelled by the logical per-step clock `currentIndex`, which is strictly
monotone across steps just as wall-clock time is. -/
structure PagingState where
  algorithm : PAlgo
  frameCount : Nat
  frames : List Frame
  processes : List PProc
  pageTables : List (Nat × List (Option Nat))
  referenceQueue : List PRef
  currentIndex : Nat
  pageFaults : Nat
  pageHits : Nat
  fifoQueue : List FifoEntry
  lastAccessed : List (PRef × Nat)
deriving DecidableEq, Repr

/-- `clamp` from the source. -/
def clampI (value lo hi : Int) : Int := min (max value lo) hi

/-- Process-spec inputs as structured data (the array branch of
`_parseReferenceString`; a non-array input reduces to the same `[0]`
default as an empty array). -/
structure PSpec where
  pid : Nat
  totalPages : Int
  referenceString : List Int
deriving DecidableEq, Repr

/-- `_parseReferenceString`: clamp each page into `[0, totalPages - 1]`;
an empty reference string becomes `[0]`. -/
def parseReferenceString (value : List Int) (totalPages : Nat) : List Nat :=
  if value ≠ [] then
    value.map fun page => (clampI page 0 ((totalPages : Int) - 1)).toNat
  else [0]

/-- `_normalizeProcesses`: missing workload means one default process;
`totalPages` is coerced (`Number(x) || 1`, then `Math.max(1, ·)`). -/
def normalizeProcesses (specs : List PSpec) : List PProc :=
  if specs = [] then [{ pid := 1, totalPages := 4, referenceString := [0] }]
  else specs.map fun sp =>
    let tp := (max 1 (if sp.totalPages = 0 then 1 else sp.totalPages)).toNat
    { pid := sp.pid, totalPages := tp,
      referenceString := parseReferenceString sp.referenceString tp }

/-- `_buildPageTables` (a `reduce` into an object: later duplicate pids
overwrite earlier ones, as JS assignment does). -/
def buildPageTables (procs : List PProc) : List (Nat × List (Option Nat)) :=
  procs.foldl
    (fun tables p => assocSet p.pid (List.replicate p.totalPages none) tables)
    []

/-- `Math.max(...lengths)` over the reference strings (0 when there are no
processes, in which case the queue falls back to its default entry). -/
def maxRefLength (procs : List PProc) : Nat :=
  procs.foldl (fun m p => max m p.referenceString.length) 0

/-- `_buildReferenceQueue`: round-robin interleaving of the reference
strings; position `st` of every process, in process order, for each `st`. -/
def buildReferenceQueue (procs : List PProc) : List PRef :=
  let queue := ((List.range (maxRefLength procs)).map fun st =>
    procs.filterMap fun p =>
      (p.referenceString.get? st).map fun page => (p.pid, page)).flatten
  if queue = [] then [((procs.headD default).pid, 0)] else queue

/-- The constructor: `frameCount = Math.max(3, Number(frameCount) || 6)`. -/
def mkPagingEngine (specs : List PSpec) (algo : PAlgo)
    (frameCountOpt : Int) : PagingState :=
  let fc := (max 3 (if frameCountOpt = 0 then 6 else frameCountOpt)).toNat
  let procs := normalizeProcesses specs
  { algorithm := algo
    frameCount := fc
    frames := (List.range fc).map fun i =>
      { frameId := i, isFree := true, pageId := none, processId := none }
    processes := procs
    pageTables := buildPageTables procs
    referenceQueue := buildReferenceQueue procs
    currentIndex := 0
    pageFaults := 0
    pageHits := 0
    fifoQueue := []
    lastAccessed := [] }

/-- `isDone()`. -/
def pIsDone (s : PagingState) : Bool :=
  s.referenceQueue.length ≤ s.currentIndex

/-- The `(processId, pageId)` pair of an occupied frame (the page key used
by `lastAccessed` and `pageTables`). -/
def refOf (f : Frame) : PRef := (f.processId.getD 0, f.pageId.getD 0)

/-- `this.pageTables[pid][page]` (a missing pid or an out-of-range page —
unreachable for queue references — reads as `null`). -/
def tableGet (tables : List (Nat × List (Option Nat))) (pid page : Nat) :
    Option Nat :=
  ((assocGet pid tables).getD []).getD page none

/-- JS array index assignment `t[page] = v`: in range it overwrites, out
of range it extends the array, the gap reading back as `undefined`. -/
def jsArraySet (l : List (Option Nat)) (n : Nat) (v : Option Nat) :
    List (Option Nat) :=
  if n < l.length then l.set n v
  else l ++ List.replicate (n - l.length) none ++ [v]

/-- `this.pageTables[pid][page] = v` (a no-op for an absent pid, which the
constructor rules out for every queue reference). -/
def tableSet (tables : List (Nat × List (Option Nat))) (pid page : Nat)
    (v : Option Nat) : List (Nat × List (Option Nat)) :=
  match assocGet pid tables with
  | none => tables
  | some t => assocSet pid (jsArraySet t page v) tables

/-- `_markAccessed` with the current logical time. -/
def markAccessed (s : PagingState) (f : Frame) (now : Nat) : PagingState :=
  if f.isFree then s
  else { s with lastAccessed := assocSet (refOf f) now s.lastAccessed }

/-- `_evictFrame`: a free frame is left untouched; otherwise the page-table
entry is nulled, the access record deleted, the fifo queue purged of the
frame, and the frame cleared. -/
def evictFrame (s : PagingState) (frameId : Nat) : PagingState :=
  let frame := s.frames.getD frameId default
  if frame.isFree then s
  else
    { s with
      pageTables := tableSet s.pageTables (frame.processId.getD 0)
        (frame.pageId.getD 0) none
      lastAccessed := assocRemove (refOf frame) s.lastAccessed
      fifoQueue := s.fifoQueue.filter fun item => item.frameId ≠ frameId
      frames := s.frames.set frameId
        { frameId := frame.frameId, isFree := true, pageId := none,
          processId := none } }

/-- `_loadPage`: occupy the frame, point the page table at it, mark it
accessed, and (under FIFO only) append it to the fifo queue. -/
def loadPage (s : PagingState) (pid page frameId : Nat) (now : Nat) :
    PagingState :=
  let frame := s.frames.getD frameId default
  let newFrame : Frame :=
    { frameId := frame.frameId, isFree := false, pageId := some page,
      processId := some pid }
  let s1 := { s with
    frames := s.frames.set frameId newFrame
    pageTables := tableSet s.pageTables pid page (some frameId) }
  let s2 := markAccessed s1 newFrame now
  if s.algorithm = PAlgo.FIFO then
    { s2 with fifoQueue :=
        s2.fifoQueue ++ [{ frameId := frameId, pid := pid, page := page }] }
  else s2

/-- Index of the first occurrence of `r` in a list (the scan loop of
`_nextUseIndex`, restated on the dropped suffix). -/
def firstIdx (r : PRef) : List PRef → Option Nat
  | [] => none
  | x :: xs => if x = r then some 0 else (firstIdx r xs).map (· + 1)

/-- `_nextUseIndex(pid, page, startIndex)`: the first index `≥ startIndex`
referencing the page, `-1` when there is none. -/
def nextUseIndex (s : PagingState) (pid page : Nat) (startIndex : Nat) :
    Int :=
  match firstIdx (pid, page) (s.referenceQueue.drop startIndex) with
  | some i => ((startIndex + i : Nat) : Int)
  | none => -1

/-- The LRU scan of `_selectVictimFrame`: strict `<` against the oldest
timestamp seen so far (initially `Infinity`, modelled by `none`), so the
first of equally-old frames wins. -/
def lruLoop (la : List (PRef × Nat)) :
    List Frame → Frame → Option Nat → Frame
  | [], victim, _ => victim
  | f :: fs, victim, oldest =>
    let lastUsed := (assocGet (refOf f) la).getD 0
    if match oldest with | none => true | some o => lastUsed < o then
      lruLoop la fs f (some lastUsed)
    else lruLoop la fs victim oldest

/-- The OPTIMAL scan of `_selectVictimFrame`: a page never used again
(`nextUse = -1`) is returned immediately; otherwise the strictly furthest
next use wins (so the first of equally-far frames is kept). -/
def optLoop (s : PagingState) (startIndex : Nat) :
    List Frame → Frame → Int → Frame
  | [], victim, _ => victim
  | f :: fs, victim, furthest =>
    let nu := nextUseIndex s (f.processId.getD 0) (f.pageId.getD 0)
      startIndex
    if nu = -1 then f
    else if furthest < nu then optLoop s startIndex fs f nu
    else optLoop s startIndex fs victim furthest

/-- `_selectVictimFrame`.  Under FIFO with a nonempty queue the head is
shifted off (a state change) and its frame returned; otherwise the scan
over the occupied frames runs, falling back to `frames[0]` when none is
occupied and to `occupied[0]` for an unmatched algorithm. -/
def selectVictimFrame (s : PagingState) (startIndex : Nat) :
    PagingState × Frame :=
  if s.algorithm = PAlgo.FIFO ∧ s.fifoQueue ≠ [] then
    let nxt := s.fifoQueue.headD default
    ({ s with fifoQueue := s.fifoQueue.tail },
     s.frames.getD nxt.frameId default)
  else
    let occupied := s.frames.filter fun f => !f.isFree
    if occupied = [] then (s, s.frames.getD 0 default)
    else if s.algorithm = PAlgo.LRU then
      (s, lruLoop s.lastAccessed occupied (occupied.headD default) none)
    else if s.algorithm = PAlgo.OPTIMAL then
      (s, optLoop s startIndex occupied (occupied.headD default) (-1))
    else (s, occupied.headD default)

/-- `step()`: resolve the current reference as a hit or a fault (loading
into a free frame or evicting a victim), then advance.  The
`currentIndex` increment happens before victim selection, so OPTIMAL
scans strictly-later references only.  (`if (!reference)` never fires: a
non-done index is in range.) -/
def pstep (s : PagingState) : PagingState :=
  if pIsDone s then s
  else
    let reference := s.referenceQueue.getD s.currentIndex default
    let s0 := { s with currentIndex := s.currentIndex + 1 }
    match tableGet s0.pageTables reference.1 reference.2 with
    | some cachedFrame =>
      let s1 := { s0 with pageHits := s0.pageHits + 1 }
      markAccessed s1 (s1.frames.getD cachedFrame default) s1.currentIndex
    | none =>
      let s1 := { s0 with pageFaults := s0.pageFaults + 1 }
      match s1.frames.find? (fun f => f.isFree) with
      | some freeFrame =>
        loadPage s1 reference.1 reference.2 freeFrame.frameId s1.currentIndex
      | none =>
        let picked := selectVictimFrame s1 s1.currentIndex
        let s3 := evictFrame picked.1 picked.2.frameId
        loadPage s3 reference.1 reference.2 picked.2.frameId s3.currentIndex

/-- Iterated `step()` (`runToEnd` drains the queue; `referenceQueue.length`
steps always suffice). -/
def pRunSteps : Nat → PagingState → PagingState
  | 0, s => s
  | n + 1, s => if pIsDone s then s else pRunSteps n (pstep s)

/-- The demo workload of claim C5: 3 frames, FIFO, one process referencing
pages 0, 1, 2, 3. -/
def pagingDemo : PagingState :=
  mkPagingEngine [⟨1, 4, [0, 1, 2, 3]⟩] PAlgo.FIFO 3

/-- Position of the next use of `r` in `l`, with `l.length` standing for
"never used again" (it is strictly larger than every real position). -/
def idxN (r : PRef) (l : List PRef) : Nat :=
  (firstIdx r l).getD l.length

/-- The cost (number of faults) of an optimal demand-paging run over the
remaining reference list starting from cache `C` with `k` frames: a hit
leaves the cache unchanged, a miss with room loads the page, and a miss
with a full cache pays one fault plus the cheapest choice of victim. -/
def optCost (k : Nat) : List PRef → Finset PRef → Nat
  | [], _ => 0
  | r :: rest, C =>
    if r ∈ C then optCost k rest C
    else if C.card < k then 1 + optCost k rest (insert r C)
    else if hC : C.Nonempty then
      1 + (C.image fun v => optCost k rest (insert r (C.erase v))).min'
        (hC.image _)
    else 1 + optCost k rest {r}

/-- The engine invariant: frames self-identify, the page tables and the
occupied frames are inverse views of each other, fifo-queue entries and
table keys are sane, and every queue reference has a table slot. -/
def PInv (s : PagingState) : Prop :=
  s.frames.length = s.frameCount ∧
  1 ≤ s.frameCount ∧
  (∀ i, i < s.frames.length → (s.frames.getD i default).frameId = i) ∧
  (s.pageTables.map Prod.fst).Nodup ∧
  (∀ pp ∈ s.pageTables, ∀ page, page < pp.2.length →
    pp.2.getD page none ≠ none →
    (pp.2.getD page none).getD 0 < s.frames.length ∧
    s.frames.getD ((pp.2.getD page none).getD 0) default =
      { frameId := (pp.2.getD page none).getD 0, isFree := false,
        pageId := some page, processId := some pp.1 }) ∧
  (∀ i, i < s.frames.length → (s.frames.getD i default).isFree = false →
    tableGet s.pageTables ((s.frames.getD i default).processId.getD 0)
      ((s.frames.getD i default).pageId.getD 0) = some i) ∧
  (∀ e ∈ s.fifoQueue, e.frameId < s.frames.length) ∧
  (∀ r ∈ s.referenceQueue, ∃ pp ∈ s.pageTables, pp.1 = r.1)

instance decPInv (s : PagingState) : Decidable (PInv s) := by
  unfold PInv
  infer_instance

/-- The resident set: the `(pid, page)` pairs of the occupied frames. -/
def cacheOf (s : PagingState) : Finset PRef :=
  ((s.frames.filter fun f => !f.isFree).map refOf).toFinset
/-- The engine nuisance measure of a frame: next use of its page. -/
def nuOf (s : PagingState) (idx : Nat) (f : Frame) : Int :=
  nextUseIndex s (f.processId.getD 0) (f.pageId.getD 0) idx

/-- A tiny heap of reference-queue arrays, to model JavaScript object
identity: `getSnapshot` returns `referenceQueue: this.referenceQueue`
without a copy, so the snapshot and the engine hold the same array. -/
structure PHeap where
  cells : List (List PRef)
deriving DecidableEq, Repr

def readRQ (h : PHeap) (a : Nat) : List PRef :=
  h.cells.getD a []

def writeRQ (h : PHeap) (a : Nat) (v : List PRef) : PHeap :=
  ⟨h.cells.set a v⟩

/-- An engine whose `referenceQueue` lives behind a heap address `rqA`;
every other field is held by value in `st` (whose own `referenceQueue`
field is ignored: reads go through the heap). -/
structure RPaging where
  rqA : Nat
  st : PagingState
deriving DecidableEq, Repr

/-- The snapshot record: `frames` and `pageTables` are value copies
(`this.frames.map(f => ({...f}))` and the `entries.slice()` reduce in the
source), while `referenceQueue` is the heap address itself — the shared
reference of `referenceQueue: this.referenceQueue`. -/
structure PSnapshot where
  frames : List Frame
  pageTables : List (Nat × List (Option Nat))
  referenceQueue : Nat
  currentIndex : Nat
  pageFaults : Int
  pageHits : Int
  done : Bool
deriving DecidableEq, Repr

def hGetSnapshot (h : PHeap) (e : RPaging) : PSnapshot :=
  { frames := e.st.frames
    pageTables := e.st.pageTables
    referenceQueue := e.rqA
    currentIndex := e.st.currentIndex
    pageFaults := e.st.pageFaults
    pageHits := e.st.pageHits
    done := pIsDone { e.st with referenceQueue := readRQ h e.rqA } }

/-- `getSnapshot` as a state-passing call: it mutates nothing, so the
heap and the engine come back unchanged alongside the snapshot. -/
def hGetSnapshotRun (h : PHeap) (e : RPaging) :
    PSnapshot × PHeap × RPaging :=
  (hGetSnapshot h e, h, e)

/-- One engine step under the heap: the reference queue is read through
the engine's address, everything else is the plain `pstep`. -/
def hstep (h : PHeap) (e : RPaging) : RPaging :=
  { rqA := e.rqA
    st := pstep { e.st with referenceQueue := readRQ h e.rqA } }

/-- The demo engine with its reference queue placed at heap address 0. -/
def rpagingDemo : RPaging :=
  ⟨0, { pagingDemo with referenceQueue := [] }⟩

def rheapDemo : PHeap :=
  ⟨[pagingDemo.referenceQueue]⟩

end Paging

namespace Coerce

/-- A JavaScript field value as the constructors receive it: a finite
number, a string (as its characters), or `undefined` (also standing for
a missing field). -/
inductive JSVal where
  | num (v : Int)
  | str (s : List Char)
  | undef
deriving DecidableEq, Repr

def parseDigits (acc : Nat) : List Char → Option Nat
  | [] => some acc
  | c :: cs =>
      if '0' ≤ c ∧ c ≤ '9'
      then parseDigits (acc * 10 + (c.toNat - 48)) cs
      else none

/-- `Number(x)`, with `none` standing for `NaN`: numbers pass through,
the empty string is `0`, a decimal-integer string parses (optionally
signed), any other string and `undefined` give `NaN`. -/
def jsNumber : JSVal → Option Int
  | JSVal.num v => some v
  | JSVal.str [] => some 0
  | JSVal.str (c :: cs) =>
      if c = '-' then
        if cs = [] then none
        else (parseDigits 0 cs).map (fun n => -(n : Int))
      else (parseDigits 0 (c :: cs)).map (fun n => (n : Int))
  | JSVal.undef => none

/-- `x || d` on the result of `Number`: `NaN` and `0` are falsy and give
the default, any other number passes through. -/
def jsOr (v : Option Int) (d : Int) : Int :=
  match v with
  | none => d
  | some n => if n = 0 then d else n

/-- A raw process record handed to `new SchedulerEngine`. -/
structure RawProc where
  pid : Nat
  arrivalTime : JSVal
  burstTime : JSVal
  priority : JSVal
deriving DecidableEq, Repr

/-- The numeric fields of a cloned process, `none` meaning `NaN`. -/
structure CloneProc where
  pid : Nat
  arrivalTime : Option Int
  burstTime : Option Int
  remainingTime : Option Int
  priority : Option Int
deriving DecidableEq, Repr

/-- One record of `SchedulerEngine.cloneProcesses`: bare `Number()` on
`arrivalTime` and `burstTime` (twice, for `remainingTime`), and
`p.priority !== undefined ? Number(p.priority) : 0`. -/
def cloneProcess (p : RawProc) : CloneProc :=
  { pid := p.pid
    arrivalTime := jsNumber p.arrivalTime
    burstTime := jsNumber p.burstTime
    remainingTime := jsNumber p.burstTime
    priority := if p.priority = JSVal.undef then some 0
                else jsNumber p.priority }

def cloneProcesses (ps : List RawProc) : List CloneProc :=
  ps.map cloneProcess

/-- A raw allocation request handed to `new MemoryEngine`. -/
structure RawReq where
  pid : Nat
  size : JSVal
deriving DecidableEq, Repr

/-- One record of `MemoryEngine._hydrateRequests`:
`size: Number(req.size) || 1`. -/
def hydrateRequest (r : RawReq) : Nat × Int :=
  (r.pid, jsOr (jsNumber r.size) 1)

def hydrateRequests (rs : List RawReq) : List (Nat × Int) :=
  rs.map hydrateRequest

/-- `PagingEngine._normalizeProcesses`:
`Math.max(1, Number(process.totalPages) || 1)`. -/
def normalizeTotalPages (v : JSVal) : Int :=
  max 1 (jsOr (jsNumber v) 1)

/-- `PagingEngine._parseReferenceString` on an array element:
`clamp(Number(page) || 0, 0, totalPages - 1)`. -/
def normalizePage (v : JSVal) (totalPages : Int) : Int :=
  Paging.clampI (jsOr (jsNumber v) 0) 0 (totalPages - 1)

end Coerce


/-! ### Theorems about the scheduler runs -/

/-- C3: for FCFS on P1(0,8), P2(1,4), P3(2,2): the COMPLETE trace events
name P1, P2, P3 in that order, the completion times are 8, 12, 14, and
`finalizeMetrics` reports average waiting time 5.67 (567 hundredths, the
mean of 0, 7, 10 rounded to two decimals). -/
theorem C3_fcfs_demo :
    ((Sched.fcfsRun.trace.filter
        (fun e => decide (e.event = Sched.EventKind.COMPLETE))).map
          Sched.TraceEvent.running) = [some 1, some 2, some 3]
    ∧ (Sched.fcfsRun.processes.map Sched.Process.completionTime)
        = [some 8, some 12, some 14]
    ∧ (Sched.finalizeMetrics Sched.fcfsRun).avgWaitingH = 567 := by decide

/-- C1, counterexample: in the RR (quantum 2) run on P1(0,8), P2(1,4),
P3(2,2), the claimed timeline segment "P3 from 4 to 6" does not occur: when
P1's quantum expires at clock 2 the engine re-enqueues P1 at the end of
that step, before P3's arrival is processed at the start of the next step,
so P3 ends up behind P1 and the slot 4–6 goes to P1. -/
theorem C1_counterexample :
    Sched.GanttEntry.mk 3 4 6 ∉ Sched.rrRun.gantt := by decide

/-- C1, amended: in the RR (quantum 2) run on P1(0,8), P2(1,4), P3(2,2),
the first PREEMPT trace event occurs at clock 2 with P1 moved to the back
of the ready queue behind P2; the Gantt timeline is exactly P1(0-2),
P2(2-4), P1(4-6), P3(6-8), P2(8-10), P1(10-14); all processes are complete
at time 14 (completion times 14, 10, 8); and no process's remainingTime is
ever negative after any step. -/
theorem C1_rr_demo_amended :
    ((Sched.rrRun.trace.filter
        (fun e => decide (e.event = Sched.EventKind.PREEMPT))).head?).map
          (fun e => (e.time, e.running, e.ready)) = some (2, some 1, [2, 1])
    ∧ Sched.rrRun.gantt
        = [⟨1, 0, 2⟩, ⟨2, 2, 4⟩, ⟨1, 4, 6⟩, ⟨3, 6, 8⟩, ⟨2, 8, 10⟩, ⟨1, 10, 14⟩]
    ∧ Sched.isDone Sched.rrRun
    ∧ Sched.rrRun.time = 14
    ∧ (Sched.rrRun.processes.map Sched.Process.completionTime)
        = [some 14, some 10, some 8]
    ∧ ((List.range 20).all fun k =>
        (Sched.runSteps k (Sched.mkEngine Sched.demoProcs Sched.Algo.RR 2)).processes.all
          fun p => decide (0 ≤ p.remainingTime)) := by decide
namespace Sched

theorem proc_setProc_self {s : State} {i : Nat} (p : Process)
    (h : i < s.processes.length) : proc (setProc s i p) i = p := by
  simp [proc, setProc, List.getD, List.getElem?_set_self', List.getElem?_eq_getElem h]

theorem proc_setProc_ne {s : State} {i j : Nat} (p : Process)
    (h : i ≠ j) : proc (setProc s i p) j = proc s j := by
  simp [proc, setProc, List.getD, List.getElem?_set_ne h]

theorem length_setProc (s : State) (i : Nat) (p : Process) :
    (setProc s i p).processes.length = s.processes.length := by
  simp [setProc]

theorem handleArrival_spec (s : State) (i : Nat) :
    ∃ e : TraceEvent, e.event = EventKind.ARRIVAL ∧
      handleArrival s i =
        { s with processes := s.processes.set i { proc s i with state := PState.READY }
                 ready := s.ready ++ [i]
                 trace := s.trace ++ [e] } :=
  ⟨_, rfl, rfl⟩

theorem foldArr_ready : ∀ (L : List Nat) (s : State),
    (L.foldl handleArrival s).ready = s.ready ++ L := by
  intro L
  induction L with
  | nil => intro s; simp
  | cons x L ih =>
    intro s
    simp only [List.foldl_cons, ih, handleArrival, pushTrace, setProc]
    simp

theorem proc_handleArrival (s : State) (i j : Nat) :
    proc (handleArrival s i) j =
      if j = i ∧ i < s.processes.length then { proc s i with state := PState.READY }
      else proc s j := by
  by_cases h1 : j = i
  · subst h1
    by_cases h2 : j < s.processes.length
    · simp [handleArrival, pushTrace, proc, setProc, List.getD,
        List.getElem?_set_self', List.getElem?_eq_getElem h2, h2]
    · have h3 : s.processes[j]? = none := by
        simp [List.getElem?_eq_none_iff]; omega
      simp [handleArrival, pushTrace, proc, setProc, List.getD,
        List.getElem?_set_self', h3, h2]
  · simp [handleArrival, pushTrace, proc, setProc, List.getD,
      List.getElem?_set_ne (fun h => h1 h.symm), h1]

theorem frame_handleArrival (s : State) (i : Nat) :
    (handleArrival s i).running = s.running ∧
    (handleArrival s i).time = s.time ∧
    (handleArrival s i).algorithm = s.algorithm ∧
    (handleArrival s i).quantum = s.quantum ∧
    (handleArrival s i).quantumCounter = s.quantumCounter ∧
    (handleArrival s i).completedCount = s.completedCount ∧
    (handleArrival s i).gantt = s.gantt ∧
    (handleArrival s i).processes.length = s.processes.length := by
  simp [handleArrival, pushTrace, setProc]

theorem foldArr_frame : ∀ (L : List Nat) (s : State),
    (L.foldl handleArrival s).running = s.running ∧
    (L.foldl handleArrival s).time = s.time ∧
    (L.foldl handleArrival s).algorithm = s.algorithm ∧
    (L.foldl handleArrival s).quantum = s.quantum ∧
    (L.foldl handleArrival s).quantumCounter = s.quantumCounter ∧
    (L.foldl handleArrival s).completedCount = s.completedCount ∧
    (L.foldl handleArrival s).gantt = s.gantt ∧
    (L.foldl handleArrival s).processes.length = s.processes.length := by
  intro L
  induction L with
  | nil => intro s; simp
  | cons x L ih =>
    intro s
    obtain ⟨a1, a2, a3, a4, a5, a6, a7, a8⟩ := ih (handleArrival s x)
    obtain ⟨b1, b2, b3, b4, b5, b6, b7, b8⟩ := frame_handleArrival s x
    simp only [List.foldl_cons]
    exact ⟨a1.trans b1, a2.trans b2, a3.trans b3, a4.trans b4, a5.trans b5,
      a6.trans b6, a7.trans b7, a8.trans b8⟩

theorem foldArr_proc : ∀ (L : List Nat) (s : State) (j : Nat),
    proc (L.foldl handleArrival s) j =
      if j ∈ L ∧ j < s.processes.length then { proc s j with state := PState.READY }
      else proc s j := by
  intro L
  induction L with
  | nil => intro s j; simp
  | cons x L ih =>
    intro s j
    have hlen := (frame_handleArrival s x).2.2.2.2.2.2.2
    have h := ih (handleArrival s x) j
    rw [List.foldl_cons, h, proc_handleArrival, hlen]
    by_cases hx : j = x
    · subst hx
      by_cases hl : j < s.processes.length
      · by_cases hL : j ∈ L <;> simp [hl, hL]
      · by_cases hL : j ∈ L <;> simp [hl, hL]
    · by_cases hl : j < s.processes.length
      · by_cases hL : j ∈ L <;> simp [hl, hL, hx]
      · by_cases hL : j ∈ L <;> simp [hl, hL, hx]

theorem mem_arrivalIdxs {s : State} {j : Nat} :
    j ∈ arrivalIdxs s ↔
      j < s.processes.length ∧ (proc s j).state = PState.NEW ∧
        (proc s j).arrivalTime = s.time := by
  simp [arrivalIdxs, List.mem_filter, List.mem_range, and_assoc]

theorem foldArr_trace : ∀ (L : List Nat) (s : State),
    ∃ tl, (L.foldl handleArrival s).trace = s.trace ++ tl ∧
      ∀ e ∈ tl, e.event = EventKind.ARRIVAL := by
  intro L
  induction L with
  | nil => intro s; exact ⟨[], by simp, by simp⟩
  | cons x L ih =>
    intro s
    obtain ⟨e, he, hstep⟩ := handleArrival_spec s x
    obtain ⟨tl, htl, hall⟩ := ih (handleArrival s x)
    refine ⟨e :: tl, ?_, ?_⟩
    · rw [List.foldl_cons, htl, hstep]; simp
    · intro f hf
      rcases List.mem_cons.mp hf with h | h
      · exact h ▸ he
      · exact hall f h

theorem nodup_arrivalIdxs (s : State) : (arrivalIdxs s).Nodup :=
  List.Nodup.filter _ (List.nodup_range _)

theorem stepArrivals_ready (s : State) :
    (stepArrivals s).ready = s.ready ++ arrivalIdxs s :=
  foldArr_ready _ _

theorem stepArrivals_frame (s : State) :
    (stepArrivals s).running = s.running ∧
    (stepArrivals s).time = s.time ∧
    (stepArrivals s).algorithm = s.algorithm ∧
    (stepArrivals s).quantum = s.quantum ∧
    (stepArrivals s).quantumCounter = s.quantumCounter ∧
    (stepArrivals s).completedCount = s.completedCount ∧
    (stepArrivals s).gantt = s.gantt ∧
    (stepArrivals s).processes.length = s.processes.length :=
  foldArr_frame _ _

theorem stepArrivals_proc (s : State) (j : Nat) :
    proc (stepArrivals s) j =
      if j ∈ arrivalIdxs s then { proc s j with state := PState.READY }
      else proc s j := by
  rw [stepArrivals, foldArr_proc]
  by_cases h : j ∈ arrivalIdxs s
  · simp [h, (mem_arrivalIdxs.mp h).1]
  · simp [h]

theorem postArr_stepArrivals (s : State) : PostArr (stepArrivals s) := by
  intro j hj hnew
  rw [(stepArrivals_frame s).2.2.2.2.2.2.2] at hj
  rw [stepArrivals_proc] at hnew ⊢
  rw [(stepArrivals_frame s).2.1]
  by_cases h : j ∈ arrivalIdxs s
  · simp [h] at hnew
  · simp [h] at hnew ⊢
    intro harr
    exact h (mem_arrivalIdxs.mpr ⟨hj, hnew, harr⟩)

theorem inv_stepArrivals {s : State} (h : Inv s) : Inv (stepArrivals s) := by
  obtain ⟨hready, hrun, hnodup, hcount, hinv⟩ := h
  obtain ⟨f1, f2, f3, f4, f5, f6, f7, f8⟩ := stepArrivals_frame s
  refine ⟨?_, ?_, ?_, ?_, ?_⟩
  · intro i hi
    rw [stepArrivals_ready] at hi
    rw [f8, stepArrivals_proc]
    rcases List.mem_append.mp hi with hmem | hmem
    · have hold := hready i hmem
      have hni : i ∉ arrivalIdxs s := by
        intro hc
        rw [(mem_arrivalIdxs.mp hc).2.1] at hold
        exact PState.noConfusion hold.2
      simp [hni, hold]
    · obtain ⟨hl, _, _⟩ := mem_arrivalIdxs.mp hmem
      simp [hmem, hl]
  · intro r hr
    rw [f1] at hr
    have hold := hrun r hr
    have hnr : r ∉ arrivalIdxs s := by
      intro hc
      rw [(mem_arrivalIdxs.mp hc).2.1] at hold
      exact PState.noConfusion hold.2
    rw [f8, stepArrivals_proc]
    simp [hnr, hold]
  · rw [stepArrivals_ready, List.nodup_append]
    refine ⟨hnodup, nodup_arrivalIdxs s, ?_⟩
    intro x hx hx2
    have h1 := (hready x hx).2
    rw [(mem_arrivalIdxs.mp hx2).2.1] at h1
    exact PState.noConfusion h1
  · rw [f6, f8, hcount]
    congr 1
    apply Finset.filter_congr
    intro j hj
    rw [stepArrivals_proc]
    by_cases hmem : j ∈ arrivalIdxs s
    · have hnew := (mem_arrivalIdxs.mp hmem).2.1
      simp [hmem, hnew]
    · simp [hmem]
  · intro j hj
    rw [f8] at hj
    rw [f2, stepArrivals_proc]
    by_cases hmem : j ∈ arrivalIdxs s
    · obtain ⟨_, hnew, harr⟩ := mem_arrivalIdxs.mp hmem
      obtain ⟨hb, ha, hn, _, _⟩ := hinv j hj
      obtain ⟨hrem, _⟩ := hn hnew
      simp only [hmem, if_true]
      refine ⟨hb, ha, fun hc => absurd hc (by simp), fun _ => ?_,
        fun hc => absurd hc (by simp)⟩
      show 1 ≤ (proc s j).remainingTime ∧
        (proc s j).remainingTime ≤ (proc s j).burstTime ∧
        (proc s j).arrivalTime +
          ((proc s j).burstTime - (proc s j).remainingTime) ≤ s.time
      refine ⟨by omega, by omega, by omega⟩
    · simp only [hmem, if_false]
      exact hinv j hj

theorem getDset (l : List Process) (i j : Nat) (p : Process) :
    (l.set i p).getD j default =
      if j = i ∧ i < l.length then p else l.getD j default := by
  by_cases h1 : j = i
  · subst h1
    by_cases h2 : j < l.length
    · simp [List.getD, List.getElem?_set_self', List.getElem?_eq_getElem h2, h2]
    · have h3 : l[j]? = none := by simp [List.getElem?_eq_none_iff]; omega
      simp [List.getD, List.getElem?_set_self', h3, h2]
  · simp [List.getD, List.getElem?_set_ne (fun h => h1 h.symm), h1]

theorem preemptRunning_spec {s : State} {r : Nat} (h : s.running = some r) :
    ∃ e : TraceEvent, e.event = EventKind.PREEMPT ∧
      preemptRunning s =
        { s with processes := s.processes.set r { proc s r with state := PState.READY }
                 ready := s.ready ++ [r]
                 trace := s.trace ++ [e]
                 running := none
                 quantumCounter := 0 } := by
  unfold preemptRunning
  rw [h]
  exact ⟨_, rfl, rfl⟩

theorem inv_preemptRunning {s : State} (h : Inv s) : Inv (preemptRunning s) := by
  obtain ⟨hready, hrun, hnodup, hcount, hinv⟩ := h
  cases hr : s.running with
  | none => unfold preemptRunning; rw [hr]; exact ⟨hready, hrun, hnodup, hcount, hinv⟩
  | some r =>
    obtain ⟨hrl, hrs⟩ := hrun r (by rw [hr]; simp)
    obtain ⟨e, _, hspec⟩ := preemptRunning_spec hr
    rw [hspec]
    have hproc : ∀ j, proc { s with
        processes := s.processes.set r { proc s r with state := PState.READY }
        ready := s.ready ++ [r]
        trace := s.trace ++ [e]
        running := none
        quantumCounter := 0 } j =
        if j = r then { proc s r with state := PState.READY } else proc s j := by
      intro j
      show (s.processes.set r _).getD j default = _
      rw [getDset]
      by_cases hj : j = r <;> simp [hj, hrl, proc, List.getD]
    have hrnotready : r ∉ s.ready := by
      intro hc
      have := (hready r hc).2
      rw [hrs] at this
      exact PState.noConfusion this
    refine ⟨?_, ?_, ?_, ?_, ?_⟩
    · intro i hi
      simp only [List.mem_append, List.mem_singleton] at hi
      rw [hproc]
      simp only [List.length_set]
      rcases hi with hi | hi
      · have hii := hready i hi
        have hne : i ≠ r := fun hc => hrnotready (hc ▸ hi)
        simp [hne, hii]
      · subst hi; simp [hrl]
    · intro x hx; simp at hx
    · simp only []
      rw [List.nodup_append]
      exact ⟨hnodup, List.nodup_singleton r, by
        intro x hx hx2
        rw [List.mem_singleton] at hx2
        exact hrnotready (hx2 ▸ hx)⟩
    · show s.completedCount = _
      conv_lhs => rw [hcount]
      simp only [List.length_set]
      congr 1
      apply Finset.filter_congr
      intro j hj
      rw [hproc]
      by_cases hjr : j = r
      · subst hjr
        rw [if_pos rfl]
        constructor
        · intro hc
          rw [hrs] at hc
          exact absurd hc (by simp)
        · intro hc; exact absurd hc (by simp)
      · rw [if_neg hjr]
    · intro j hj
      simp only [List.length_set] at hj
      rw [hproc]
      by_cases hjr : j = r
      · subst hjr
        rw [if_pos rfl]
        obtain ⟨hb, ha, _, hry, _⟩ := hinv j hj
        refine ⟨hb, ha, fun hc => absurd hc (by simp), fun _ => ?_,
          fun hc => absurd hc (by simp)⟩
        show 1 ≤ (proc s j).remainingTime ∧
          (proc s j).remainingTime ≤ (proc s j).burstTime ∧
          (proc s j).arrivalTime +
            ((proc s j).burstTime - (proc s j).remainingTime) ≤ s.time
        exact hry (Or.inr hrs)
      · rw [if_neg hjr]
        exact hinv j hj

end Sched
namespace Sched

theorem proc_preemptRunning {s : State} {r : Nat} (h : s.running = some r) (j : Nat) :
    proc (preemptRunning s) j =
      if j = r ∧ r < s.processes.length then { proc s r with state := PState.READY }
      else proc s j := by
  obtain ⟨e, _, hspec⟩ := preemptRunning_spec h
  rw [hspec]
  show (s.processes.set r _).getD j default = _
  rw [getDset]
  rfl

theorem preemptRunning_frame {s : State} {r : Nat} (h : s.running = some r) :
    (preemptRunning s).time = s.time ∧
    (preemptRunning s).ready = s.ready ++ [r] ∧
    (preemptRunning s).running = none ∧
    (preemptRunning s).algorithm = s.algorithm ∧
    (preemptRunning s).quantum = s.quantum ∧
    (preemptRunning s).quantumCounter = 0 ∧
    (preemptRunning s).completedCount = s.completedCount ∧
    (preemptRunning s).gantt = s.gantt ∧
    (preemptRunning s).processes.length = s.processes.length ∧
    ∃ e : TraceEvent, e.event = EventKind.PREEMPT ∧
      (preemptRunning s).trace = s.trace ++ [e] := by
  obtain ⟨e, he, hspec⟩ := preemptRunning_spec h
  rw [hspec]
  exact ⟨rfl, rfl, rfl, rfl, rfl, rfl, rfl, rfl, by simp, e, he, rfl⟩

theorem postArr_preemptRunning {s : State} (h : PostArr s) :
    PostArr (preemptRunning s) := by
  cases hr : s.running with
  | none => unfold preemptRunning; rw [hr]; exact h
  | some r =>
    intro j hj hnew
    obtain ⟨f1, _, _, _, _, _, _, _, f9, _⟩ := preemptRunning_frame hr
    rw [f9] at hj
    rw [proc_preemptRunning hr] at hnew
    rw [proc_preemptRunning hr, f1]
    by_cases hc : j = r ∧ r < s.processes.length
    · rw [if_pos hc] at hnew
      exact absurd hnew (by simp)
    · rw [if_neg hc] at hnew
      rw [if_neg hc]
      exact h j hj hnew

theorem dispatchQueue_perm (s : State) : (dispatchQueue s).Perm s.ready := by
  unfold dispatchQueue sortReady
  cases s.algorithm <;>
    first
      | exact List.Perm.refl _
      | exact List.perm_insertionSort _ _

theorem dispatchNext_spec {s : State} (hne : ¬ s.ready.isEmpty = true) :
    ∃ (chosen rest : _) (e : TraceEvent),
      dispatchQueue s = chosen :: rest ∧
      e.event = EventKind.DISPATCH ∧
      dispatchNext s =
        { s with ready := rest
                 trace := s.trace ++ [e]
                 processes := s.processes.set chosen
                   { proc s chosen with state := PState.RUNNING }
                 running := some chosen
                 quantumCounter := 0 } := by
  unfold dispatchNext
  rw [if_neg hne]
  cases hq : dispatchQueue s with
  | nil =>
    exfalso
    have hlen := (dispatchQueue_perm s).length_eq
    rw [hq] at hlen
    have h0 : s.ready.length = 0 := by simpa using hlen.symm
    exact hne (by simp [List.length_eq_zero.mp h0])
  | cons chosen rest =>
    exact ⟨chosen, rest, _, rfl, rfl, rfl⟩

theorem inv_dispatchNext {s : State} (h : Inv s) : Inv (dispatchNext s) := by
  obtain ⟨hready, hrun, hnodup, hcount, hinv⟩ := h
  by_cases hemp : s.ready.isEmpty = true
  · unfold dispatchNext
    rw [if_pos hemp]
    exact ⟨hready, hrun, hnodup, hcount, hinv⟩
  · obtain ⟨chosen, rest, e, hq, he, hspec⟩ := dispatchNext_spec hemp
    have hqperm : (chosen :: rest).Perm s.ready := hq ▸ dispatchQueue_perm s
    have hqnodup : (chosen :: rest).Nodup := hqperm.nodup_iff.mpr hnodup
    have hcmem : chosen ∈ s.ready := hqperm.mem_iff.mp (by simp)
    obtain ⟨hcl, hcs⟩ := hready chosen hcmem
    rw [hspec]
    have hproc : ∀ j, proc { s with
        ready := rest
        trace := s.trace ++ [e]
        processes := s.processes.set chosen
          { proc s chosen with state := PState.RUNNING }
        running := some chosen
        quantumCounter := 0 } j =
        if j = chosen then { proc s chosen with state := PState.RUNNING }
        else proc s j := by
      intro j
      show (s.processes.set chosen _).getD j default = _
      rw [getDset]
      by_cases hj : j = chosen <;> simp [hj, hcl, proc, List.getD]
    refine ⟨?_, ?_, ?_, ?_, ?_⟩
    · intro i hi
      have himem : i ∈ s.ready := hqperm.mem_iff.mp (by simp [hi])
      have hine : i ≠ chosen := fun hc => (List.nodup_cons.mp hqnodup).1 (hc ▸ hi)
      rw [hproc, if_neg hine]
      simp only [List.length_set]
      exact hready i himem
    · intro x hx
      simp only [Option.toList_some, List.mem_singleton] at hx
      subst hx
      rw [hproc, if_pos rfl]
      simp only [List.length_set]
      exact ⟨hcl, trivial⟩
    · exact (List.nodup_cons.mp hqnodup).2
    · show s.completedCount = _
      conv_lhs => rw [hcount]
      simp only [List.length_set]
      congr 1
      apply Finset.filter_congr
      intro j hj
      rw [hproc]
      by_cases hjc : j = chosen
      · subst hjc
        rw [if_pos rfl]
        constructor
        · intro hc
          rw [hcs] at hc
          exact absurd hc (by simp)
        · intro hc; exact absurd hc (by simp)
      · rw [if_neg hjc]
    · intro j hj
      simp only [List.length_set] at hj
      rw [hproc]
      by_cases hjc : j = chosen
      · subst hjc
        rw [if_pos rfl]
        obtain ⟨hb, ha, _, hry, _⟩ := hinv j hj
        refine ⟨hb, ha, fun hc => absurd hc (by simp), fun _ => ?_,
          fun hc => absurd hc (by simp)⟩
        show 1 ≤ (proc s j).remainingTime ∧
          (proc s j).remainingTime ≤ (proc s j).burstTime ∧
          (proc s j).arrivalTime +
            ((proc s j).burstTime - (proc s j).remainingTime) ≤ s.time
        exact hry (Or.inl hcs)
      · rw [if_neg hjc]
        exact hinv j hj

theorem postArr_dispatchNext {s : State} (h : PostArr s) :
    PostArr (dispatchNext s) := by
  by_cases hemp : s.ready.isEmpty = true
  · unfold dispatchNext
    rw [if_pos hemp]
    exact h
  · obtain ⟨chosen, rest, e, hq, he, hspec⟩ := dispatchNext_spec hemp
    intro j hj hnew
    rw [hspec] at hj hnew ⊢
    simp only [List.length_set] at hj
    have hproc : ∀ j, proc { s with
        ready := rest
        trace := s.trace ++ [e]
        processes := s.processes.set chosen
          { proc s chosen with state := PState.RUNNING }
        running := some chosen
        quantumCounter := 0 } j =
        if j = chosen ∧ chosen < s.processes.length
        then { proc s chosen with state := PState.RUNNING }
        else proc s j := by
      intro j
      show (s.processes.set chosen _).getD j default = _
      rw [getDset]
      rfl
    rw [hproc] at hnew
    show (proc _ j).arrivalTime ≠ s.time
    rw [hproc]
    by_cases hc : j = chosen ∧ chosen < s.processes.length
    · rw [if_pos hc] at hnew
      exact absurd hnew (by simp)
    · rw [if_neg hc] at hnew
      rw [if_neg hc]
      exact h j hj hnew

end Sched
namespace Sched

theorem procInv_succ {t : Int} {p : Process} (h : procInv t p)
    (hna : p.state = PState.NEW → p.arrivalTime ≠ t) : procInv (t + 1) p := by
  obtain ⟨hb, ha, hn, hry, hterm⟩ := h
  refine ⟨hb, ha, ?_, ?_, hterm⟩
  · intro hnew
    obtain ⟨h1, h2⟩ := hn hnew
    exact ⟨h1, by have := hna hnew; omega⟩
  · intro hst
    obtain ⟨h1, h2, h3⟩ := hry hst
    exact ⟨h1, h2, by omega⟩

theorem inv_stepPreempt {s : State} (h : Inv s) : Inv (stepPreempt s) := by
  unfold stepPreempt
  cases s.running with
  | none => exact h
  | some r =>
    by_cases hc : (shouldPreempt s = true) ∧ s.algorithm ≠ Algo.RR
    · rw [if_pos hc]; exact inv_preemptRunning h
    · rw [if_neg hc]; exact h

theorem postArr_stepPreempt {s : State} (h : PostArr s) : PostArr (stepPreempt s) := by
  unfold stepPreempt
  cases s.running with
  | none => exact h
  | some r =>
    by_cases hc : (shouldPreempt s = true) ∧ s.algorithm ≠ Algo.RR
    · rw [if_pos hc]; exact postArr_preemptRunning h
    · rw [if_neg hc]; exact h

theorem inv_stepDispatch {s : State} (h : Inv s) : Inv (stepDispatch s) := by
  unfold stepDispatch
  cases s.running with
  | none => exact inv_dispatchNext h
  | some r => exact h

theorem postArr_stepDispatch {s : State} (h : PostArr s) : PostArr (stepDispatch s) := by
  unfold stepDispatch
  cases s.running with
  | none => exact postArr_dispatchNext h
  | some r => exact h

theorem extendGantt_eq (s : State) (g : Nat) :
    ∃ G, extendGantt s g = { s with gantt := G } := by
  unfold extendGantt
  cases s.gantt.getLast? with
  | none => exact ⟨_, rfl⟩
  | some g0 =>
    dsimp only
    by_cases hc : g0.pid = g
    · rw [if_pos hc]; exact ⟨_, rfl⟩
    · rw [if_neg hc]; exact ⟨_, rfl⟩

theorem execTick_spec (s : State) (r : Nat) :
    ∃ G, execTick s r =
      { s with gantt := G
               processes := s.processes.set r
                 { proc s r with
                     remainingTime := (proc s r).remainingTime - 1 }
               quantumCounter := s.quantumCounter + 1 } := by
  obtain ⟨G, hG⟩ := extendGantt_eq s (proc s r).pid
  refine ⟨G, ?_⟩
  unfold execTick
  rw [hG]
  rfl

theorem completeRunning_spec (s : State) (r : Nat) :
    ∃ e : TraceEvent, e.event = EventKind.COMPLETE ∧
      completeRunning s r =
        { s with processes := s.processes.set r
                   { proc s r with state := PState.TERMINATED
                                   completionTime := some (s.time + 1) }
                 trace := s.trace ++ [e]
                 running := none
                 completedCount := s.completedCount + 1
                 quantumCounter := 0
                 time := s.time + 1 } :=
  ⟨_, rfl, rfl⟩

theorem idleAdvance_spec (s : State) :
    ∃ e : TraceEvent, e.event = EventKind.IDLE ∧
      (let s4 := pushTrace s EventKind.IDLE
       { s4 with time := s4.time + 1 }) =
      { s with trace := s.trace ++ [e], time := s.time + 1 } :=
  ⟨_, rfl, rfl⟩

theorem tickAdvance_spec (s : State) :
    ∃ e : TraceEvent, e.event = EventKind.TICK ∧
      (let s7 := pushTrace s EventKind.TICK
       { s7 with time := s7.time + 1 }) =
      { s with trace := s.trace ++ [e], time := s.time + 1 } :=
  ⟨_, rfl, rfl⟩

theorem inv_stepExec {s : State} (h : Inv s) (hp : PostArr s) : Inv (stepExec s) := by
  obtain ⟨hready, hrun, hnodup, hcount, hinv⟩ := h
  unfold stepExec
  cases hr : s.running with
  | none =>
    obtain ⟨e, he, hspec⟩ := idleAdvance_spec s
    rw [hspec]
    refine ⟨hready, ?_, hnodup, hcount, ?_⟩
    · intro x hx
      dsimp only at hx
      rw [hr] at hx
      simp at hx
    · intro j hj
      exact procInv_succ (hinv j hj) (hp j hj)
  | some r =>
    obtain ⟨hrl, hrs⟩ := hrun r (by rw [hr]; simp)
    obtain ⟨hbr, har, _, hryr, _⟩ := hinv r hrl
    obtain ⟨hR1, hRb, hRt⟩ := hryr (Or.inr hrs)
    obtain ⟨G, hexec⟩ := execTick_spec s r
    dsimp only
    rw [hexec]
    have hproc6 : ∀ j, proc { s with
        gantt := G
        processes := s.processes.set r
          { proc s r with remainingTime := (proc s r).remainingTime - 1 }
        quantumCounter := s.quantumCounter + 1 } j =
        if j = r then { proc s r with remainingTime := (proc s r).remainingTime - 1 }
        else proc s j := by
      intro j
      show (s.processes.set r _).getD j default = _
      rw [getDset]
      by_cases hj : j = r <;> simp [hj, hrl, proc, List.getD]
    rw [hproc6 r, if_pos rfl]
    dsimp only
    have hner : ∀ i ∈ s.ready, i ≠ r := by
      intro i hi hc
      have h1 := (hready i hi).2
      rw [hc, hrs] at h1
      exact PState.noConfusion h1
    by_cases hz : (proc s r).remainingTime - 1 = 0
    · -- completion branch
      rw [if_pos hz]
      obtain ⟨e2, he2, hcomp⟩ := completeRunning_spec { s with
        gantt := G
        processes := s.processes.set r
          { proc s r with remainingTime := (proc s r).remainingTime - 1 }
        quantumCounter := s.quantumCounter + 1 } r
      rw [hcomp]
      dsimp only
      rw [hproc6 r, if_pos rfl, List.set_set]
      dsimp only
      have hprocT : ∀ j, proc { s with
          gantt := G
          processes := s.processes.set r
            { proc s r with
                remainingTime := (proc s r).remainingTime - 1
                state := PState.TERMINATED
                completionTime := some (s.time + 1) }
          quantumCounter := 0
          trace := s.trace ++ [e2]
          running := none
          completedCount := s.completedCount + 1
          time := s.time + 1 } j =
          if j = r then { proc s r with
            remainingTime := (proc s r).remainingTime - 1
            state := PState.TERMINATED
            completionTime := some (s.time + 1) }
          else proc s j := by
        intro j
        show (s.processes.set r _).getD j default = _
        rw [getDset]
        by_cases hj : j = r <;> simp [hj, hrl, proc, List.getD]
      refine ⟨?_, ?_, hnodup, ?_, ?_⟩
      · intro i hi
        rw [hprocT, if_neg (hner i hi)]
        simp only [List.length_set]
        exact hready i hi
      · intro x hx
        simp at hx
      · show s.completedCount + 1 = _
        simp only [List.length_set]
        have hfil : (Finset.range s.processes.length).filter
            (fun j => (proc { s with
              gantt := G
              processes := s.processes.set r
                { proc s r with
                    remainingTime := (proc s r).remainingTime - 1
                    state := PState.TERMINATED
                    completionTime := some (s.time + 1) }
              quantumCounter := 0
              trace := s.trace ++ [e2]
              running := none
              completedCount := s.completedCount + 1
              time := s.time + 1 } j).state = PState.TERMINATED) =
            insert r ((Finset.range s.processes.length).filter
              (fun j => (proc s j).state = PState.TERMINATED)) := by
          ext j
          simp only [Finset.mem_filter, Finset.mem_insert, Finset.mem_range]
          rw [hprocT]
          by_cases hj : j = r
          · subst hj
            rw [if_pos rfl]
            simp [hrl]
          · rw [if_neg hj]
            constructor
            · intro hx; exact Or.inr hx
            · intro hx
              rcases hx with hx1 | hx1
              · exact absurd hx1 hj
              · exact hx1
        rw [hfil, Finset.card_insert_of_not_mem, hcount]
        simp only [Finset.mem_filter, Finset.mem_range, not_and]
        intro _
        rw [hrs]
        simp
      · intro j hj
        simp only [List.length_set] at hj
        rw [hprocT]
        by_cases hj2 : j = r
        · subst hj2
          rw [if_pos rfl]
          refine ⟨hbr, har, fun hc => absurd hc (by simp),
            fun hc => absurd hc (by simp), fun _ => ?_⟩
          refine ⟨by simp, ?_⟩
          show (proc s j).arrivalTime + (proc s j).burstTime ≤
            (Option.getD (some (s.time + 1)) 0)
          simp only [Option.getD_some]
          omega
        · rw [if_neg hj2]
          exact procInv_succ (hinv j hj) (hp j hj)
    · rw [if_neg hz]
      have hkey : ∀ (G' : List GanttEntry) (q' : Int) (tr' : List TraceEvent),
          Inv { s with
            gantt := G'
            processes := s.processes.set r
              { proc s r with remainingTime := (proc s r).remainingTime - 1 }
            quantumCounter := q'
            trace := tr'
            time := s.time + 1 } := by
        intro G' q' tr'
        have hprocT : ∀ j, proc { s with
            gantt := G'
            processes := s.processes.set r
              { proc s r with remainingTime := (proc s r).remainingTime - 1 }
            quantumCounter := q'
            trace := tr'
            time := s.time + 1 } j =
            if j = r then
              { proc s r with remainingTime := (proc s r).remainingTime - 1 }
            else proc s j := by
          intro j
          show (s.processes.set r _).getD j default = _
          rw [getDset]
          by_cases hj : j = r <;> simp [hj, hrl, proc, List.getD]
        refine ⟨?_, ?_, hnodup, ?_, ?_⟩
        · intro i hi
          rw [hprocT, if_neg (hner i hi)]
          simp only [List.length_set]
          exact hready i hi
        · intro x hx
          dsimp only at hx
          rw [hr] at hx
          simp only [Option.toList_some, List.mem_singleton] at hx
          subst hx
          rw [hprocT, if_pos rfl]
          simp only [List.length_set]
          exact ⟨hrl, hrs⟩
        · show s.completedCount = _
          conv_lhs => rw [hcount]
          simp only [List.length_set]
          congr 1
          apply Finset.filter_congr
          intro j hj
          rw [hprocT]
          by_cases hj2 : j = r
          · subst hj2
            rw [if_pos rfl]
          · rw [if_neg hj2]
        · intro j hj
          simp only [List.length_set] at hj
          rw [hprocT]
          by_cases hj2 : j = r
          · subst hj2
            rw [if_pos rfl]
            refine ⟨hbr, har, fun hc => absurd hc (by simp [hrs]), fun _ => ?_,
              fun hc => absurd hc (by simp [hrs])⟩
            show 1 ≤ (proc s j).remainingTime - 1 ∧
              (proc s j).remainingTime - 1 ≤ (proc s j).burstTime ∧
              (proc s j).arrivalTime +
                ((proc s j).burstTime - ((proc s j).remainingTime - 1)) ≤
                s.time + 1
            refine ⟨by omega, by omega, by omega⟩
          · rw [if_neg hj2]
            exact procInv_succ (hinv j hj) (hp j hj)
      by_cases hrr : ({ s with
          gantt := G
          processes := s.processes.set r
            { proc s r with remainingTime := (proc s r).remainingTime - 1 }
          quantumCounter := s.quantumCounter + 1 } : State).algorithm = Algo.RR ∧
        shouldPreempt { s with
          gantt := G
          processes := s.processes.set r
            { proc s r with remainingTime := (proc s r).remainingTime - 1 }
          quantumCounter := s.quantumCounter + 1 } = true
      · rw [if_pos hrr]
        exact inv_preemptRunning (hkey G (s.quantumCounter + 1) s.trace)
      · rw [if_neg hrr]
        obtain ⟨e3, he3, htick⟩ := tickAdvance_spec { s with
          gantt := G
          processes := s.processes.set r
            { proc s r with remainingTime := (proc s r).remainingTime - 1 }
          quantumCounter := s.quantumCounter + 1 }
        rw [htick]
        exact hkey G (s.quantumCounter + 1) (s.trace ++ [e3])

theorem inv_step {s : State} (h : Inv s) : Inv (step s) := by
  unfold step
  by_cases hd : isDone s = true
  · rw [if_pos hd]; exact h
  · rw [if_neg hd]
    exact inv_stepExec
      (inv_stepDispatch (inv_stepPreempt (inv_stepArrivals h)))
      (postArr_stepDispatch (postArr_stepPreempt (postArr_stepArrivals s)))

theorem inv_runSteps : ∀ (n : Nat) (s : State), Inv s → Inv (runSteps n s) := by
  intro n
  induction n with
  | zero => intro s h; exact h
  | succ n ih =>
    intro s h
    unfold runSteps
    by_cases hd : isDone s = true
    · rw [if_pos hd]; exact h
    · rw [if_neg hd]; exact ih _ (inv_step h)

theorem proc_eq_getElem {s : State} {i : Nat} (h : i < s.processes.length) :
    proc s i = s.processes[i] := by
  simp [proc, List.getD, List.getElem?_eq_getElem h]

theorem proc_mkEngine (ps : List ProcSpec) (algo : Algo) (q : Int)
    (j : Nat) (hj : j < ps.length) :
    proc (mkEngine ps algo q) j =
      { pid := ps[j].pid
        arrivalTime := ps[j].arrivalTime
        burstTime := ps[j].burstTime
        remainingTime := ps[j].burstTime
        priority := ps[j].priority.getD 0
        completionTime := none
        turnaroundTime := none
        waitingTime := none
        state := PState.NEW } := by
  have hj2 : j < (mkEngine ps algo q).processes.length := by
    simp [mkEngine, cloneProcesses, hj]
  rw [proc_eq_getElem hj2]
  simp [mkEngine, cloneProcesses]

theorem inv_mkEngine {ps : List ProcSpec} (algo : Algo) (q : Int)
    (hb : ∀ p ∈ ps, 1 ≤ p.burstTime) (ha : ∀ p ∈ ps, 0 ≤ p.arrivalTime) :
    Inv (mkEngine ps algo q) := by
  have hlen : (mkEngine ps algo q).processes.length = ps.length := by
    simp [mkEngine, cloneProcesses]
  refine ⟨?_, ?_, ?_, ?_, ?_⟩
  · intro i hi; simp [mkEngine] at hi
  · intro x hx; simp [mkEngine] at hx
  · show List.Nodup []
    exact List.nodup_nil
  · show 0 = _
    symm
    rw [Finset.card_eq_zero, Finset.filter_eq_empty_iff]
    intro j hj
    rw [Finset.mem_range, hlen] at hj
    rw [proc_mkEngine ps algo q j hj]
    simp
  · intro j hj
    rw [hlen] at hj
    rw [proc_mkEngine ps algo q j hj]
    show procInv 0 _
    have hb2 := hb ps[j] (List.getElem_mem hj)
    have ha2 := ha ps[j] (List.getElem_mem hj)
    refine ⟨hb2, ha2, fun _ => ⟨rfl, ha2⟩, ?_, ?_⟩
    · intro hc
      rcases hc with hc | hc <;> exact absurd hc (by simp)
    · intro hc
      exact absurd hc (by simp)

end Sched

/-- C8: for every workload with valid numeric inputs (burst ≥ 1, arrival
≥ 0), in any run after which all processes are TERMINATED,
`finalizeMetrics` gives every process a `waitingTime` and `turnaroundTime`
with `waitingTime + burstTime = turnaroundTime` and
`turnaroundTime ≥ burstTime` (equivalently `completionTime ≥ arrivalTime +
burstTime`). -/
theorem C8_per_process_identities
    (ps : List Sched.ProcSpec) (algo : Sched.Algo) (q : Int) (n : Nat)
    (hb : ∀ p ∈ ps, 1 ≤ p.burstTime) (ha : ∀ p ∈ ps, 0 ≤ p.arrivalTime)
    (hterm : ∀ p ∈ (Sched.runSteps n (Sched.mkEngine ps algo q)).processes,
      p.state = Sched.PState.TERMINATED) :
    ∀ p ∈ (Sched.finalizeMetrics
        (Sched.runSteps n (Sched.mkEngine ps algo q))).processes,
      ∃ w t : Int, p.waitingTime = some w ∧ p.turnaroundTime = some t ∧
        w + p.burstTime = t ∧ p.burstTime ≤ t := by
  intro p hp
  have hI : Sched.Inv (Sched.runSteps n (Sched.mkEngine ps algo q)) :=
    Sched.inv_runSteps n _ (Sched.inv_mkEngine algo q hb ha)
  set s := Sched.runSteps n (Sched.mkEngine ps algo q) with hs
  obtain ⟨_, _, _, _, hinv⟩ := hI
  simp only [Sched.finalizeMetrics, List.mem_map] at hp
  obtain ⟨p0, hp0, hpeq⟩ := hp
  obtain ⟨i, hi, hget⟩ := List.mem_iff_getElem.mp hp0
  have hproc : Sched.proc s i = p0 := by
    rw [Sched.proc_eq_getElem hi, hget]
  have hpinv := hinv i hi
  rw [hproc] at hpinv
  obtain ⟨hb1, ha1, _, _, htm⟩ := hpinv
  obtain ⟨hcn, hcb⟩ := htm (hterm p0 hp0)
  refine ⟨p0.completionTime.getD 0 - p0.arrivalTime - p0.burstTime,
    p0.completionTime.getD 0 - p0.arrivalTime, ?_, ?_, ?_, ?_⟩
  · rw [← hpeq]
  · rw [← hpeq]
  · rw [← hpeq]
    show p0.completionTime.getD 0 - p0.arrivalTime - p0.burstTime +
      p0.burstTime = p0.completionTime.getD 0 - p0.arrivalTime
    omega
  · rw [← hpeq]
    show p0.burstTime ≤ p0.completionTime.getD 0 - p0.arrivalTime
    omega

/-- Witness for C8: the FCFS demo run satisfies all hypotheses, and the
conclusion is obtained by applying `C8_per_process_identities` there. -/
theorem C8_per_process_identities_witness :
    (∀ p ∈ Sched.demoProcs, 1 ≤ p.burstTime) ∧
    (∀ p ∈ Sched.demoProcs, 0 ≤ p.arrivalTime) ∧
    (∀ p ∈ Sched.fcfsRun.processes, p.state = Sched.PState.TERMINATED) ∧
    (∀ p ∈ (Sched.finalizeMetrics Sched.fcfsRun).processes,
      ∃ w t : Int, p.waitingTime = some w ∧ p.turnaroundTime = some t ∧
        w + p.burstTime = t ∧ p.burstTime ≤ t) :=
  ⟨by decide, by decide, by decide,
    C8_per_process_identities Sched.demoProcs Sched.Algo.FCFS 1 10000
      (by decide) (by decide) (by decide)⟩
namespace Sched

theorem leBy_eq_true_iff (key tie : Process → Int) (a b : Process) :
    leBy key tie a b = true ↔
      (key a < key b ∨ (key a = key b ∧ tie a ≤ tie b)) := by
  simp [leBy]

theorem leBy_total (key tie : Process → Int) (a b : Process) :
    leBy key tie a b = true ∨ leBy key tie b a = true := by
  rw [leBy_eq_true_iff, leBy_eq_true_iff]
  omega

theorem leBy_trans (key tie : Process → Int) (a b c : Process)
    (h1 : leBy key tie a b = true) (h2 : leBy key tie b c = true) :
    leBy key tie a c = true := by
  rw [leBy_eq_true_iff] at h1 h2 ⊢
  omega

theorem head_min_insertionSort (s : State) (key tie : Process → Int)
    {l : List Nat} {b : Nat}
    (hb : (List.insertionSort (leRel s key tie) l).head? = some b) :
    b ∈ l ∧ ∀ x ∈ l, key (proc s b) ≤ key (proc s x) := by
  haveI htot : IsTotal Nat (leRel s key tie) :=
    ⟨fun i j => leBy_total key tie (proc s i) (proc s j)⟩
  haveI htr : IsTrans Nat (leRel s key tie) :=
    ⟨fun i j k => leBy_trans key tie (proc s i) (proc s j) (proc s k)⟩
  have hperm := List.perm_insertionSort (leRel s key tie) l
  have hsorted := List.sorted_insertionSort (leRel s key tie) l
  cases hs : List.insertionSort (leRel s key tie) l with
  | nil => rw [hs] at hb; cases hb
  | cons b0 rest =>
    rw [hs] at hb
    have hbb : b0 = b := by simpa using hb
    subst hbb
    rw [hs] at hperm hsorted
    constructor
    · exact hperm.mem_iff.mp (by simp)
    · intro x hx
      have hxs : x ∈ b0 :: rest := hperm.mem_iff.mpr hx
      rcases List.mem_cons.mp hxs with hx1 | hx1
      · subst hx1; exact le_refl _
      · have h2 : leBy key tie (proc s b0) (proc s x) = true :=
          (List.pairwise_cons.mp hsorted).1 x hx1
        rw [leBy_eq_true_iff] at h2
        omega

theorem shouldPreempt_srtf {s : State} {r : Nat}
    (halg : s.algorithm = Algo.SRTF) (hr : s.running = some r)
    {q : Nat} (hq : q ∈ s.ready)
    (hlt : (proc s q).remainingTime < (proc s r).remainingTime) :
    shouldPreempt s = true := by
  unfold shouldPreempt
  rw [hr, halg]
  cases hh : (List.insertionSort
      (leRel s (fun p => p.remainingTime) (fun p => p.arrivalTime)) s.ready).head? with
  | none =>
    exfalso
    rw [List.head?_eq_none_iff] at hh
    have := List.perm_insertionSort
      (leRel s (fun p => p.remainingTime) (fun p => p.arrivalTime)) s.ready
    rw [hh] at this
    exact (List.not_mem_nil q) (this.mem_iff.mpr hq)
  | some b =>
    have hmin := (head_min_insertionSort s
      (fun p => p.remainingTime) (fun p => p.arrivalTime) hh).2 q hq
    simp only [decide_eq_true_eq]
    omega

theorem shouldPreempt_priority_false {s : State} {r : Nat}
    (halg : s.algorithm = Algo.PRIORITY) (hr : s.running = some r)
    (hge : ∀ q ∈ s.ready, ¬ (proc s q).priority < (proc s r).priority) :
    shouldPreempt s = false := by
  unfold shouldPreempt
  rw [hr, halg]
  cases hh : (List.insertionSort
      (leRel s (fun p => p.priority) (fun p => p.arrivalTime)) s.ready).head? with
  | none => rfl
  | some b =>
    have hbmem := (head_min_insertionSort s
      (fun p => p.priority) (fun p => p.arrivalTime) hh).1
    simp only [decide_eq_false_iff_not]
    exact hge b hbmem

theorem shouldPreempt_rr {s : State} {r : Nat}
    (halg : s.algorithm = Algo.RR) (hr : s.running = some r) :
    (shouldPreempt s = true ↔ s.quantum ≤ s.quantumCounter) := by
  unfold shouldPreempt
  rw [hr, halg]
  simp

theorem not_isDone_of_running {s : State} (h : Inv s) {r : Nat}
    (hr : s.running = some r) : isDone s = false := by
  obtain ⟨_, hrun, _, hcount, _⟩ := h
  obtain ⟨hrl, hrs⟩ := hrun r (by rw [hr]; simp)
  have hsub : (Finset.range s.processes.length).filter
      (fun j => (proc s j).state = PState.TERMINATED) ⊂
      Finset.range s.processes.length := by
    rw [Finset.ssubset_iff_of_subset (Finset.filter_subset _ _)]
    refine ⟨r, Finset.mem_range.mpr hrl, ?_⟩
    simp only [Finset.mem_filter, not_and]
    intro _
    rw [hrs]
    simp
  have hlt := Finset.card_lt_card hsub
  rw [Finset.card_range] at hlt
  rw [← hcount] at hlt
  simp only [isDone, beq_eq_false_iff_ne, ne_eq]
  omega

theorem countPreempt_of_trace_app {s t : State} {tl : List TraceEvent}
    (h : t.trace = s.trace ++ tl)
    (hno : ∀ e ∈ tl, e.event ≠ EventKind.PREEMPT) :
    countPreempt t = countPreempt s := by
  unfold countPreempt
  rw [h, List.filter_append]
  have : tl.filter (fun e => decide (e.event = EventKind.PREEMPT)) = [] := by
    rw [List.filter_eq_nil_iff]
    intro e he
    simp only [decide_eq_true_eq]
    exact hno e he
  rw [this]
  simp

theorem countPreempt_stepArrivals (s : State) :
    countPreempt (stepArrivals s) = countPreempt s := by
  obtain ⟨tl, htl, hall⟩ := foldArr_trace (arrivalIdxs s) s
  exact countPreempt_of_trace_app htl
    (fun e he => by rw [hall e he]; simp)

theorem countPreempt_preemptRunning {s : State} {r : Nat}
    (hr : s.running = some r) :
    countPreempt (preemptRunning s) = countPreempt s + 1 := by
  obtain ⟨e, he, hspec⟩ := preemptRunning_spec hr
  unfold countPreempt
  rw [hspec]
  show ((s.trace ++ [e]).filter _).length = _
  rw [List.filter_append]
  simp [he]

theorem countPreempt_dispatchNext (s : State) :
    countPreempt (dispatchNext s) = countPreempt s := by
  by_cases hemp : s.ready.isEmpty = true
  · unfold dispatchNext
    rw [if_pos hemp]
  · obtain ⟨chosen, rest, e, hq, he, hspec⟩ := dispatchNext_spec hemp
    refine @countPreempt_of_trace_app s (dispatchNext s) [e] ?_ ?_
    · rw [hspec]
    · intro f hf
      rw [List.mem_singleton] at hf
      subst hf
      rw [he]
      simp

theorem countPreempt_stepExec_nonRR {s : State}
    (halg : s.algorithm ≠ Algo.RR) :
    countPreempt (stepExec s) = countPreempt s := by
  unfold stepExec
  cases hr : s.running with
  | none =>
    obtain ⟨e, he, hspec⟩ := idleAdvance_spec s
    rw [hspec]
    exact countPreempt_of_trace_app (by rfl)
      (fun f hf => by rw [List.mem_singleton] at hf; subst hf; rw [he]; simp)
  | some r =>
    obtain ⟨G, hexec⟩ := execTick_spec s r
    dsimp only
    rw [hexec]
    have halg6 : ({ s with
        gantt := G
        processes := s.processes.set r
          { proc s r with remainingTime := (proc s r).remainingTime - 1 }
        quantumCounter := s.quantumCounter + 1 } : State).algorithm ≠ Algo.RR := halg
    by_cases hz : (proc { s with
        gantt := G
        processes := s.processes.set r
          { proc s r with remainingTime := (proc s r).remainingTime - 1 }
        quantumCounter := s.quantumCounter + 1 } r).remainingTime = 0
    · rw [if_pos hz]
      obtain ⟨e2, he2, hcomp⟩ := completeRunning_spec _ r
      rw [hcomp]
      exact countPreempt_of_trace_app (by rfl)
        (fun f hf => by rw [List.mem_singleton] at hf; subst hf; rw [he2]; simp)
    · rw [if_neg hz]
      rw [if_neg (fun hc => halg6 hc.1)]
      obtain ⟨e3, he3, htick⟩ := tickAdvance_spec _
      rw [htick]
      exact countPreempt_of_trace_app (by rfl)
        (fun f hf => by rw [List.mem_singleton] at hf; subst hf; rw [he3]; simp)

theorem stepArrivals_rem (s : State) (x : Nat) :
    (proc (stepArrivals s) x).remainingTime = (proc s x).remainingTime := by
  rw [stepArrivals_proc]
  by_cases h : x ∈ arrivalIdxs s <;> simp [h]

theorem stepArrivals_prio (s : State) (x : Nat) :
    (proc (stepArrivals s) x).priority = (proc s x).priority := by
  rw [stepArrivals_proc]
  by_cases h : x ∈ arrivalIdxs s <;> simp [h]

theorem stepPreempt_preempts {s : State} {r : Nat} (hr : s.running = some r)
    (hsp : shouldPreempt s = true) (hnr : s.algorithm ≠ Algo.RR) :
    stepPreempt s = preemptRunning s := by
  unfold stepPreempt
  rw [hr]
  rw [if_pos ⟨hsp, hnr⟩]

theorem stepPreempt_skips {s : State} {r : Nat} (hr : s.running = some r)
    (h : ¬ (shouldPreempt s = true ∧ s.algorithm ≠ Algo.RR)) :
    stepPreempt s = s := by
  unfold stepPreempt
  rw [hr]
  rw [if_neg h]

theorem stepDispatch_none {s : State} (h : s.running = none) :
    stepDispatch s = dispatchNext s := by
  unfold stepDispatch
  rw [h]

theorem stepDispatch_some {s : State} {r : Nat} (h : s.running = some r) :
    stepDispatch s = s := by
  unfold stepDispatch
  rw [h]

theorem step_unfolded {s : State} (hd : isDone s = false) :
    step s = stepExec (stepDispatch (stepPreempt (stepArrivals s))) := by
  unfold step
  rw [hd]
  simp

theorem proc_stepExec_other {s : State} {r j : Nat} (hr : s.running = some r)
    (hne : j ≠ r) : proc (stepExec s) j = proc s j := by
  unfold stepExec
  rw [hr]
  dsimp only
  obtain ⟨G, hexec⟩ := execTick_spec s r
  rw [hexec]
  have hproc6 : proc { s with
      gantt := G
      processes := s.processes.set r
        { proc s r with remainingTime := (proc s r).remainingTime - 1 }
      quantumCounter := s.quantumCounter + 1 } j = proc s j := by
    show (s.processes.set r _).getD j default = _
    rw [getDset, if_neg (fun hc => hne hc.1)]
    rfl
  by_cases hz : (proc { s with
      gantt := G
      processes := s.processes.set r
        { proc s r with remainingTime := (proc s r).remainingTime - 1 }
      quantumCounter := s.quantumCounter + 1 } r).remainingTime = 0
  · rw [if_pos hz]
    obtain ⟨e2, he2, hcomp⟩ := completeRunning_spec _ r
    rw [hcomp]
    show ((s.processes.set r _).set r _).getD j default = _
    rw [List.set_set, getDset, if_neg (fun hc => hne hc.1)]
    rfl
  · rw [if_neg hz]
    by_cases hrr : ({ s with
        gantt := G
        processes := s.processes.set r
          { proc s r with remainingTime := (proc s r).remainingTime - 1 }
        quantumCounter := s.quantumCounter + 1 } : State).algorithm = Algo.RR ∧
      shouldPreempt { s with
        gantt := G
        processes := s.processes.set r
          { proc s r with remainingTime := (proc s r).remainingTime - 1 }
        quantumCounter := s.quantumCounter + 1 } = true
    · rw [if_pos hrr]
      rw [proc_preemptRunning (show ({ s with
          gantt := G
          processes := s.processes.set r
            { proc s r with remainingTime := (proc s r).remainingTime - 1 }
          quantumCounter := s.quantumCounter + 1
          time := s.time + 1 } : State).running = some r from hr)]
      rw [if_neg (fun hc => hne hc.1)]
      exact hproc6
    · rw [if_neg hrr]
      obtain ⟨e3, he3, htick⟩ := tickAdvance_spec _
      rw [htick]
      exact hproc6

end Sched

/-- C2: the preemption rules. (1) SRTF: whenever some process with strictly
smaller remaining time is READY in a step — including one arriving on this
very tick — the running process is preempted in that step before the unit
of work executes: it ends the step READY with its remaining time untouched
and exactly one new PREEMPT event is traced. (2) PRIORITY: if no ready or
arriving process has a strictly lower priority number, no PREEMPT event is
emitted (equal priority never preempts). (3) RR: the preemption predicate
holds exactly when the quantum counter has reached the configured quantum,
independent of any other process's attributes. -/
theorem C2_preemption_rules :
    (∀ (s : Sched.State) (r q : Nat), Sched.Inv s →
      s.algorithm = Sched.Algo.SRTF → s.running = some r →
      (q ∈ s.ready ∨ q ∈ Sched.arrivalIdxs s) →
      (Sched.proc s q).remainingTime < (Sched.proc s r).remainingTime →
      (Sched.proc (Sched.step s) r).state = Sched.PState.READY ∧
      (Sched.proc (Sched.step s) r).remainingTime =
        (Sched.proc s r).remainingTime ∧
      Sched.countPreempt (Sched.step s) = Sched.countPreempt s + 1)
    ∧
    (∀ (s : Sched.State) (r : Nat), Sched.Inv s →
      s.algorithm = Sched.Algo.PRIORITY → s.running = some r →
      (∀ q ∈ s.ready, ¬ (Sched.proc s q).priority < (Sched.proc s r).priority) →
      (∀ q ∈ Sched.arrivalIdxs s,
        ¬ (Sched.proc s q).priority < (Sched.proc s r).priority) →
      Sched.countPreempt (Sched.step s) = Sched.countPreempt s)
    ∧
    (∀ (s : Sched.State) (r : Nat), s.running = some r →
      s.algorithm = Sched.Algo.RR →
      (Sched.shouldPreempt s = true ↔ s.quantum ≤ s.quantumCounter)) := by
  refine ⟨?_, ?_, ?_⟩
  · -- SRTF
    intro s r q hInv halg hrun hq hlt
    have hd := Sched.not_isDone_of_running hInv hrun
    rw [Sched.step_unfolded hd]
    have hI1 := Sched.inv_stepArrivals hInv
    obtain ⟨f1, f2, f3, f4, f5, f6, f7, f8⟩ := Sched.stepArrivals_frame s
    have hrun1 : (Sched.stepArrivals s).running = some r := by rw [f1, hrun]
    have halg1 : (Sched.stepArrivals s).algorithm = Sched.Algo.SRTF := by
      rw [f3, halg]
    have hq1 : q ∈ (Sched.stepArrivals s).ready := by
      rw [Sched.stepArrivals_ready, List.mem_append]
      exact hq
    have hqr : q ≠ r := fun hc => by rw [hc] at hlt; omega
    have hlt1 : (Sched.proc (Sched.stepArrivals s) q).remainingTime <
        (Sched.proc (Sched.stepArrivals s) r).remainingTime := by
      rw [Sched.stepArrivals_rem, Sched.stepArrivals_rem]
      exact hlt
    have hsp1 := Sched.shouldPreempt_srtf halg1 hrun1 hq1 hlt1
    rw [Sched.stepPreempt_preempts hrun1 hsp1 (by rw [halg1]; simp)]
    -- state after the preemption
    obtain ⟨g1, g2, g3, g4, g5, g6, g7, g8, g9, e1, he1, htr1⟩ :=
      Sched.preemptRunning_frame hrun1
    obtain ⟨hr1l, hr1s⟩ := hI1.2.1 r (by rw [hrun1]; simp)
    have hproc2 := Sched.proc_preemptRunning hrun1
    have hI2 := Sched.inv_preemptRunning hI1
    rw [Sched.stepDispatch_none g3]
    have hq2 : q ∈ (Sched.preemptRunning (Sched.stepArrivals s)).ready := by
      rw [g2, List.mem_append]
      exact Or.inl hq1
    have hemp2 : ¬ (Sched.preemptRunning (Sched.stepArrivals s)).ready.isEmpty
        = true := by
      intro hc
      rw [List.isEmpty_iff] at hc
      rw [hc] at hq2
      exact List.not_mem_nil q hq2
    obtain ⟨chosen, rest, e2, hq3, he2, hspec3⟩ := Sched.dispatchNext_spec hemp2
    -- remaining times in the post-preemption state
    have hrem2r : (Sched.proc (Sched.preemptRunning (Sched.stepArrivals s)) r).remainingTime
        = (Sched.proc s r).remainingTime := by
      rw [hproc2 r, if_pos ⟨rfl, hr1l⟩]
      show (Sched.proc (Sched.stepArrivals s) r).remainingTime = _
      exact Sched.stepArrivals_rem s r
    have hrem2q : (Sched.proc (Sched.preemptRunning (Sched.stepArrivals s)) q).remainingTime
        = (Sched.proc s q).remainingTime := by
      rw [hproc2 q, if_neg (fun hc => hqr hc.1)]
      exact Sched.stepArrivals_rem s q
    -- the dispatched process is not r
    have hqueue : Sched.dispatchQueue (Sched.preemptRunning (Sched.stepArrivals s)) =
        List.insertionSort
          (Sched.leRel (Sched.preemptRunning (Sched.stepArrivals s))
            (fun p => p.remainingTime) (fun p => p.arrivalTime))
          (Sched.preemptRunning (Sched.stepArrivals s)).ready := by
      unfold Sched.dispatchQueue Sched.sortReady
      rw [g4, halg1]
    have hhead : (List.insertionSort
        (Sched.leRel (Sched.preemptRunning (Sched.stepArrivals s))
          (fun p => p.remainingTime) (fun p => p.arrivalTime))
        (Sched.preemptRunning (Sched.stepArrivals s)).ready).head? = some chosen := by
      rw [← hqueue, hq3]
      rfl
    have hmin := (Sched.head_min_insertionSort _ _ _ hhead).2 q hq2
    have hchne : chosen ≠ r := by
      intro hc
      rw [hc, hrem2r, hrem2q] at hmin
      omega
    -- r is untouched by the dispatch and by the execution of `chosen`
    have hproc3r : Sched.proc (Sched.dispatchNext
        (Sched.preemptRunning (Sched.stepArrivals s))) r =
        Sched.proc (Sched.preemptRunning (Sched.stepArrivals s)) r := by
      rw [hspec3]
      show ((Sched.preemptRunning (Sched.stepArrivals s)).processes.set chosen _).getD
        r default = _
      rw [Sched.getDset, if_neg (fun hc => hchne hc.1.symm)]
      rfl
    have hrun3 : (Sched.dispatchNext
        (Sched.preemptRunning (Sched.stepArrivals s))).running = some chosen := by
      rw [hspec3]
    have hproc4r := Sched.proc_stepExec_other hrun3 (Ne.symm hchne)
    rw [hproc4r, hproc3r]
    refine ⟨?_, ?_, ?_⟩
    · rw [hproc2 r, if_pos ⟨rfl, hr1l⟩]
    · exact hrem2r
    · -- PREEMPT event counting
      have halg3 : (Sched.dispatchNext
          (Sched.preemptRunning (Sched.stepArrivals s))).algorithm ≠ Sched.Algo.RR := by
        rw [hspec3]
        show (Sched.preemptRunning (Sched.stepArrivals s)).algorithm ≠ Sched.Algo.RR
        rw [g4, halg1]
        simp
      rw [Sched.countPreempt_stepExec_nonRR halg3,
        Sched.countPreempt_dispatchNext,
        Sched.countPreempt_preemptRunning hrun1,
        Sched.countPreempt_stepArrivals]
  · -- PRIORITY
    intro s r hInv halg hrun hge1 hge2
    have hd := Sched.not_isDone_of_running hInv hrun
    rw [Sched.step_unfolded hd]
    obtain ⟨f1, f2, f3, f4, f5, f6, f7, f8⟩ := Sched.stepArrivals_frame s
    have hrun1 : (Sched.stepArrivals s).running = some r := by rw [f1, hrun]
    have halg1 : (Sched.stepArrivals s).algorithm = Sched.Algo.PRIORITY := by
      rw [f3, halg]
    have hge : ∀ q ∈ (Sched.stepArrivals s).ready,
        ¬ (Sched.proc (Sched.stepArrivals s) q).priority <
          (Sched.proc (Sched.stepArrivals s) r).priority := by
      intro q hqmem
      rw [Sched.stepArrivals_prio, Sched.stepArrivals_prio]
      rw [Sched.stepArrivals_ready, List.mem_append] at hqmem
      rcases hqmem with hmm | hmm
      · exact hge1 q hmm
      · exact hge2 q hmm
    have hsp1 := Sched.shouldPreempt_priority_false halg1 hrun1 hge
    rw [Sched.stepPreempt_skips hrun1 (fun hc => by rw [hsp1] at hc; cases hc.1)]
    rw [Sched.stepDispatch_some hrun1]
    rw [Sched.countPreempt_stepExec_nonRR (by rw [halg1]; simp),
      Sched.countPreempt_stepArrivals]
  · -- RR
    intro s r hrun halg
    exact Sched.shouldPreempt_rr halg hrun
/-- Witness for C2: the three preemption rules applied at concrete states. -/
theorem C2_preemption_rules_witness :
    ((Sched.proc (Sched.step Sched.srtfDemoState) 0).state = Sched.PState.READY ∧
     (Sched.proc (Sched.step Sched.srtfDemoState) 0).remainingTime =
       (Sched.proc Sched.srtfDemoState 0).remainingTime ∧
     Sched.countPreempt (Sched.step Sched.srtfDemoState) =
       Sched.countPreempt Sched.srtfDemoState + 1) ∧
    (Sched.countPreempt (Sched.step Sched.prioDemoState) =
       Sched.countPreempt Sched.prioDemoState) ∧
    (Sched.shouldPreempt Sched.rrDemoState = true ↔
       Sched.rrDemoState.quantum ≤ Sched.rrDemoState.quantumCounter) :=
  ⟨C2_preemption_rules.1 Sched.srtfDemoState 0 1 (by decide) rfl rfl
      (Or.inl (by decide)) (by decide),
   C2_preemption_rules.2.1 Sched.prioDemoState 0 (by decide) rfl rfl
      (by decide) (by decide),
   C2_preemption_rules.2.2 Sched.rrDemoState 0 rfl rfl⟩
namespace Mem

theorem chainB_append : ∀ (l1 l2 : List Segment) (off : Int),
    chainB off (l1 ++ l2) =
      (chainB off l1 && chainB (off + (l1.map (fun g => g.size)).sum) l2) := by
  intro l1
  induction l1 with
  | nil => intro l2 off; simp [chainB]
  | cons g l1 ih =>
    intro l2 off
    show (decide (g.start = off) && chainB (off + g.size) (l1 ++ l2)) =
      ((decide (g.start = off) && chainB (off + g.size) l1) &&
        chainB (off + (List.map (fun g => g.size) (g :: l1)).sum) l2)
    rw [ih l2 (off + g.size)]
    simp only [List.map_cons, List.sum_cons]
    rw [show off + (g.size + (l1.map (fun g => g.size)).sum) =
      off + g.size + (l1.map (fun g => g.size)).sum by omega]
    rw [Bool.and_assoc]

theorem chainB_start_ge : ∀ (l : List Segment) (off : Int),
    chainB off l = true → (∀ g ∈ l, 1 ≤ g.size) →
    ∀ i (hi : i < l.length), off ≤ l[i].start := by
  intro l
  induction l with
  | nil => intro off _ _ i hi; simp at hi
  | cons g rest ih =>
    intro off hch hsz i hi
    rw [chainB, Bool.and_eq_true, decide_eq_true_eq] at hch
    cases i with
    | zero => simp [hch.1]
    | succ i =>
      have hg := hsz g (by simp)
      have := ih (off + g.size) hch.2 (fun x hx => hsz x (by simp [hx]))
        i (by simpa using hi)
      simp only [List.getElem_cons_succ]
      omega

theorem chainB_start_mono : ∀ (l : List Segment) (off : Int),
    chainB off l = true → (∀ g ∈ l, 1 ≤ g.size) →
    ∀ i j (hi : i < l.length) (hj : j < l.length), i < j →
      l[i].start < l[j].start := by
  intro l
  induction l with
  | nil => intro off _ _ i j hi; simp at hi
  | cons g rest ih =>
    intro off hch hsz i j hi hj hij
    rw [chainB, Bool.and_eq_true, decide_eq_true_eq] at hch
    cases i with
    | zero =>
      cases j with
      | zero => omega
      | succ j =>
        have hg := hsz g (by simp)
        have := chainB_start_ge rest (off + g.size) hch.2
          (fun x hx => hsz x (by simp [hx])) j (by simpa using hj)
        simp only [List.getElem_cons_zero, List.getElem_cons_succ, hch.1]
        omega
    | succ i =>
      cases j with
      | zero => omega
      | succ j =>
        simp only [List.getElem_cons_succ]
        exact ih (off + g.size) hch.2 (fun x hx => hsz x (by simp [hx]))
          i j (by simpa using hi) (by simpa using hj) (by omega)

theorem mem_candIdxs {s : MemState} {a : Int} {j : Nat} :
    j ∈ candIdxs s a ↔
      j < s.segments.length ∧ (seg s j).free = true ∧ a ≤ (seg s j).size := by
  simp [candIdxs, List.mem_filter, List.mem_range, and_assoc]

theorem pairwise_candIdxs (s : MemState) (a : Int) :
    List.Pairwise (· < ·) (candIdxs s a) :=
  List.Pairwise.sublist (List.filter_sublist _) (List.pairwise_lt_range _)

theorem alignUp_ge {v u : Int} (hu : 1 ≤ u) : v ≤ alignUp v u := by
  unfold alignUp
  rw [neg_mul]
  have h := Int.ediv_mul_le (-v) (show u ≠ 0 by omega)
  omega

theorem foldl_min_spec (k : Nat → Int) :
    ∀ (cs : List Nat) (c : Nat),
      (cs.foldl (fun best cand => if k cand < k best then cand else best) c)
        ∈ c :: cs ∧
      (∀ x ∈ c :: cs,
        k (cs.foldl (fun best cand => if k cand < k best then cand else best) c)
          ≤ k x) ∧
      ((c :: cs).Pairwise (· < ·) →
        ∀ x ∈ c :: cs,
          k x = k (cs.foldl
            (fun best cand => if k cand < k best then cand else best) c) →
          (cs.foldl (fun best cand => if k cand < k best then cand else best) c)
            ≤ x) := by
  intro cs
  induction cs with
  | nil =>
    intro c
    refine ⟨by simp, ?_, ?_⟩
    · intro x hx
      rw [List.mem_singleton] at hx
      subst hx
      exact le_refl _
    · intro _ x hx _
      rw [List.mem_singleton] at hx
      subst hx
      exact le_refl _
  | cons d cs ih =>
    intro c
    simp only [List.foldl_cons]
    obtain ⟨ihmem, ihmin, ihtie⟩ := ih (if k d < k c then d else c)
    by_cases hdc : k d < k c
    · rw [if_pos hdc] at ihmem ihmin ihtie ⊢
      refine ⟨?_, ?_, ?_⟩
      · rcases List.mem_cons.mp ihmem with h | h
        · simp [h]
        · simp [List.mem_cons, h]
      · intro x hx
        rcases List.mem_cons.mp hx with h | h
        · subst h
          have := ihmin d (by simp)
          omega
        · exact ihmin x h
      · intro hpair x hx hkx
        have hpair' : (d :: cs).Pairwise (· < ·) :=
          (List.pairwise_cons.mp hpair).2
        rcases List.mem_cons.mp hx with h | h
        · subst h
          have := ihmin d (by simp)
          omega
        · exact ihtie hpair' x h hkx
    · rw [if_neg hdc] at ihmem ihmin ihtie ⊢
      refine ⟨?_, ?_, ?_⟩
      · rcases List.mem_cons.mp ihmem with h | h
        · simp [h]
        · simp [List.mem_cons, h]
      · intro x hx
        rcases List.mem_cons.mp hx with h | h
        · rw [h]
          exact ihmin c (by simp)
        · rcases List.mem_cons.mp h with h2 | h2
          · rw [h2]
            have := ihmin c (by simp)
            omega
          · exact ihmin x (by simp [h2])
      · intro hpair x hx hkx
        have hcd : c < d := (List.pairwise_cons.mp hpair).1 d (by simp)
        have hpair' : (c :: cs).Pairwise (· < ·) := by
          rw [List.pairwise_cons]
          refine ⟨?_, ((List.pairwise_cons.mp (List.pairwise_cons.mp hpair).2).2)⟩
          intro b hb
          exact (List.pairwise_cons.mp hpair).1 b (by simp [hb])
        rcases List.mem_cons.mp hx with h | h
        · rw [h] at hkx ⊢
          exact ihtie hpair' c (by simp) hkx
        · rcases List.mem_cons.mp h with h2 | h2
          · rw [h2] at hkx ⊢
            have hminc := ihmin c (by simp)
            have hkc : k c =
                k (cs.foldl (fun best cand => if k cand < k best then cand else best) c) := by
              omega
            have hrc := ihtie hpair' c (by simp) hkc
            rcases List.mem_cons.mp ihmem with h3 | h3
            · omega
            · have := (List.pairwise_cons.mp hpair').1 _ h3
              omega
          · exact ihtie hpair' x (by simp [h2]) hkx

end Mem
namespace Mem

theorem foldl_max_spec (k : Nat → Int) :
    ∀ (cs : List Nat) (c : Nat),
      (cs.foldl (fun best cand => if k best < k cand then cand else best) c)
        ∈ c :: cs ∧
      (∀ x ∈ c :: cs,
        k x ≤ k (cs.foldl
          (fun best cand => if k best < k cand then cand else best) c)) ∧
      ((c :: cs).Pairwise (· < ·) →
        ∀ x ∈ c :: cs,
          k x = k (cs.foldl
            (fun best cand => if k best < k cand then cand else best) c) →
          (cs.foldl (fun best cand => if k best < k cand then cand else best) c)
            ≤ x) := by
  intro cs
  induction cs with
  | nil =>
    intro c
    refine ⟨by simp, ?_, ?_⟩
    · intro x hx
      rw [List.mem_singleton] at hx
      subst hx
      exact le_refl _
    · intro _ x hx _
      rw [List.mem_singleton] at hx
      subst hx
      exact le_refl _
  | cons d cs ih =>
    intro c
    simp only [List.foldl_cons]
    obtain ⟨ihmem, ihmin, ihtie⟩ := ih (if k c < k d then d else c)
    by_cases hdc : k c < k d
    · rw [if_pos hdc] at ihmem ihmin ihtie ⊢
      refine ⟨?_, ?_, ?_⟩
      · rcases List.mem_cons.mp ihmem with h | h
        · simp [h]
        · simp [List.mem_cons, h]
      · intro x hx
        rcases List.mem_cons.mp hx with h | h
        · rw [h]
          have := ihmin d (by simp)
          omega
        · exact ihmin x h
      · intro hpair x hx hkx
        have hpair' : (d :: cs).Pairwise (· < ·) :=
          (List.pairwise_cons.mp hpair).2
        rcases List.mem_cons.mp hx with h | h
        · rw [h] at hkx ⊢
          have := ihmin d (by simp)
          omega
        · exact ihtie hpair' x h hkx
    · rw [if_neg hdc] at ihmem ihmin ihtie ⊢
      refine ⟨?_, ?_, ?_⟩
      · rcases List.mem_cons.mp ihmem with h | h
        · simp [h]
        · simp [List.mem_cons, h]
      · intro x hx
        rcases List.mem_cons.mp hx with h | h
        · rw [h]
          exact ihmin c (by simp)
        · rcases List.mem_cons.mp h with h2 | h2
          · rw [h2]
            have := ihmin c (by simp)
            omega
          · exact ihmin x (by simp [h2])
      · intro hpair x hx hkx
        have hcd : c < d := (List.pairwise_cons.mp hpair).1 d (by simp)
        have hpair' : (c :: cs).Pairwise (· < ·) := by
          rw [List.pairwise_cons]
          refine ⟨?_, ((List.pairwise_cons.mp (List.pairwise_cons.mp hpair).2).2)⟩
          intro b hb
          exact (List.pairwise_cons.mp hpair).1 b (by simp [hb])
        rcases List.mem_cons.mp hx with h | h
        · rw [h] at hkx ⊢
          exact ihtie hpair' c (by simp) hkx
        · rcases List.mem_cons.mp h with h2 | h2
          · rw [h2] at hkx ⊢
            have hminc := ihmin c (by simp)
            have hkc : k c =
                k (cs.foldl (fun best cand => if k best < k cand then cand else best) c) := by
              omega
            have hrc := ihtie hpair' c (by simp) hkc
            rcases List.mem_cons.mp ihmem with h3 | h3
            · omega
            · have := (List.pairwise_cons.mp hpair').1 _ h3
              omega
          · exact ihtie hpair' x (by simp [h2]) hkx

end Mem
namespace Mem


theorem build_eq : ∀ (holes : List Int) (pre : List Segment) (off : Int),
    (holes.foldl
      (fun (acc : List Segment × Int) size =>
        (acc.1 ++ [{ start := acc.2, size := size, free := true,
                     processId := none, requestedSize := none }],
         acc.2 + size))
      (pre, off))
    = (pre ++ buildFrom off holes, off + holes.sum) := by
  intro holes
  induction holes with
  | nil => intro pre off; simp [buildFrom]
  | cons h hs ih =>
    intro pre off
    rw [List.foldl_cons, ih]
    simp only [buildFrom, List.sum_cons]
    rw [Prod.mk.injEq]
    exact ⟨by simp, by omega⟩

theorem buildInitialSegments_eq (holes : List Int) :
    buildInitialSegments holes = buildFrom 0 holes := by
  unfold buildInitialSegments
  rw [build_eq]
  simp

theorem chainB_buildFrom : ∀ (holes : List Int) (off : Int),
    chainB off (buildFrom off holes) = true := by
  intro holes
  induction holes with
  | nil => intro off; rfl
  | cons h hs ih =>
    intro off
    simp only [buildFrom, chainB, Bool.and_eq_true, decide_eq_true_eq]
    exact ⟨trivial, ih (off + h)⟩

theorem map_size_buildFrom : ∀ (holes : List Int) (off : Int),
    (buildFrom off holes).map (fun g => g.size) = holes := by
  intro holes
  induction holes with
  | nil => intro off; rfl
  | cons h hs ih =>
    intro off
    simp only [buildFrom, List.map_cons, ih]

theorem memWf_mk {reqs : List ReqSpec} {algo : MemAlgo} {holes : List Int}
    {unit : Int} (hh : ∀ h ∈ holes, 1 ≤ h) (hu : 1 ≤ unit)
    (hr : ∀ r ∈ reqs, 1 ≤ r.size) :
    MemWf (mkMemEngine reqs algo holes unit) := by
  refine ⟨?_, ?_, ?_, hu, ?_⟩
  · show chainB 0 (buildInitialSegments holes) = true
    rw [buildInitialSegments_eq]
    exact chainB_buildFrom holes 0
  · show ((buildInitialSegments holes).map (fun g => g.size)).sum = holes.sum
    rw [buildInitialSegments_eq, map_size_buildFrom]
  · intro g hg
    rw [show (mkMemEngine reqs algo holes unit).segments =
      buildFrom 0 holes from buildInitialSegments_eq holes] at hg
    have : g.size ∈ holes := by
      rw [← map_size_buildFrom holes 0]
      exact List.mem_map_of_mem _ hg
    exact hh _ this
  · intro r hrm
    show 1 ≤ r.size
    simp only [mkMemEngine, hydrateRequests, List.mem_map] at hrm
    obtain ⟨r0, hr0, heq⟩ := hrm
    subst heq
    by_cases h0 : r0.size = 0 <;> simp [h0]
    exact hr r0 hr0

theorem seg_eq_getElem {s : MemState} {i : Nat} (h : i < s.segments.length) :
    seg s i = s.segments[i] := by
  simp [seg, List.getD, List.getElem?_eq_getElem h]

theorem selectHole_some_mem {s : MemState} {req : Request} {hIdx : Nat}
    {a : Int} (h : selectHole s req = (some hIdx, a)) :
    hIdx ∈ candIdxs s a ∧ a = alignUp req.size s.allocationUnit := by
  unfold selectHole at h
  dsimp only at h
  cases hc : candIdxs s (alignUp req.size s.allocationUnit) with
  | nil => rw [hc] at h; cases h
  | cons c cs =>
    rw [hc] at h
    simp only [Prod.mk.injEq, Option.some.injEq] at h
    obtain ⟨hchosen, ha⟩ := h
    subst ha
    rw [hc]
    refine ⟨?_, rfl⟩
    rw [← hchosen]
    cases halg : s.algorithm with
    | BEST_FIT =>
      exact (foldl_min_spec (fun i => (seg s i).size) cs c).1
    | WORST_FIT =>
      exact (foldl_max_spec (fun i => (seg s i).size) cs c).1
    | FIRST_FIT => simp

theorem selectHole_none {s : MemState} {req : Request} {a : Int}
    (h : selectHole s req = (none, a)) :
    candIdxs s a = [] ∧ a = alignUp req.size s.allocationUnit := by
  unfold selectHole at h
  dsimp only at h
  cases hc : candIdxs s (alignUp req.size s.allocationUnit) with
  | nil =>
    rw [hc] at h
    simp only [Prod.mk.injEq] at h
    exact ⟨h.2 ▸ hc, h.2.symm⟩
  | cons c cs => rw [hc] at h; cases h

end Mem
namespace Mem

theorem allocateSegment_spec (s : MemState) (req : Request) (hIdx : Nat)
    (a : Int) :
    ∃ ev : MemEvent, allocateSegment s req hIdx a =
      { s with
        segments := s.segments.take hIdx ++
          (if (seg s hIdx).size - a > 0 then
            [{ start := (seg s hIdx).start, size := a, free := false,
               processId := some req.pid, requestedSize := some req.size },
             { start := (seg s hIdx).start + a, size := (seg s hIdx).size - a,
               free := true, processId := none, requestedSize := none }]
          else
            [{ start := (seg s hIdx).start, size := a, free := false,
               processId := some req.pid, requestedSize := some req.size }]) ++
          s.segments.drop (hIdx + 1)
        internalFragmentation := s.internalFragmentation + (a - req.size)
        requests := s.requests.set s.currentIndex
          { req with status := ReqStatus.ALLOCATED
                     allocation := some ((seg s hIdx).start, a) }
        logs := s.logs ++ [ev]
        lastEvent := some ev } :=
  ⟨_, rfl⟩

theorem memWf_step {s : MemState} (h : MemWf s) :
    MemWf (memStep s) ∧ s.segments.length ≤ (memStep s).segments.length := by
  obtain ⟨hch, hsum, hsz, hu, hreq⟩ := h
  by_cases hdone : memIsDone s = true
  · unfold memStep
    rw [if_pos hdone]
    exact ⟨⟨hch, hsum, hsz, hu, hreq⟩, le_refl _⟩
  · unfold memStep
    rw [if_neg hdone]
    dsimp only
    have hidx : s.currentIndex < s.requests.length := by
      simp only [memIsDone, decide_eq_true_eq] at hdone
      omega
    have hreqeq : s.requests.getD s.currentIndex default =
        s.requests[s.currentIndex] := by
      simp [List.getD, List.getElem?_eq_getElem hidx]
    have hreqmem : s.requests.getD s.currentIndex default ∈ s.requests := by
      rw [hreqeq]
      exact List.getElem_mem hidx
    have hreq1 : 1 ≤ (s.requests.getD s.currentIndex default).size :=
      hreq _ hreqmem
    cases hsel : selectHole s (s.requests.getD s.currentIndex default) with
    | mk o a =>
      cases o with
      | none =>
        refine ⟨⟨hch, hsum, hsz, hu, ?_⟩, le_refl _⟩
        intro r hr
        rcases List.mem_or_eq_of_mem_set hr with hmm | hmm
        · exact hreq r hmm
        · subst hmm
          exact hreq1
      | some hIdx =>
        obtain ⟨hmem, ha⟩ := selectHole_some_mem hsel
        obtain ⟨hlen, hfree, hsize⟩ := mem_candIdxs.mp hmem
        have haligned1 : 1 ≤ a := by
          rw [ha]
          have := @alignUp_ge (s.requests.getD s.currentIndex default).size _ hu
          omega
        obtain ⟨ev, halloc⟩ :=
          allocateSegment_spec s (s.requests.getD s.currentIndex default) hIdx a
        dsimp only
        rw [halloc]
        have hsplit : s.segments = s.segments.take hIdx ++
            (seg s hIdx :: s.segments.drop (hIdx + 1)) := by
          conv_lhs => rw [← List.take_append_drop hIdx s.segments]
          rw [List.drop_eq_getElem_cons hlen, seg_eq_getElem hlen]
        have hchold := hch
        rw [hsplit, chainB_append] at hchold
        rw [Bool.and_eq_true] at hchold
        obtain ⟨hchT, hchR⟩ := hchold
        rw [show chainB
            (0 + ((s.segments.take hIdx).map (fun g => g.size)).sum)
            (seg s hIdx :: s.segments.drop (hIdx + 1)) =
          (decide ((seg s hIdx).start =
            0 + ((s.segments.take hIdx).map (fun g => g.size)).sum) &&
           chainB (0 + ((s.segments.take hIdx).map (fun g => g.size)).sum +
             (seg s hIdx).size) (s.segments.drop (hIdx + 1))) from rfl] at hchR
        rw [Bool.and_eq_true, decide_eq_true_eq] at hchR
        obtain ⟨hstart, hchD⟩ := hchR
        constructor
        constructor
        · -- chain of the new segment list
          show chainB 0 _ = true
          rw [List.append_assoc, chainB_append, Bool.and_eq_true]
          refine ⟨hchT, ?_⟩
          rw [chainB_append, Bool.and_eq_true]
          by_cases hrem : (seg s hIdx).size - a > 0
          · rw [if_pos hrem]
            constructor
            · show (decide _ && (decide _ && chainB _ [])) = true
              simp only [chainB, Bool.and_true, Bool.and_eq_true,
                decide_eq_true_eq]
              omega
            · rw [show 0 + ((s.segments.take hIdx).map (fun g => g.size)).sum +
                (List.map (fun g => g.size)
                  [({ start := (seg s hIdx).start, size := a, free := false,
                      processId := some (s.requests.getD s.currentIndex default).pid,
                      requestedSize :=
                        some (s.requests.getD s.currentIndex default).size } : Segment),
                   { start := (seg s hIdx).start + a,
                     size := (seg s hIdx).size - a,
                     free := true, processId := none,
                     requestedSize := none }]).sum =
                0 + ((s.segments.take hIdx).map (fun g => g.size)).sum +
                  (seg s hIdx).size by
                simp only [List.map_cons, List.map_nil, List.sum_cons,
                  List.sum_nil]
                omega]
              exact hchD
          · rw [if_neg hrem]
            have haeq : a = (seg s hIdx).size := by omega
            constructor
            · show (decide _ && chainB _ []) = true
              simp only [chainB, Bool.and_true, decide_eq_true_eq]
              omega
            · rw [show 0 + ((s.segments.take hIdx).map (fun g => g.size)).sum +
                (List.map (fun g => g.size)
                  [({ start := (seg s hIdx).start, size := a, free := false,
                      processId := some (s.requests.getD s.currentIndex default).pid,
                      requestedSize :=
                        some (s.requests.getD s.currentIndex default).size } : Segment)]).sum =
                0 + ((s.segments.take hIdx).map (fun g => g.size)).sum +
                  (seg s hIdx).size by
                simp only [List.map_cons, List.map_nil, List.sum_cons,
                  List.sum_nil]
                omega]
              exact hchD
        · -- size accounting and the remaining invariants
          refine ⟨?_, ?_, hu, ?_⟩
          · show (List.map (fun (g : Segment) => g.size) _).sum = s.memorySize
            rw [← hsum]
            conv_rhs => rw [hsplit]
            simp only [List.map_append, List.sum_append, List.map_cons,
              List.sum_cons]
            by_cases hrem : (seg s hIdx).size - a > 0
            · rw [if_pos hrem]; simp; omega
            · rw [if_neg hrem]
              have haeq : a = (seg s hIdx).size := by omega
              simp; omega
          · intro g hg
            rcases List.mem_append.mp hg with hg1 | hg1
            · rcases List.mem_append.mp hg1 with hg2 | hg2
              · exact hsz g (List.mem_of_mem_take hg2)
              · by_cases hrem : (seg s hIdx).size - a > 0
                · rw [if_pos hrem] at hg2
                  rcases List.mem_cons.mp hg2 with hg3 | hg3
                  · subst hg3; exact haligned1
                  · rcases List.mem_cons.mp hg3 with hg4 | hg4
                    · subst hg4
                      show 1 ≤ (seg s hIdx).size - a
                      omega
                    · simp at hg4
                · rw [if_neg hrem] at hg2
                  rcases List.mem_cons.mp hg2 with hg3 | hg3
                  · subst hg3; exact haligned1
                  · simp at hg3
            · exact hsz g (List.mem_of_mem_drop hg1)
          · intro r hr
            rcases List.mem_or_eq_of_mem_set hr with hmm | hmm
            · exact hreq r hmm
            · subst hmm
              exact hreq1
        · -- the segment count never decreases
          show s.segments.length ≤ List.length _
          conv_lhs => rw [hsplit]
          simp only [List.length_append, List.length_cons]
          by_cases hrem : (seg s hIdx).size - a > 0
          · rw [if_pos hrem]
            simp only [List.length_append, List.length_cons, List.length_nil,
              List.length_take, List.length_drop]
            omega
          · rw [if_neg hrem]
            simp only [List.length_append, List.length_cons, List.length_nil,
              List.length_take, List.length_drop]
            omega

end Mem

namespace Mem

theorem memWf_runSteps : ∀ (n : Nat) {s : MemState}, MemWf s →
    MemWf (memRunSteps n s)
  | 0, _, h => h
  | n + 1, s, h => by
    unfold memRunSteps
    by_cases hd : memIsDone s = true
    · rw [if_pos hd]; exact h
    · rw [if_neg hd]; exact memWf_runSteps n (memWf_step h).1

theorem memStep_memorySize (s : MemState) :
    (memStep s).memorySize = s.memorySize := by
  unfold memStep
  by_cases hd : memIsDone s = true
  · rw [if_pos hd]
  · rw [if_neg hd]
    dsimp only
    cases hsel : selectHole s (s.requests.getD s.currentIndex default) with
    | mk o a => cases o <;> rfl

theorem memRunSteps_memorySize : ∀ (n : Nat) (s : MemState),
    (memRunSteps n s).memorySize = s.memorySize
  | 0, _ => rfl
  | n + 1, s => by
    unfold memRunSteps
    by_cases hd : memIsDone s = true
    · rw [if_pos hd]
    · rw [if_neg hd]
      rw [memRunSteps_memorySize n (memStep s), memStep_memorySize]

/-- C7: at every reachable state of the memory engine (the initial state
and after any number of steps), the segment list read in order partitions
`[0, memorySize)` with no gaps or overlaps (each segment starts where the
previous one ends, starting from 0), the segment sizes sum to
`memorySize`, which is conserved at the sum of the initial holes, every
segment has positive size, and a step never decreases the number of
segments (adjacent free segments are never merged). -/
theorem C7_segment_partition (reqs : List ReqSpec) (algo : MemAlgo)
    (holes : List Int) (unit : Int) (n : Nat)
    (hh : ∀ h ∈ holes, 1 ≤ h) (hu : 1 ≤ unit)
    (hr : ∀ r ∈ reqs, 1 ≤ r.size) :
    chainB 0 (memRunSteps n (mkMemEngine reqs algo holes unit)).segments
      = true ∧
    ((memRunSteps n (mkMemEngine reqs algo holes unit)).segments.map
        (fun g => g.size)).sum =
      (memRunSteps n (mkMemEngine reqs algo holes unit)).memorySize ∧
    (memRunSteps n (mkMemEngine reqs algo holes unit)).memorySize =
      holes.sum ∧
    (∀ g ∈ (memRunSteps n (mkMemEngine reqs algo holes unit)).segments,
      1 ≤ g.size) ∧
    (memRunSteps n (mkMemEngine reqs algo holes unit)).segments.length ≤
      (memStep
        (memRunSteps n (mkMemEngine reqs algo holes unit))).segments.length
    := by
  have hwf := memWf_runSteps n (@memWf_mk reqs algo holes unit hh hu hr)
  obtain ⟨hch, hsum, hsz, _, _⟩ := hwf
  refine ⟨hch, hsum, ?_, hsz,
    (memWf_step
      (memWf_runSteps n (@memWf_mk reqs algo holes unit hh hu hr))).2⟩
  rw [memRunSteps_memorySize]
  rfl

theorem C7_segment_partition_witness :
    chainB 0 (memRunSteps 4 memDemo).segments = true ∧
    ((memRunSteps 4 memDemo).segments.map (fun g => g.size)).sum =
      (memRunSteps 4 memDemo).memorySize ∧
    (memRunSteps 4 memDemo).memorySize = ([100, 500, 200, 300] : List Int).sum ∧
    (∀ g ∈ (memRunSteps 4 memDemo).segments, 1 ≤ g.size) ∧
    (memRunSteps 4 memDemo).segments.length ≤
      (memStep (memRunSteps 4 memDemo)).segments.length :=
  C7_segment_partition [⟨1, 24⟩, ⟨2, 16⟩, ⟨3, 32⟩, ⟨4, 8⟩] MemAlgo.BEST_FIT
    [100, 500, 200, 300] 1 4 (by decide) (by decide) (by decide)


theorem start_le_of_idx_le {s : MemState} (hwf : MemWf s) {i j : Nat}
    (hi : i < s.segments.length) (hj : j < s.segments.length) (hij : i ≤ j) :
    (seg s i).start ≤ (seg s j).start := by
  rcases Nat.lt_or_ge i j with hlt | hge
  · have := chainB_start_mono s.segments 0 hwf.1 hwf.2.2.1 i j hi hj hlt
    rw [seg_eq_getElem hi, seg_eq_getElem hj]
    omega
  · have : i = j := by omega
    rw [this]

theorem memRunSteps_done : ∀ (n : Nat) {s : MemState},
    memIsDone s = true → memRunSteps n s = s
  | 0, _, _ => rfl
  | _ + 1, _, h => by unfold memRunSteps; rw [if_pos h]

theorem memRunSteps_add : ∀ (m n : Nat) (s : MemState),
    memRunSteps (m + n) s = memRunSteps n (memRunSteps m s) := by
  intro m
  induction m with
  | zero => intro n s; rw [Nat.zero_add]; rfl
  | succ m ih =>
    intro n s
    by_cases hd : memIsDone s = true
    · rw [memRunSteps_done (m + 1 + n) hd, memRunSteps_done (m + 1) hd,
        memRunSteps_done n hd]
    · have h1 : memRunSteps (m + 1 + n) s = memRunSteps (m + n) (memStep s) := by
        rw [show m + 1 + n = (m + n) + 1 by omega]
        simp only [memRunSteps]
        rw [if_neg hd]
      have h2 : memRunSteps (m + 1) s = memRunSteps m (memStep s) := by
        simp only [memRunSteps]
        rw [if_neg hd]
      rw [h1, h2, ih]

/-- C4: whenever `selectHole` picks a hole, that hole is a free segment at
least as large as the aligned request; under BEST_FIT it is a smallest
such segment and ties are broken by lowest address, under WORST_FIT a
largest such segment with ties by lowest address, and under FIRST_FIT the
candidate of lowest address.  In the demo scenario (holes
[100, 500, 200, 300], BEST_FIT, unit 1), after the first step P1's 24
units sit at address 0 inside the 100-hole with a 76-unit free remainder
while the 500-hole is untouched, and the cumulative internal
fragmentation is 0 after every step. -/
theorem C4_hole_selection (s : MemState) (req : Request) (hIdx : Nat)
    (a : Int) (hwf : MemWf s) (hsel : selectHole s req = (some hIdx, a)) :
    (hIdx ∈ candIdxs s a ∧ a = alignUp req.size s.allocationUnit) ∧
    (s.algorithm = MemAlgo.BEST_FIT →
      (∀ j ∈ candIdxs s a, (seg s hIdx).size ≤ (seg s j).size) ∧
      (∀ j ∈ candIdxs s a, (seg s j).size = (seg s hIdx).size →
        (seg s hIdx).start ≤ (seg s j).start)) ∧
    (s.algorithm = MemAlgo.WORST_FIT →
      (∀ j ∈ candIdxs s a, (seg s j).size ≤ (seg s hIdx).size) ∧
      (∀ j ∈ candIdxs s a, (seg s j).size = (seg s hIdx).size →
        (seg s hIdx).start ≤ (seg s j).start)) ∧
    (s.algorithm = MemAlgo.FIRST_FIT →
      ∀ j ∈ candIdxs s a, (seg s hIdx).start ≤ (seg s j).start) ∧
    (memRunSteps 1 memDemo).segments =
      [{ start := 0, size := 24, free := false, processId := some 1,
         requestedSize := some 24 },
       { start := 24, size := 76, free := true, processId := none,
         requestedSize := none },
       { start := 100, size := 500, free := true, processId := none,
         requestedSize := none },
       { start := 600, size := 200, free := true, processId := none,
         requestedSize := none },
       { start := 800, size := 300, free := true, processId := none,
         requestedSize := none }] ∧
    ((memRunSteps 1 memDemo).requests.getD 0 default).allocation =
      some (0, 24) ∧
    (∀ n, (memRunSteps n memDemo).internalFragmentation = 0) := by
  obtain ⟨hmem, ha⟩ := selectHole_some_mem hsel
  have hlen := (mem_candIdxs.mp hmem).1
  subst ha
  unfold selectHole at hsel
  dsimp only at hsel
  cases hc : candIdxs s (alignUp req.size s.allocationUnit) with
  | nil => rw [hc] at hsel; cases hsel
  | cons c cs =>
    rw [hc] at hsel
    simp only [Prod.mk.injEq, Option.some.injEq] at hsel
    have hchosen := hsel.1
    have hpair : (c :: cs).Pairwise (· < ·) := hc ▸ pairwise_candIdxs s _
    have hidxle : ∀ j, j ∈ c :: cs → hIdx ≤ j →
        (seg s hIdx).start ≤ (seg s j).start := by
      intro j hj hle
      have hjc : j ∈ candIdxs s (alignUp req.size s.allocationUnit) := by
        rw [hc]; exact hj
      exact start_le_of_idx_le hwf hlen (mem_candIdxs.mp hjc).1 hle
    refine ⟨⟨hc ▸ hmem, rfl⟩, ?_, ?_, ?_, by decide, by decide, ?_⟩
    · intro halg
      rw [halg] at hchosen
      dsimp only at hchosen
      constructor
      · intro j hj
        rw [← hchosen]
        exact (foldl_min_spec (fun i => (seg s i).size) cs c).2.1 j hj
      · intro j hj htie
        refine hidxle j hj ?_
        rw [← hchosen]
        refine (foldl_min_spec (fun i => (seg s i).size) cs c).2.2 hpair j
          hj ?_
        rw [htie, hchosen]
    · intro halg
      rw [halg] at hchosen
      dsimp only at hchosen
      constructor
      · intro j hj
        rw [← hchosen]
        exact (foldl_max_spec (fun i => (seg s i).size) cs c).2.1 j hj
      · intro j hj htie
        refine hidxle j hj ?_
        rw [← hchosen]
        refine (foldl_max_spec (fun i => (seg s i).size) cs c).2.2 hpair j
          hj ?_
        rw [htie, hchosen]
    · intro halg
      rw [halg] at hchosen
      dsimp only at hchosen
      intro j hj
      refine hidxle j hj ?_
      rw [← hchosen]
      rcases List.mem_cons.mp hj with hj1 | hj1
      · omega
      · have := (List.pairwise_cons.mp hpair).1 j hj1
        omega
    · intro n
      rcases Nat.lt_or_ge n 5 with h5 | h5
      · interval_cases n <;> decide
      · rw [show n = 4 + (n - 4) by omega, memRunSteps_add,
          memRunSteps_done (n - 4) (by decide)]
        decide

theorem C4_hole_selection_witness :
    ((0 ∈ candIdxs memDemo 24 ∧
      (24 : Int) = alignUp (memDemo.requests.getD 0 default).size
        memDemo.allocationUnit) ∧
    (memDemo.algorithm = MemAlgo.BEST_FIT →
      (∀ j ∈ candIdxs memDemo 24,
        (seg memDemo 0).size ≤ (seg memDemo j).size) ∧
      (∀ j ∈ candIdxs memDemo 24,
        (seg memDemo j).size = (seg memDemo 0).size →
        (seg memDemo 0).start ≤ (seg memDemo j).start)) ∧
    (memDemo.algorithm = MemAlgo.WORST_FIT →
      (∀ j ∈ candIdxs memDemo 24,
        (seg memDemo j).size ≤ (seg memDemo 0).size) ∧
      (∀ j ∈ candIdxs memDemo 24,
        (seg memDemo j).size = (seg memDemo 0).size →
        (seg memDemo 0).start ≤ (seg memDemo j).start)) ∧
    (memDemo.algorithm = MemAlgo.FIRST_FIT →
      ∀ j ∈ candIdxs memDemo 24,
        (seg memDemo 0).start ≤ (seg memDemo j).start) ∧
    (memRunSteps 1 memDemo).segments =
      [{ start := 0, size := 24, free := false, processId := some 1,
         requestedSize := some 24 },
       { start := 24, size := 76, free := true, processId := none,
         requestedSize := none },
       { start := 100, size := 500, free := true, processId := none,
         requestedSize := none },
       { start := 600, size := 200, free := true, processId := none,
         requestedSize := none },
       { start := 800, size := 300, free := true, processId := none,
         requestedSize := none }] ∧
    ((memRunSteps 1 memDemo).requests.getD 0 default).allocation =
      some (0, 24) ∧
    (∀ n, (memRunSteps n memDemo).internalFragmentation = 0)) :=
  C4_hole_selection memDemo (memDemo.requests.getD 0 default) 0 24
    (by decide) (by decide)

end Mem

namespace Paging
theorem optCost_nil (k : Nat) (C : Finset PRef) : optCost k [] C = 0 := rfl

theorem optCost_cons_mem {k : Nat} {r : PRef} {C : Finset PRef}
    (rest : List PRef) (h : r ∈ C) :
    optCost k (r :: rest) C = optCost k rest C := by
  simp only [optCost]
  rw [if_pos h]

theorem optCost_cons_small {k : Nat} {r : PRef} {C : Finset PRef}
    (rest : List PRef) (h : r ∉ C) (hc : C.card < k) :
    optCost k (r :: rest) C = 1 + optCost k rest (insert r C) := by
  simp only [optCost]
  rw [if_neg h, if_pos hc]

theorem optCost_cons_full {k : Nat} {r : PRef} {C : Finset PRef}
    (rest : List PRef) (h : r ∉ C) (hc : ¬ C.card < k) (hne : C.Nonempty) :
    optCost k (r :: rest) C =
      1 + (C.image fun v => optCost k rest (insert r (C.erase v))).min'
        (hne.image _) := by
  simp only [optCost]
  rw [if_neg h, if_neg hc, dif_pos hne]

theorem optCost_full_le {k : Nat} {r : PRef} {C : Finset PRef}
    (rest : List PRef) (h : r ∉ C) (hc : ¬ C.card < k) {v : PRef}
    (hv : v ∈ C) :
    optCost k (r :: rest) C ≤ 1 + optCost k rest (insert r (C.erase v)) := by
  rw [optCost_cons_full rest h hc ⟨v, hv⟩]
  have := Finset.min'_le
    (C.image fun v => optCost k rest (insert r (C.erase v)))
    (optCost k rest (insert r (C.erase v)))
    (Finset.mem_image_of_mem _ hv)
  omega

theorem le_optCost_full {k : Nat} {r : PRef} {C : Finset PRef} {m : Nat}
    (rest : List PRef) (h : r ∉ C) (hc : ¬ C.card < k) (hne : C.Nonempty)
    (H : ∀ v ∈ C, m ≤ 1 + optCost k rest (insert r (C.erase v))) :
    m ≤ optCost k (r :: rest) C := by
  rw [optCost_cons_full rest h hc hne]
  rcases hne with ⟨v0, hv0⟩
  have hle := Finset.le_min'
    (C.image fun v => optCost k rest (insert r (C.erase v)))
    (Finset.Nonempty.image ⟨v0, hv0⟩ _) (m - 1) ?_
  · omega
  · intro y hy
    rcases Finset.mem_image.mp hy with ⟨v, hv, hyv⟩
    have := H v hv
    omega

/-- Monotonicity: a larger cache never costs more. -/
theorem optCost_mono (k : Nat) : ∀ (refs : List PRef) (C C' : Finset PRef),
    C ⊆ C' → C'.card ≤ k → optCost k refs C' ≤ optCost k refs C := by
  intro refs
  induction refs with
  | nil => intro C C' _ _; rw [optCost_nil, optCost_nil]
  | cons r rest ih =>
    intro C C' hsub hcard
    by_cases hrC : r ∈ C
    · rw [optCost_cons_mem rest hrC, optCost_cons_mem rest (hsub hrC)]
      exact ih C C' hsub hcard
    · by_cases hrC' : r ∈ C'
      · rw [optCost_cons_mem rest hrC']
        by_cases hsm : C.card < k
        · rw [optCost_cons_small rest hrC hsm]
          have hs : insert r C ⊆ C' := Finset.insert_subset hrC' hsub
          have := ih (insert r C) C' hs hcard
          omega
        · have hCe : C = C' := Finset.eq_of_subset_of_card_le hsub
            (le_trans hcard (by omega))
          exact absurd (hCe ▸ hrC') hrC
      · by_cases hsm : C.card < k
        · rw [optCost_cons_small rest hrC hsm]
          by_cases hbg : C'.card < k
          · rw [optCost_cons_small rest hrC' hbg]
            have hcins : (insert r C').card ≤ k := by
              rw [Finset.card_insert_of_not_mem hrC']
              omega
            have := ih (insert r C) (insert r C')
              (Finset.insert_subset_insert r hsub) hcins
            omega
          · have hne : C'.Nonempty := by
              rw [← Finset.card_pos]
              omega
            have hss : C ⊂ C' := by
              refine ⟨hsub, ?_⟩
              intro hsub'
              have := Finset.card_le_card hsub'
              omega
            obtain ⟨w, hwC', hwC⟩ := Finset.exists_of_ssubset hss
            have hsubw : insert r C ⊆ insert r (C'.erase w) := by
              apply Finset.insert_subset_insert
              intro x hx
              exact Finset.mem_erase.mpr ⟨fun hxw => hwC (hxw ▸ hx), hsub hx⟩
            have hcw : (insert r (C'.erase w)).card ≤ k := by
              have h1 := Finset.card_insert_le r (C'.erase w)
              have h2 := Finset.card_erase_of_mem hwC'
              omega
            have hbr := ih (insert r C) (insert r (C'.erase w)) hsubw hcw
            have hmin := optCost_full_le rest hrC' hbg hwC'
            omega
        · have hCe : C = C' := Finset.eq_of_subset_of_card_le hsub
            (le_trans hcard (by omega))
          rw [hCe]

/-- Removing one page from the cache costs at most one extra fault. -/
theorem optCost_le_insert (k : Nat) :
    ∀ (refs : List PRef) (D : Finset PRef) (x : PRef),
    (insert x D).card ≤ k →
    optCost k refs D ≤ 1 + optCost k refs (insert x D) := by
  intro refs
  induction refs with
  | nil => intro D x _; rw [optCost_nil, optCost_nil]; omega
  | cons r rest ih =>
    intro D x hcard
    by_cases hxD : x ∈ D
    · rw [Finset.insert_eq_self.mpr hxD]
      omega
    · have hDk : D.card < k := by
        have := Finset.card_insert_of_not_mem hxD
        omega
      by_cases hrD : r ∈ D
      · rw [optCost_cons_mem rest hrD,
          optCost_cons_mem rest (Finset.mem_insert_of_mem hrD)]
        exact ih D x hcard
      · by_cases hrx : r = x
        · subst hrx
          rw [optCost_cons_small rest hrD hDk,
            optCost_cons_mem rest (Finset.mem_insert_self r D)]
        · have hrxD : r ∉ insert x D := by
            intro h
            rcases Finset.mem_insert.mp h with h | h
            · exact hrx h
            · exact hrD h
          rw [optCost_cons_small rest hrD hDk]
          by_cases hbg : (insert x D).card < k
          · rw [optCost_cons_small rest hrxD hbg]
            have hc2 : (insert x (insert r D)).card ≤ k := by
              have h1 := Finset.card_insert_le x (insert r D)
              have h2 := Finset.card_insert_of_not_mem hrD
              have h3 := Finset.card_insert_of_not_mem hxD
              omega
            have := ih (insert r D) x hc2
            rw [Finset.Insert.comm] at this
            omega
          · have hne : (insert x D).Nonempty := ⟨x, Finset.mem_insert_self x D⟩
            have hmain : optCost k rest (insert r D) ≤
                optCost k (r :: rest) (insert x D) := by
              apply le_optCost_full rest hrxD hbg hne
              intro v hv
              rcases Finset.mem_insert.mp hv with hvx | hvD
              · subst hvx
                rw [Finset.erase_insert hxD]
                omega
              · have hvx : v ≠ x := fun h => hxD (h ▸ hvD)
                have hvr : v ≠ r := fun h => hrD (h ▸ hvD)
                have herase : (insert x D).erase v = insert x (D.erase v) := by
                  rw [Finset.erase_insert_of_ne (Ne.symm hvx)]
                rw [herase]
                set E := insert r (D.erase v) with hE
                have hveq : insert r D = insert v E := by
                  rw [hE, Finset.Insert.comm,
                    Finset.insert_erase hvD]
                have hcomm : insert r (insert x (D.erase v)) = insert x E := by
                  rw [hE, Finset.Insert.comm]
                rw [hveq, hcomm]
                have hcE : (insert x E).card ≤ k := by
                  have h1 := Finset.card_insert_le x E
                  have h2 := Finset.card_insert_le r (D.erase v)
                  rw [← hE] at h2
                  have h3 := Finset.card_erase_of_mem hvD
                  have h4 := Finset.card_insert_of_not_mem hxD
                  have h0 : 0 < D.card := Finset.card_pos.mpr ⟨v, hvD⟩
                  omega
                have hL1 : optCost k rest (insert v E) ≤ optCost k rest E := by
                  apply optCost_mono k rest E (insert v E)
                    (Finset.subset_insert v E)
                  rw [← hveq]
                  have := Finset.card_insert_le r D
                  omega
                have hL3 := ih E x hcE
                omega
            omega

theorem idxN_cons_self (r : PRef) (l : List PRef) : idxN r (r :: l) = 0 := by
  simp [idxN, firstIdx]

theorem idxN_cons_ne {x r : PRef} (h : x ≠ r) (l : List PRef) :
    idxN r (x :: l) = idxN r l + 1 := by
  simp only [idxN, firstIdx, if_neg h]
  cases hf : firstIdx r l with
  | none => simp [List.length_cons]
  | some i => simp

/-- The Belady exchange property: with the same companions `D`, keeping
the page whose next use comes no later is at least as good. -/
theorem optCost_swap (k : Nat) :
    ∀ (refs : List PRef) (D : Finset PRef) (a b : PRef),
    a ∉ D → b ∉ D → (insert a D).card ≤ k →
    idxN b refs ≤ idxN a refs →
    optCost k refs (insert b D) ≤ optCost k refs (insert a D) := by
  intro refs
  induction refs with
  | nil => intro D a b _ _ _ _; rw [optCost_nil, optCost_nil]
  | cons r rest ih =>
    intro D a b haD hbD hcard hidx
    by_cases hab : a = b
    · rw [hab]
    · by_cases hrb : r = b
      · subst hrb
        rw [optCost_cons_mem rest (Finset.mem_insert_self r D)]
        have hbaD : r ∉ insert a D := by
          intro h
          rcases Finset.mem_insert.mp h with h | h
          · exact hab h.symm
          · exact hbD h
        by_cases hbg : (insert a D).card < k
        · rw [optCost_cons_small rest hbaD hbg]
          have hc : (insert a (insert r D)).card ≤ k := by
            have h1 := Finset.card_insert_le a (insert r D)
            have h2 := Finset.card_insert_le r D
            have h3 := Finset.card_insert_of_not_mem haD
            omega
          have := optCost_le_insert k rest (insert r D) a hc
          rw [Finset.Insert.comm] at this
          omega
        · apply le_optCost_full rest hbaD hbg ⟨a, Finset.mem_insert_self a D⟩
          intro v hv
          rcases Finset.mem_insert.mp hv with hva | hvD
          · subst hva
            rw [Finset.erase_insert haD]
            omega
          · have hvb : v ≠ r := fun h => hbD (h ▸ hvD)
            have hva : v ≠ a := fun h => haD (h ▸ hvD)
            rw [Finset.erase_insert_of_ne (Ne.symm hva)]
            set F := insert r (D.erase v) with hF
            have h1 : insert r D = insert v F := by
              rw [hF, Finset.Insert.comm, Finset.insert_erase hvD]
            have h2 : insert r (insert a (D.erase v)) = insert a F := by
              rw [hF, Finset.Insert.comm]
            rw [h1, h2]
            have h0 : 0 < D.card := Finset.card_pos.mpr ⟨v, hvD⟩
            have hce := Finset.card_erase_of_mem hvD
            have hcF := Finset.card_insert_le r (D.erase v)
            rw [← hF] at hcF
            have hcaD := Finset.card_insert_of_not_mem haD
            have hL1 : optCost k rest (insert v F) ≤ optCost k rest F := by
              apply optCost_mono k rest F (insert v F)
                (Finset.subset_insert v F)
              rw [← h1]
              have := Finset.card_insert_of_not_mem hbD
              omega
            have hL3 : optCost k rest F ≤
                1 + optCost k rest (insert a F) := by
              apply optCost_le_insert k rest F a
              have := Finset.card_insert_le a F
              omega
            omega
      · by_cases hra : r = a
        · exfalso
          subst hra
          rw [idxN_cons_self, idxN_cons_ne hab rest] at hidx
          omega
        · have hidx' : idxN b rest ≤ idxN a rest := by
            rw [idxN_cons_ne hrb rest, idxN_cons_ne hra rest] at hidx
            omega
          by_cases hrD : r ∈ D
          · rw [optCost_cons_mem rest (Finset.mem_insert_of_mem hrD),
              optCost_cons_mem rest (Finset.mem_insert_of_mem hrD)]
            exact ih D a b haD hbD hcard hidx'
          · have hrbD : r ∉ insert b D := by
              intro h
              rcases Finset.mem_insert.mp h with h | h
              · exact hrb h
              · exact hrD h
            have hraD : r ∉ insert a D := by
              intro h
              rcases Finset.mem_insert.mp h with h | h
              · exact hra h
              · exact hrD h
            have hcards : (insert b D).card = (insert a D).card := by
              rw [Finset.card_insert_of_not_mem hbD,
                Finset.card_insert_of_not_mem haD]
            by_cases hfull : (insert a D).card < k
            · rw [optCost_cons_small rest hraD hfull,
                optCost_cons_small rest hrbD (by omega)]
              have haD' : a ∉ insert r D := by
                intro h
                rcases Finset.mem_insert.mp h with h | h
                · exact hra h.symm
                · exact haD h
              have hbD' : b ∉ insert r D := by
                intro h
                rcases Finset.mem_insert.mp h with h | h
                · exact hrb h.symm
                · exact hbD h
              have hc : (insert a (insert r D)).card ≤ k := by
                have h1 := Finset.card_insert_le a (insert r D)
                have h2 := Finset.card_insert_le r D
                have h3 := Finset.card_insert_of_not_mem haD
                omega
              have := ih (insert r D) a b haD' hbD' hc hidx'
              rw [Finset.Insert.comm b r, Finset.Insert.comm a r] at this
              omega
            · have hfull' : ¬ (insert b D).card < k := by omega
              have hneA : (insert a D).Nonempty :=
                ⟨a, Finset.mem_insert_self a D⟩
              rw [optCost_cons_full rest hraD hfull hneA]
              obtain ⟨vst, hvst, hvmin⟩ := Finset.mem_image.mp
                (Finset.min'_mem
                  ((insert a D).image fun v =>
                    optCost k rest (insert r ((insert a D).erase v)))
                  (hneA.image _))
              rw [← hvmin]
              rcases Finset.mem_insert.mp hvst with hvA | hvD
              · subst hvA
                rw [Finset.erase_insert haD]
                have := optCost_full_le rest hrbD hfull'
                  (Finset.mem_insert_self b D)
                rw [Finset.erase_insert hbD] at this
                omega
              · have hvb : vst ≠ b := fun h => hbD (h ▸ hvD)
                have hva : vst ≠ a := fun h => haD (h ▸ hvD)
                rw [Finset.erase_insert_of_ne (Ne.symm hva)]
                have hLb := optCost_full_le rest hrbD hfull'
                  (show vst ∈ insert b D from Finset.mem_insert_of_mem hvD)
                rw [Finset.erase_insert_of_ne (Ne.symm hvb)] at hLb
                have haD' : a ∉ insert r (D.erase vst) := by
                  intro h
                  rcases Finset.mem_insert.mp h with h | h
                  · exact hra h.symm
                  · exact haD (Finset.mem_of_mem_erase h)
                have hbD' : b ∉ insert r (D.erase vst) := by
                  intro h
                  rcases Finset.mem_insert.mp h with h | h
                  · exact hrb h.symm
                  · exact hbD (Finset.mem_of_mem_erase h)
                have h0 : 0 < D.card := Finset.card_pos.mpr ⟨vst, hvD⟩
                have hc : (insert a (insert r (D.erase vst))).card ≤ k := by
                  have h1 := Finset.card_insert_le a (insert r (D.erase vst))
                  have h2 := Finset.card_insert_le r (D.erase vst)
                  have h3 := Finset.card_erase_of_mem hvD
                  have h4 := Finset.card_insert_of_not_mem haD
                  omega
                have hih := ih (insert r (D.erase vst)) a b haD' hbD' hc hidx'
                rw [Finset.Insert.comm b r, Finset.Insert.comm a r] at hih
                omega

/-- Evicting a page whose next use is furthest (or that is never used
again) achieves the optimal cost on a full cache. -/
theorem optCost_evict_best {k : Nat} (rest : List PRef) (C : Finset PRef)
    (r : PRef) (hr : r ∉ C) (hfull : ¬ C.card < k) (hck : C.card ≤ k)
    {vstar : PRef} (hv : vstar ∈ C)
    (hmax : ∀ u ∈ C, idxN u rest ≤ idxN vstar rest) :
    1 + optCost k rest (insert r (C.erase vstar)) ≤
      optCost k (r :: rest) C := by
  apply le_optCost_full rest hr hfull ⟨vstar, hv⟩
  intro v hvC
  by_cases hvv : v = vstar
  · rw [hvv]
  · have hveq : v ∈ C.erase vstar := Finset.mem_erase.mpr ⟨hvv, hvC⟩
    have hvsv : vstar ∈ C.erase v :=
      Finset.mem_erase.mpr ⟨fun h => hvv h.symm, hv⟩
    have hvr : v ≠ r := fun h => hr (h ▸ hvC)
    have hvsr : vstar ≠ r := fun h => hr (h ▸ hv)
    set D := insert r ((C.erase vstar).erase v) with hD
    have hbD : insert v D = insert r (C.erase vstar) := by
      rw [hD, Finset.Insert.comm, Finset.insert_erase hveq]
    have haD : insert vstar D = insert r (C.erase v) := by
      rw [hD, Finset.Insert.comm, Finset.erase_right_comm,
        Finset.insert_erase hvsv]
    have hvstarD : vstar ∉ D := by
      rw [hD]
      intro h
      rcases Finset.mem_insert.mp h with h | h
      · exact hvsr h
      · exact absurd (Finset.mem_of_mem_erase h)
          (Finset.not_mem_erase vstar C)
    have hvD : v ∉ D := by
      rw [hD]
      intro h
      rcases Finset.mem_insert.mp h with h | h
      · exact hvr h
      · exact absurd h (Finset.not_mem_erase v _)
    have hcD : (insert vstar D).card ≤ k := by
      rw [haD]
      have h1 := Finset.card_insert_le r (C.erase v)
      have h2 := Finset.card_erase_of_mem hvC
      have h0 : 0 < C.card := Finset.card_pos.mpr ⟨v, hvC⟩
      omega
    have := optCost_swap k rest D vstar v hvstarD hvD hcD (hmax v hvC)
    rw [hbD, haD] at this
    omega

theorem getD_set_self {α : Type} (l : List α) (n : Nat) (a d : α)
    (h : n < l.length) : (l.set n a).getD n d = a := by
  have hl : n < (l.set n a).length := by
    rw [List.length_set]
    exact h
  rw [List.getD, List.get?_eq_getElem?, List.getElem?_eq_getElem hl,
    List.getElem_set_self]
  rfl

theorem getD_set_ne {α : Type} (l : List α) (n m : Nat) (a d : α)
    (h : m ≠ n) : (l.set n a).getD m d = l.getD m d := by
  simp [List.getD, List.getElem?_set_ne (Ne.symm h)]

theorem assocGet_mem {κ α : Type} [DecidableEq κ] {k : κ} {v : α} :
    ∀ {l : List (κ × α)}, assocGet k l = some v → (k, v) ∈ l := by
  intro l
  induction l with
  | nil => intro h; cases h
  | cons p rest ih =>
    intro h
    rw [show assocGet k (p :: rest) =
      if p.1 = k then some p.2 else assocGet k rest from rfl] at h
    by_cases hk : p.1 = k
    · rw [if_pos hk] at h
      obtain ⟨pk, pv⟩ := p
      simp only at hk h
      injection h with h
      rw [← hk, ← h]
      exact List.mem_cons_self _ _
    · rw [if_neg hk] at h
      exact List.mem_cons_of_mem p (ih h)

theorem assocGet_assocSet_self {κ α : Type} [DecidableEq κ] (k : κ) (v : α) :
    ∀ (l : List (κ × α)), assocGet k (assocSet k v l) = some v := by
  intro l
  induction l with
  | nil => simp [assocGet, assocSet]
  | cons p rest ih =>
    rw [show assocSet k v (p :: rest) =
      if p.1 = k then (k, v) :: rest
      else p :: assocSet k v rest from by cases p; rfl]
    by_cases hk : p.1 = k
    · rw [if_pos hk]
      simp [assocGet]
    · rw [if_neg hk]
      rw [show assocGet k (p :: assocSet k v rest) =
        if p.1 = k then some p.2 else assocGet k (assocSet k v rest)
        from rfl]
      rw [if_neg hk, ih]

theorem assocGet_assocSet_ne {κ α : Type} [DecidableEq κ] {k k' : κ}
    (v : α) (h : k' ≠ k) :
    ∀ (l : List (κ × α)), assocGet k' (assocSet k v l) = assocGet k' l := by
  intro l
  induction l with
  | nil =>
    show (if k = k' then some v else assocGet k' ([] : List (κ × α))) =
      assocGet k' ([] : List (κ × α))
    rw [if_neg (fun hh => h hh.symm)]
  | cons p rest ih =>
    rw [show assocSet k v (p :: rest) =
      if p.1 = k then (k, v) :: rest
      else p :: assocSet k v rest from by cases p; rfl]
    by_cases hk : p.1 = k
    · rw [if_pos hk]
      rw [show assocGet k' ((k, v) :: rest) =
        if k = k' then some v else assocGet k' rest from rfl]
      rw [show assocGet k' (p :: rest) =
        if p.1 = k' then some p.2 else assocGet k' rest from rfl]
      rw [if_neg (fun hh => h hh.symm), if_neg (by rw [hk]; exact fun hh => h hh.symm)]
    · rw [if_neg hk]
      rw [show assocGet k' (p :: assocSet k v rest) =
        if p.1 = k' then some p.2 else assocGet k' (assocSet k v rest)
        from rfl]
      rw [show assocGet k' (p :: rest) =
        if p.1 = k' then some p.2 else assocGet k' rest from rfl]
      by_cases hk' : p.1 = k'
      · rw [if_pos hk', if_pos hk']
      · rw [if_neg hk', if_neg hk', ih]

theorem mem_assocSet {κ α : Type} [DecidableEq κ] {k : κ} {v : α}
    {pp : κ × α} : ∀ {l : List (κ × α)},
    pp ∈ assocSet k v l → ((l.map Prod.fst).Nodup) →
    pp = (k, v) ∨ (pp ∈ l ∧ pp.1 ≠ k) := by
  intro l
  induction l with
  | nil =>
    intro h _
    simp [assocSet] at h
    left
    simp [h]
  | cons p rest ih =>
    intro h hnd
    rw [show assocSet k v (p :: rest) =
      if p.1 = k then (k, v) :: rest
      else p :: assocSet k v rest from by cases p; rfl] at h
    simp only [List.map_cons, List.nodup_cons] at hnd
    by_cases hk : p.1 = k
    · rw [if_pos hk] at h
      rcases List.mem_cons.mp h with h | h
      · left; exact h
      · right
        refine ⟨List.mem_cons_of_mem p h, ?_⟩
        intro hppk
        apply hnd.1
        have hmm : pp.1 ∈ List.map Prod.fst rest :=
          List.mem_map_of_mem Prod.fst h
        rw [hppk, ← hk] at hmm
        exact hmm
    · rw [if_neg hk] at h
      rcases List.mem_cons.mp h with h | h
      · right
        subst h
        exact ⟨List.mem_cons_self pp rest, hk⟩
      · rcases ih h hnd.2 with h1 | h1
        · left; exact h1
        · right; exact ⟨List.mem_cons_of_mem p h1.1, h1.2⟩

theorem map_fst_assocSet {κ α : Type} [DecidableEq κ] {k : κ} (v : α) :
    ∀ {l : List (κ × α)}, assocGet k l ≠ none →
    (assocSet k v l).map Prod.fst = l.map Prod.fst := by
  intro l
  induction l with
  | nil => intro h; exact absurd rfl h
  | cons p rest ih =>
    intro h
    rw [show assocSet k v (p :: rest) =
      if p.1 = k then (k, v) :: rest
      else p :: assocSet k v rest from by cases p; rfl]
    by_cases hk : p.1 = k
    · rw [if_pos hk]
      simp [hk]
    · rw [if_neg hk]
      rw [show assocGet k (p :: rest) =
        if p.1 = k then some p.2 else assocGet k rest from rfl,
        if_neg hk] at h
      simp only [List.map_cons]
      rw [ih h]


theorem tableGet_some {tables : List (Nat × List (Option Nat))}
    {pid page f : Nat} (h : tableGet tables pid page = some f) :
    ∃ t, assocGet pid tables = some t ∧ page < t.length ∧
      t.getD page none = some f := by
  unfold tableGet at h
  cases hg : assocGet pid tables with
  | none => rw [hg] at h; simp at h
  | some t =>
    rw [hg] at h
    simp only [Option.getD_some] at h
    refine ⟨t, rfl, ?_, h⟩
    by_contra hlen
    rw [List.getD_eq_default] at h
    · cases h
    · omega

theorem tableGet_mem_spec {s : PagingState} (hinv : PInv s)
    {pid page f : Nat} (h : tableGet s.pageTables pid page = some f) :
    f < s.frames.length ∧ s.frames.getD f default =
      { frameId := f, isFree := false, pageId := some page,
        processId := some pid } := by
  obtain ⟨t, hget, hlen, hentry⟩ := tableGet_some h
  have hmem := assocGet_mem hget
  have := hinv.2.2.2.2.1 (pid, t) hmem page hlen (by rw [hentry]; simp)
  rw [hentry] at this
  simpa using this

theorem mem_cacheOf {s : PagingState} {r : PRef} :
    r ∈ cacheOf s ↔ ∃ i, i < s.frames.length ∧
      (s.frames.getD i default).isFree = false ∧
      refOf (s.frames.getD i default) = r := by
  unfold cacheOf
  rw [List.mem_toFinset, List.mem_map]
  constructor
  · rintro ⟨f, hf, hrf⟩
    rw [List.mem_filter] at hf
    obtain ⟨i, hi, hieq⟩ := List.mem_iff_getElem.mp hf.1
    refine ⟨i, hi, ?_, ?_⟩
    · rw [List.getD_eq_getElem _ _ hi, hieq]
      simpa using hf.2
    · rw [List.getD_eq_getElem _ _ hi, hieq]
      exact hrf
  · rintro ⟨i, hi, hfree, hrf⟩
    refine ⟨s.frames.getD i default, ?_, hrf⟩
    rw [List.mem_filter]
    constructor
    · rw [List.getD_eq_getElem _ _ hi]
      exact List.getElem_mem hi
    · show (!(s.frames.getD i default).isFree) = true
      rw [hfree]
      rfl

/-- Under the invariant, a reference is resident exactly when its table
entry is set. -/
theorem cache_iff_table {s : PagingState} (hinv : PInv s) (r : PRef) :
    r ∈ cacheOf s ↔ ∃ f, tableGet s.pageTables r.1 r.2 = some f := by
  constructor
  · intro hr
    obtain ⟨i, hi, hfree, hrf⟩ := mem_cacheOf.mp hr
    refine ⟨i, ?_⟩
    have := hinv.2.2.2.2.2.1 i hi hfree
    rw [show (s.frames.getD i default).processId.getD 0 = r.1 from by
        rw [← hrf]; rfl,
      show (s.frames.getD i default).pageId.getD 0 = r.2 from by
        rw [← hrf]; rfl] at this
    exact this
  · rintro ⟨f, hf⟩
    obtain ⟨hflt, hfeq⟩ := tableGet_mem_spec hinv hf
    rw [mem_cacheOf]
    refine ⟨f, hflt, ?_, ?_⟩
    · rw [hfeq]
    · rw [hfeq]; rfl

/-- Distinct occupied frames hold distinct pages (injectivity). -/
theorem occupied_inj {s : PagingState} (hinv : PInv s) {i j : Nat}
    (hi : i < s.frames.length) (hj : j < s.frames.length)
    (hfi : (s.frames.getD i default).isFree = false)
    (hfj : (s.frames.getD j default).isFree = false)
    (heq : refOf (s.frames.getD i default) = refOf (s.frames.getD j default)) :
    i = j := by
  have h1 := hinv.2.2.2.2.2.1 i hi hfi
  have h2 := hinv.2.2.2.2.2.1 j hj hfj
  rw [show (s.frames.getD i default).processId.getD 0 =
      (refOf (s.frames.getD i default)).1 from rfl,
    show (s.frames.getD i default).pageId.getD 0 =
      (refOf (s.frames.getD i default)).2 from rfl, heq] at h1
  rw [show (s.frames.getD j default).processId.getD 0 =
      (refOf (s.frames.getD j default)).1 from rfl,
    show (s.frames.getD j default).pageId.getD 0 =
      (refOf (s.frames.getD j default)).2 from rfl] at h2
  rw [h1] at h2
  exact Option.some_injective _ h2

theorem frames_nodup {s : PagingState} (hinv : PInv s) : s.frames.Nodup := by
  rw [List.nodup_iff_injective_get]
  intro a b hab
  ext1
  by_contra hne
  have ha := hinv.2.2.1 a.1 a.2
  have hb := hinv.2.2.1 b.1 b.2
  rw [List.getD_eq_getElem _ _ a.2] at ha
  rw [List.getD_eq_getElem _ _ b.2] at hb
  rw [show s.frames[a.1] = s.frames.get a from rfl, hab] at ha
  rw [show s.frames[b.1] = s.frames.get b from rfl] at hb
  rw [hb] at ha
  exact hne ha.symm

theorem mem_frames_idx {s : PagingState} (hinv : PInv s) {f : Frame}
    (hf : f ∈ s.frames) :
    f.frameId < s.frames.length ∧ s.frames.getD f.frameId default = f := by
  obtain ⟨i, hi, hieq⟩ := List.mem_iff_getElem.mp hf
  have := hinv.2.2.1 i hi
  rw [List.getD_eq_getElem _ _ hi, hieq] at this
  rw [this]
  rw [List.getD_eq_getElem _ _ hi, hieq]
  exact ⟨hi, rfl⟩

theorem cacheOf_card {s : PagingState} (hinv : PInv s) :
    (cacheOf s).card = (s.frames.filter fun f => !f.isFree).length := by
  unfold cacheOf
  rw [List.toFinset_card_of_nodup]
  · rw [List.length_map]
  · apply List.Nodup.map_on
    · intro x hx y hy hxy
      rw [List.mem_filter] at hx hy
      obtain ⟨hxi, hxeq⟩ := mem_frames_idx hinv hx.1
      obtain ⟨hyi, hyeq⟩ := mem_frames_idx hinv hy.1
      have hfx : (s.frames.getD x.frameId default).isFree = false := by
        rw [hxeq]
        simpa using hx.2
      have hfy : (s.frames.getD y.frameId default).isFree = false := by
        rw [hyeq]
        simpa using hy.2
      have := occupied_inj hinv hxi hyi hfx hfy
        (by rw [hxeq, hyeq]; exact hxy)
      rw [← hxeq, ← hyeq, this]
    · exact List.Nodup.filter _ (frames_nodup hinv)

theorem cacheOf_card_full {s : PagingState} (hinv : PInv s)
    (hfull : s.frames.find? (fun f => f.isFree) = none) :
    (cacheOf s).card = s.frameCount := by
  rw [cacheOf_card hinv]
  have hall := List.find?_eq_none.mp hfull
  have : s.frames.filter (fun f => !f.isFree) = s.frames := by
    apply List.filter_eq_self.mpr
    intro f hf
    have := hall f hf
    simp only [Bool.not_eq_true] at this
    simp [this]
  rw [this, hinv.1]

theorem cacheOf_card_free {s : PagingState} (hinv : PInv s) {fr : Frame}
    (hfree : s.frames.find? (fun f => f.isFree) = some fr) :
    (cacheOf s).card < s.frameCount := by
  rw [cacheOf_card hinv, ← hinv.1]
  apply List.length_filter_lt_length_iff_exists.mpr
  refine ⟨fr, List.mem_of_find?_eq_some hfree, ?_⟩
  have := List.find?_some hfree
  simp [this]

theorem cacheOf_card_le {s : PagingState} (hinv : PInv s) :
    (cacheOf s).card ≤ s.frameCount := by
  rw [cacheOf_card hinv, ← hinv.1]
  exact List.length_filter_le _ _

theorem getD_append_ite {α : Type} (l1 l2 : List α) (m : Nat) (d : α) :
    (l1 ++ l2).getD m d =
      if m < l1.length then l1.getD m d else l2.getD (m - l1.length) d := by
  by_cases h : m < l1.length
  · rw [if_pos h, List.getD_eq_getElem?_getD,
      List.getElem?_append_left h, ← List.getD_eq_getElem?_getD]
  · rw [if_neg h, List.getD_eq_getElem?_getD,
      List.getElem?_append_right (by omega), ← List.getD_eq_getElem?_getD]

theorem getD_replicate_none (k m : Nat) :
    (List.replicate k (none : Option Nat)).getD m none = none := by
  by_cases h : m < k
  · rw [List.getD_eq_getElem _ _ (by simpa using h)]
    simp
  · exact List.getD_eq_default _ _ (by simpa using h)

theorem getD_jsArraySet_self (l : List (Option Nat)) (n : Nat)
    (v : Option Nat) : (jsArraySet l n v).getD n none = v := by
  unfold jsArraySet
  by_cases h : n < l.length
  · rw [if_pos h]
    exact getD_set_self l n v none h
  · rw [if_neg h, getD_append_ite,
      if_neg (by simp only [List.length_append, List.length_replicate]; omega)]
    have he : n - (l ++ List.replicate (n - l.length)
        (none : Option Nat)).length = 0 := by
      simp only [List.length_append, List.length_replicate]
      omega
    rw [he]
    rfl

theorem getD_jsArraySet_ne (l : List (Option Nat)) (n m : Nat)
    (v : Option Nat) (h : m ≠ n) :
    (jsArraySet l n v).getD m none = l.getD m none := by
  unfold jsArraySet
  by_cases hn : n < l.length
  · rw [if_pos hn]
    exact getD_set_ne l n m v none h
  · rw [if_neg hn, getD_append_ite]
    by_cases hm : m < (l ++ List.replicate (n - l.length)
        (none : Option Nat)).length
    · rw [if_pos hm, getD_append_ite]
      by_cases hml : m < l.length
      · rw [if_pos hml]
      · rw [if_neg hml, getD_replicate_none,
          List.getD_eq_default _ _ (by omega)]
    · rw [if_neg hm]
      have hm' : l.length + (n - l.length) ≤ m := by
        simpa [List.length_append, List.length_replicate] using hm
      have h1 : l.getD m none = none :=
        List.getD_eq_default _ _ (by omega)
      have h2 : [v].getD (m - (l ++ List.replicate (n - l.length)
          (none : Option Nat)).length) none = none := by
        apply List.getD_eq_default
        simp only [List.length_append, List.length_replicate,
          List.length_cons, List.length_nil]
        omega
      rw [h1, h2]

theorem mem_assocSet_weak {κ α : Type} [DecidableEq κ] {k : κ} {v : α}
    {pp : κ × α} : ∀ {l : List (κ × α)},
    pp ∈ assocSet k v l → pp = (k, v) ∨ pp ∈ l := by
  intro l
  induction l with
  | nil =>
    intro h
    simp [assocSet] at h
    left
    simp [h]
  | cons p rest ih =>
    intro h
    rw [show assocSet k v (p :: rest) =
      if p.1 = k then (k, v) :: rest
      else p :: assocSet k v rest from by cases p; rfl] at h
    by_cases hk : p.1 = k
    · rw [if_pos hk] at h
      rcases List.mem_cons.mp h with h | h
      · left; exact h
      · right; exact List.mem_cons_of_mem p h
    · rw [if_neg hk] at h
      rcases List.mem_cons.mp h with h | h
      · right; rw [h]; exact List.mem_cons_self p rest
      · rcases ih h with h1 | h1
        · left; exact h1
        · right; exact List.mem_cons_of_mem p h1

theorem mem_assocSet_of_ne {κ α : Type} [DecidableEq κ] {k : κ} (v : α)
    {pp : κ × α} : ∀ {l : List (κ × α)},
    pp ∈ l → pp.1 ≠ k → pp ∈ assocSet k v l := by
  intro l
  induction l with
  | nil => intro h; cases h
  | cons p rest ih =>
    intro h hne
    rw [show assocSet k v (p :: rest) =
      if p.1 = k then (k, v) :: rest
      else p :: assocSet k v rest from by cases p; rfl]
    by_cases hk : p.1 = k
    · rw [if_pos hk]
      rcases List.mem_cons.mp h with h | h
      · exact absurd (h ▸ hk) hne
      · exact List.mem_cons_of_mem _ h
    · rw [if_neg hk]
      rcases List.mem_cons.mp h with h | h
      · rw [h]; exact List.mem_cons_self p _
      · exact List.mem_cons_of_mem p (ih h hne)

theorem self_mem_assocSet {κ α : Type} [DecidableEq κ] (k : κ) (v : α) :
    ∀ (l : List (κ × α)), (k, v) ∈ assocSet k v l := by
  intro l
  induction l with
  | nil => simp [assocSet]
  | cons p rest ih =>
    rw [show assocSet k v (p :: rest) =
      if p.1 = k then (k, v) :: rest
      else p :: assocSet k v rest from by cases p; rfl]
    by_cases hk : p.1 = k
    · rw [if_pos hk]
      exact List.mem_cons_self _ _
    · rw [if_neg hk]
      exact List.mem_cons_of_mem p ih

theorem tableGet_tableSet_self {tables : List (Nat × List (Option Nat))}
    {pid : Nat} {t : List (Option Nat)} (page : Nat) (v : Option Nat)
    (hget : assocGet pid tables = some t) :
    tableGet (tableSet tables pid page v) pid page = v := by
  unfold tableSet
  rw [hget]
  unfold tableGet
  rw [assocGet_assocSet_self]
  simp only [Option.getD_some]
  exact getD_jsArraySet_self t page v

theorem tableGet_tableSet_ne {tables : List (Nat × List (Option Nat))}
    {pid page pid' page' : Nat} (v : Option Nat)
    (h : pid' ≠ pid ∨ page' ≠ page) :
    tableGet (tableSet tables pid page v) pid' page' =
      tableGet tables pid' page' := by
  unfold tableSet
  cases hget : assocGet pid tables with
  | none => rfl
  | some t =>
    unfold tableGet
    by_cases hp : pid' = pid
    · subst hp
      rw [assocGet_assocSet_self, hget]
      simp only [Option.getD_some]
      rcases h with h | h
      · exact absurd rfl h
      · exact getD_jsArraySet_ne t page page' v h
    · rw [assocGet_assocSet_ne _ hp]

theorem map_fst_tableSet (tables : List (Nat × List (Option Nat)))
    (pid page : Nat) (v : Option Nat) :
    (tableSet tables pid page v).map Prod.fst = tables.map Prod.fst := by
  unfold tableSet
  cases hget : assocGet pid tables with
  | none => rfl
  | some t =>
    exact map_fst_assocSet _ (by rw [hget]; exact fun h => Option.noConfusion h)

theorem mem_tableSet {tables : List (Nat × List (Option Nat))}
    {pid page : Nat} {v : Option Nat} {t : List (Option Nat)}
    {pp : Nat × List (Option Nat)}
    (hget : assocGet pid tables = some t)
    (hnd : (tables.map Prod.fst).Nodup)
    (hmem : pp ∈ tableSet tables pid page v) :
    pp = (pid, jsArraySet t page v) ∨ (pp ∈ tables ∧ pp.1 ≠ pid) := by
  unfold tableSet at hmem
  rw [hget] at hmem
  exact mem_assocSet hmem hnd

theorem exists_key_tableSet {tables : List (Nat × List (Option Nat))}
    (pid page : Nat) (v : Option Nat) {x : Nat}
    (h : ∃ pp ∈ tables, pp.1 = x) :
    ∃ pp ∈ tableSet tables pid page v, pp.1 = x := by
  obtain ⟨pp, hpp, hx⟩ := h
  unfold tableSet
  cases hget : assocGet pid tables with
  | none => exact ⟨pp, hpp, hx⟩
  | some t =>
    by_cases hp : pp.1 = pid
    · exact ⟨(pid, jsArraySet t page v), self_mem_assocSet _ _ _,
        by rw [← hp, hx]⟩
    · exact ⟨pp, mem_assocSet_of_ne _ hpp hp, hx⟩

theorem markAccessed_eq (s : PagingState) (f : Frame) (now : Nat) :
    ∃ la, markAccessed s f now = { s with lastAccessed := la } := by
  unfold markAccessed
  by_cases h : f.isFree
  · rw [if_pos h]
    exact ⟨s.lastAccessed, rfl⟩
  · rw [if_neg h]
    exact ⟨_, rfl⟩

theorem cacheOf_set {s s' : PagingState} {fid : Nat} {nf : Frame}
    (hfid : fid < s.frames.length)
    (hfr : s'.frames = s.frames.set fid nf)
    (hfree : (s.frames.getD fid default).isFree = true)
    (hocc : nf.isFree = false) :
    cacheOf s' = insert (refOf nf) (cacheOf s) := by
  ext x
  rw [Finset.mem_insert, mem_cacheOf, mem_cacheOf]
  constructor
  · rintro ⟨i, hi, hoc, hrf⟩
    rw [hfr, List.length_set] at hi
    by_cases hif : i = fid
    · subst hif
      rw [hfr, getD_set_self _ _ _ _ hi] at hrf
      left
      rw [← hrf]
    · right
      rw [hfr, getD_set_ne _ _ _ _ _ hif] at hoc hrf
      exact ⟨i, hi, hoc, hrf⟩
  · rintro (hx | ⟨i, hi, hoc, hrf⟩)
    · refine ⟨fid, ?_, ?_, ?_⟩
      · rw [hfr, List.length_set]
        exact hfid
      · rw [hfr, getD_set_self _ _ _ _ hfid]
        exact hocc
      · rw [hfr, getD_set_self _ _ _ _ hfid]
        exact hx.symm
    · have hif : i ≠ fid := by
        intro h
        rw [h] at hoc
        rw [hfree] at hoc
        cases hoc
      refine ⟨i, ?_, ?_, ?_⟩
      · rw [hfr, List.length_set]
        exact hi
      · rw [hfr, getD_set_ne _ _ _ _ _ hif]
        exact hoc
      · rw [hfr, getD_set_ne _ _ _ _ _ hif]
        exact hrf

theorem loadPage_spec {s : PagingState} (hinv : PInv s) {pid page fid : Nat}
    (now : Nat) (hfid : fid < s.frames.length)
    (hfree : (s.frames.getD fid default).isFree = true)
    {t : List (Option Nat)} (hkey : assocGet pid s.pageTables = some t)
    (hnone : tableGet s.pageTables pid page = none) :
    PInv (loadPage s pid page fid now) ∧
    cacheOf (loadPage s pid page fid now) = insert (pid, page) (cacheOf s) ∧
    (loadPage s pid page fid now).pageFaults = s.pageFaults ∧
    (loadPage s pid page fid now).pageHits = s.pageHits ∧
    (loadPage s pid page fid now).currentIndex = s.currentIndex ∧
    (loadPage s pid page fid now).referenceQueue = s.referenceQueue ∧
    (loadPage s pid page fid now).frameCount = s.frameCount ∧
    (loadPage s pid page fid now).algorithm = s.algorithm ∧
    (loadPage s pid page fid now).frames.length = s.frames.length ∧
    (loadPage s pid page fid now).fifoQueue =
      (if s.algorithm = PAlgo.FIFO then
        s.fifoQueue ++ [{ frameId := fid, pid := pid, page := page }]
      else s.fifoQueue) ∧
    (loadPage s pid page fid now).frames = s.frames.set fid
      { frameId := fid, isFree := false, pageId := some page,
        processId := some pid } := by
  have htpage : t.getD page none = none := by
    unfold tableGet at hnone
    rw [hkey] at hnone
    simpa using hnone
  obtain ⟨la, hla⟩ := markAccessed_eq
    { s with
        frames := s.frames.set fid
          { frameId := (s.frames.getD fid default).frameId,
            isFree := false, pageId := some page, processId := some pid }
        pageTables := tableSet s.pageTables pid page (some fid) }
    { frameId := (s.frames.getD fid default).frameId, isFree := false,
      pageId := some page, processId := some pid } now
  have hstate : loadPage s pid page fid now =
      if s.algorithm = PAlgo.FIFO then
        { s with
            frames := s.frames.set fid
              { frameId := (s.frames.getD fid default).frameId,
                isFree := false, pageId := some page,
                processId := some pid }
            pageTables := tableSet s.pageTables pid page (some fid)
            lastAccessed := la
            fifoQueue := s.fifoQueue ++
              [{ frameId := fid, pid := pid, page := page }] }
      else
        { s with
            frames := s.frames.set fid
              { frameId := (s.frames.getD fid default).frameId,
                isFree := false, pageId := some page,
                processId := some pid }
            pageTables := tableSet s.pageTables pid page (some fid)
            lastAccessed := la } := by
    unfold loadPage
    dsimp only
    rw [hla]
  have hfrid : (s.frames.getD fid default).frameId = fid :=
    hinv.2.2.1 fid hfid
  have hcore : ∀ (fq : List FifoEntry) (la' : List (PRef × Nat)),
      (∀ e ∈ fq, e.frameId < s.frames.length) →
      PInv { s with
        frames := s.frames.set fid
          { frameId := (s.frames.getD fid default).frameId,
            isFree := false, pageId := some page, processId := some pid }
        pageTables := tableSet s.pageTables pid page (some fid)
        lastAccessed := la'
        fifoQueue := fq } := by
    intro fq la' hfq
    obtain ⟨hlen, hk1, hid, hnd, hTab, hframe, hfifo, hq⟩ := hinv
    refine ⟨?_, hk1, ?_, ?_, ?_, ?_, ?_, ?_⟩
    · show (s.frames.set fid _).length = s.frameCount
      rw [List.length_set]
      exact hlen
    · intro i hi
      show ((s.frames.set fid _).getD i default).frameId = i
      rw [List.length_set] at hi
      by_cases hif : i = fid
      · subst hif
        rw [getD_set_self _ _ _ _ hi]
        exact hfrid
      · rw [getD_set_ne _ _ _ _ _ hif]
        exact hid i hi
    · show ((tableSet s.pageTables pid page (some fid)).map Prod.fst).Nodup
      rw [map_fst_tableSet]
      exact hnd
    · intro pp hpp page' hp' hne
      show (pp.2.getD page' none).getD 0 < (s.frames.set fid _).length ∧
        (s.frames.set fid _).getD ((pp.2.getD page' none).getD 0) default = _
      rw [List.length_set]
      rcases mem_tableSet hkey hnd hpp with hppn | ⟨hppo, hppne⟩
      · subst hppn
        by_cases hpq : page' = page
        · subst hpq
          dsimp only at hne hp' ⊢
          rw [getD_jsArraySet_self] at hne ⊢
          simp only [Option.getD_some]
          refine ⟨hfid, ?_⟩
          rw [getD_set_self _ _ _ _ hfid]
          rw [hfrid]
        · dsimp only at hne hp' ⊢
          rw [getD_jsArraySet_ne _ _ _ _ hpq] at hne ⊢
          have hlt : page' < t.length := by
            by_contra hge
            rw [List.getD_eq_default _ _ (by omega)] at hne
            exact hne rfl
          have hold := hTab (pid, t) (assocGet_mem hkey) page' hlt hne
          have hnefid : (t.getD page' none).getD 0 ≠ fid := by
            intro h
            rw [h] at hold
            rw [hold.2] at hfree
            cases hfree
          rw [getD_set_ne _ _ _ _ _ hnefid]
          exact hold
      · have hold := hTab pp hppo page' hp' hne
        have hnefid : (pp.2.getD page' none).getD 0 ≠ fid := by
          intro h
          rw [h] at hold
          rw [hold.2] at hfree
          cases hfree
        rw [getD_set_ne _ _ _ _ _ hnefid]
        exact hold
    · intro i hi hocc
      show tableGet (tableSet s.pageTables pid page (some fid)) _ _ = some i
      rw [show ({ s with
          frames := s.frames.set fid
            { frameId := (s.frames.getD fid default).frameId,
              isFree := false, pageId := some page,
              processId := some pid }
          pageTables := tableSet s.pageTables pid page (some fid)
          lastAccessed := la'
          fifoQueue := fq } : PagingState).frames =
        s.frames.set fid
          { frameId := (s.frames.getD fid default).frameId,
            isFree := false, pageId := some page,
            processId := some pid } from rfl] at hi hocc ⊢
      rw [List.length_set] at hi
      by_cases hif : i = fid
      · rw [hif] at hi ⊢
        rw [getD_set_self _ _ _ _ hi]
        simp only [Option.getD_some]
        exact tableGet_tableSet_self page (some fid) hkey
      · rw [getD_set_ne _ _ _ _ _ hif] at hocc ⊢
        have hold := hframe i hi hocc
        by_cases hsame : (s.frames.getD i default).processId.getD 0 = pid ∧
            (s.frames.getD i default).pageId.getD 0 = page
        · rw [hsame.1, hsame.2] at hold
          rw [hnone] at hold
          cases hold
        · rw [tableGet_tableSet_ne]
          · exact hold
          · by_cases h1 : (s.frames.getD i default).processId.getD 0 = pid
            · right
              intro h2
              exact hsame ⟨h1, h2⟩
            · left
              exact h1
    · intro e he
      show e.frameId < (s.frames.set fid _).length
      rw [List.length_set]
      exact hfq e he
    · intro r hr
      exact exists_key_tableSet pid page (some fid) (hq r hr)
  rw [hstate]
  by_cases hf : s.algorithm = PAlgo.FIFO
  · rw [if_pos hf, if_pos hf]
    refine ⟨?_, ?_, rfl, rfl, rfl, rfl, rfl, rfl,
      (by rw [show ∀ (x : List Frame), x.length = x.length from
        fun x => rfl]; exact List.length_set .. ), rfl, ?_⟩
    · apply hcore
      intro e he
      rcases List.mem_append.mp he with he | he
      · exact hinv.2.2.2.2.2.2.1 e he
      · rcases List.mem_cons.mp he with he | he
        · rw [he]
          exact hfid
        · cases he
    · show cacheOf _ = insert (refOf
        { frameId := (s.frames.getD fid default).frameId, isFree := false,
          pageId := some page, processId := some pid }) (cacheOf s)
      exact cacheOf_set hfid rfl hfree rfl
    · show s.frames.set fid _ = s.frames.set fid _
      rw [hfrid]
  · rw [if_neg hf, if_neg hf]
    refine ⟨?_, ?_, rfl, rfl, rfl, rfl, rfl, rfl,
      (by rw [show ∀ (x : List Frame), x.length = x.length from
        fun x => rfl]; exact List.length_set .. ), rfl, ?_⟩
    · apply hcore
      exact hinv.2.2.2.2.2.2.1
    · show cacheOf _ = insert (refOf
        { frameId := (s.frames.getD fid default).frameId, isFree := false,
          pageId := some page, processId := some pid }) (cacheOf s)
      exact cacheOf_set hfid rfl hfree rfl
    · show s.frames.set fid _ = s.frames.set fid _
      rw [hfrid]

theorem assocGet_eq_none_iff {κ α : Type} [DecidableEq κ] {k : κ} :
    ∀ {l : List (κ × α)}, assocGet k l = none ↔ k ∉ l.map Prod.fst := by
  intro l
  induction l with
  | nil => simp [assocGet]
  | cons p rest ih =>
    rw [show assocGet k (p :: rest) =
      if p.1 = k then some p.2 else assocGet k rest from rfl]
    by_cases hk : p.1 = k
    · rw [if_pos hk]
      simp [hk]
    · rw [if_neg hk]
      simp only [List.map_cons, List.mem_cons]
      rw [ih]
      constructor
      · intro h hmem
        rcases hmem with hmem | hmem
        · exact hk hmem.symm
        · exact h hmem
      · intro h hmem
        exact h (Or.inr hmem)

theorem evictFrame_spec {s : PagingState} (hinv : PInv s) {fid : Nat}
    (hfid : fid < s.frames.length)
    (hocc : (s.frames.getD fid default).isFree = false) :
    PInv (evictFrame s fid) ∧
    cacheOf (evictFrame s fid) =
      (cacheOf s).erase (refOf (s.frames.getD fid default)) ∧
    (evictFrame s fid).pageFaults = s.pageFaults ∧
    (evictFrame s fid).pageHits = s.pageHits ∧
    (evictFrame s fid).currentIndex = s.currentIndex ∧
    (evictFrame s fid).referenceQueue = s.referenceQueue ∧
    (evictFrame s fid).frameCount = s.frameCount ∧
    (evictFrame s fid).algorithm = s.algorithm ∧
    (evictFrame s fid).frames.length = s.frames.length ∧
    (evictFrame s fid).fifoQueue =
      s.fifoQueue.filter (fun item => item.frameId ≠ fid) ∧
    (evictFrame s fid).frames.getD fid default =
      { frameId := fid, isFree := true, pageId := none,
        processId := none } ∧
    (evictFrame s fid).pageTables.map Prod.fst =
      s.pageTables.map Prod.fst ∧
    (∀ pid page, tableGet s.pageTables pid page = none →
      tableGet (evictFrame s fid).pageTables pid page = none) ∧
    (evictFrame s fid).frames = s.frames.set fid
      { frameId := fid, isFree := true, pageId := none,
        processId := none } := by
  obtain ⟨hlen, hk1, hid, hnd, hTab, hframe, hfifo, hq⟩ := hinv
  have hinv' : PInv s := ⟨hlen, hk1, hid, hnd, hTab, hframe, hfifo, hq⟩
  have hframe_fid := hframe fid hfid hocc
  have hcanon := (tableGet_mem_spec hinv' hframe_fid).2
  obtain ⟨tv, hkeyv, hlenv, hentryv⟩ := tableGet_some hframe_fid
  have hfrid : (s.frames.getD fid default).frameId = fid := hid fid hfid
  have hstate : evictFrame s fid =
      { s with
          pageTables := tableSet s.pageTables
            ((s.frames.getD fid default).processId.getD 0)
            ((s.frames.getD fid default).pageId.getD 0) none
          lastAccessed := assocRemove (refOf (s.frames.getD fid default))
            s.lastAccessed
          fifoQueue := s.fifoQueue.filter fun item => item.frameId ≠ fid
          frames := s.frames.set fid
            { frameId := (s.frames.getD fid default).frameId,
              isFree := true, pageId := none, processId := none } } := by
    unfold evictFrame
    dsimp only
    rw [if_neg (by rw [hocc]; exact Bool.false_ne_true)]
  rw [hstate]
  refine ⟨?_, ?_, rfl, rfl, rfl, rfl, rfl, rfl, ?_, rfl, ?_, ?_, ?_, ?_⟩
  · refine ⟨?_, hk1, ?_, ?_, ?_, ?_, ?_, ?_⟩
    · show (s.frames.set fid _).length = s.frameCount
      rw [List.length_set]
      exact hlen
    · intro i hi
      show ((s.frames.set fid _).getD i default).frameId = i
      rw [List.length_set] at hi
      by_cases hif : i = fid
      · rw [hif] at hi ⊢
        rw [getD_set_self _ _ _ _ hi]
        exact hfrid
      · rw [getD_set_ne _ _ _ _ _ hif]
        exact hid i hi
    · show ((tableSet s.pageTables _ _ none).map Prod.fst).Nodup
      rw [map_fst_tableSet]
      exact hnd
    · intro pp hpp page' hp' hne
      show (pp.2.getD page' none).getD 0 < (s.frames.set fid _).length ∧
        (s.frames.set fid _).getD ((pp.2.getD page' none).getD 0) default = _
      rw [List.length_set]
      rcases mem_tableSet hkeyv hnd hpp with hppn | ⟨hppo, hppne⟩
      · subst hppn
        dsimp only at hp' hne ⊢
        by_cases hpq : page' = (s.frames.getD fid default).pageId.getD 0
        · rw [hpq] at hne
          rw [getD_jsArraySet_self] at hne
          exact absurd rfl hne
        · rw [getD_jsArraySet_ne _ _ _ _ hpq] at hne ⊢
          have hlt : page' < tv.length := by
            by_contra hge
            rw [List.getD_eq_default _ _ (by omega)] at hne
            exact hne rfl
          have hold := hTab _ (assocGet_mem hkeyv) page' hlt hne
          have hnefid : (tv.getD page' none).getD 0 ≠ fid := by
            intro h
            rw [h] at hold
            have hpg : (s.frames.getD fid default).pageId = some page' := by
              rw [hold.2]
            apply hpq
            rw [hpg]
            rfl
          rw [getD_set_ne _ _ _ _ _ hnefid]
          exact hold
      · have hold := hTab pp hppo page' hp' hne
        have hnefid : (pp.2.getD page' none).getD 0 ≠ fid := by
          intro h
          rw [h] at hold
          have hpd : (s.frames.getD fid default).processId = some pp.1 := by
            rw [hold.2]
          apply hppne
          rw [hpd]
          rfl
        rw [getD_set_ne _ _ _ _ _ hnefid]
        exact hold
    · intro i hi hocc'
      show tableGet (tableSet s.pageTables _ _ none) _ _ = some i
      rw [show ({ s with
          pageTables := tableSet s.pageTables
            ((s.frames.getD fid default).processId.getD 0)
            ((s.frames.getD fid default).pageId.getD 0) none
          lastAccessed := assocRemove (refOf (s.frames.getD fid default))
            s.lastAccessed
          fifoQueue := s.fifoQueue.filter fun item => item.frameId ≠ fid
          frames := s.frames.set fid
            { frameId := (s.frames.getD fid default).frameId,
              isFree := true, pageId := none, processId := none } } :
          PagingState).frames = s.frames.set fid
            { frameId := (s.frames.getD fid default).frameId,
              isFree := true, pageId := none, processId := none }
        from rfl] at hi hocc' ⊢
      rw [List.length_set] at hi
      by_cases hif : i = fid
      · rw [hif] at hocc'
        rw [getD_set_self _ _ _ _ hfid] at hocc'
        cases hocc'
      · rw [getD_set_ne _ _ _ _ _ hif] at hocc' ⊢
        have hold := hframe i hi hocc'
        by_cases hsame :
            (s.frames.getD i default).processId.getD 0 =
              (s.frames.getD fid default).processId.getD 0 ∧
            (s.frames.getD i default).pageId.getD 0 =
              (s.frames.getD fid default).pageId.getD 0
        · rw [hsame.1, hsame.2] at hold
          rw [hframe_fid] at hold
          injection hold with hold
          exact absurd hold.symm hif
        · rw [tableGet_tableSet_ne]
          · exact hold
          · by_cases h1 : (s.frames.getD i default).processId.getD 0 =
                (s.frames.getD fid default).processId.getD 0
            · right
              intro h2
              exact hsame ⟨h1, h2⟩
            · left
              exact h1
    · intro e he
      show e.frameId < (s.frames.set fid _).length
      rw [List.length_set]
      exact hfifo e (List.mem_of_mem_filter he)
    · intro r hr
      exact exists_key_tableSet _ _ none (hq r hr)
  · ext x
    rw [Finset.mem_erase, mem_cacheOf, mem_cacheOf]
    constructor
    · rintro ⟨i, hi, hoc, hrf⟩
      rw [show ∀ (z : PagingState), z.frames = z.frames from fun z => rfl] at hi
      rw [List.length_set] at hi
      by_cases hif : i = fid
      · rw [hif] at hoc
        rw [getD_set_self _ _ _ _ hfid] at hoc
        cases hoc
      · rw [getD_set_ne _ _ _ _ _ hif] at hoc hrf
        refine ⟨?_, i, hi, hoc, hrf⟩
        intro hx
        rw [← hrf] at hx
        exact hif (occupied_inj hinv' hi hfid hoc hocc hx)
    · rintro ⟨hx, i, hi, hoc, hrf⟩
      have hif : i ≠ fid := by
        intro h
        rw [h] at hrf
        exact hx hrf.symm
      refine ⟨i, ?_, ?_, ?_⟩
      · rw [List.length_set]
        exact hi
      · rw [getD_set_ne _ _ _ _ _ hif]
        exact hoc
      · rw [getD_set_ne _ _ _ _ _ hif]
        exact hrf
  · rw [List.length_set]
  · rw [getD_set_self _ _ _ _ hfid, hfrid]
  · exact map_fst_tableSet _ _ _ _
  · intro pid page hpn
    by_cases hsame : pid = (s.frames.getD fid default).processId.getD 0 ∧
        page = (s.frames.getD fid default).pageId.getD 0
    · rw [hsame.1, hsame.2]
      exact tableGet_tableSet_self _ none hkeyv
    · rw [tableGet_tableSet_ne]
      · exact hpn
      · by_cases h1 : pid = (s.frames.getD fid default).processId.getD 0
        · right
          intro h2
          exact hsame ⟨h1, h2⟩
        · left
          exact h1
  · show s.frames.set fid _ = s.frames.set fid _
    rw [hfrid]

theorem neg_one_le_nuOf (s : PagingState) (idx : Nat) (f : Frame) :
    -1 ≤ nuOf s idx f := by
  unfold nuOf nextUseIndex
  cases hf : firstIdx (f.processId.getD 0, f.pageId.getD 0)
      (s.referenceQueue.drop idx) with
  | none => dsimp only; omega
  | some i => dsimp only; omega

theorem firstIdx_lt_length {r : PRef} :
    ∀ {l : List PRef} {i : Nat}, firstIdx r l = some i → i < l.length := by
  intro l
  induction l with
  | nil => intro i h; cases h
  | cons x xs ih =>
    intro i h
    rw [show firstIdx r (x :: xs) =
      if x = r then some 0 else (firstIdx r xs).map (· + 1) from rfl] at h
    by_cases hx : x = r
    · rw [if_pos hx] at h
      injection h with h
      rw [← h]
      simp
    · rw [if_neg hx] at h
      cases hf : firstIdx r xs with
      | none => rw [hf] at h; cases h
      | some j =>
        rw [hf] at h
        dsimp only [Option.map] at h
        injection h with h
        have := ih hf
        rw [← h]
        simp only [List.length_cons]
        omega

theorem idxN_le_length (r : PRef) (l : List PRef) : idxN r l ≤ l.length := by
  unfold idxN
  cases hf : firstIdx r l with
  | none => simp
  | some i =>
    simp only [Option.getD_some]
    exact le_of_lt (firstIdx_lt_length hf)

theorem nuLE_idxN {s : PagingState} {idx : Nat} {u v : Frame}
    (h : nuOf s idx v = -1 ∨ (nuOf s idx u ≠ -1 ∧ nuOf s idx u ≤ nuOf s idx v)) :
    idxN (refOf u) (s.referenceQueue.drop idx) ≤
      idxN (refOf v) (s.referenceQueue.drop idx) := by
  unfold nuOf nextUseIndex at h
  unfold idxN refOf
  cases hfv : firstIdx (v.processId.getD 0, v.pageId.getD 0)
      (s.referenceQueue.drop idx) with
  | none =>
    simp only [Option.getD_none]
    exact idxN_le_length _ _
  | some iv =>
    rw [hfv] at h
    simp only [Option.getD_some]
    cases hfu : firstIdx (u.processId.getD 0, u.pageId.getD 0)
        (s.referenceQueue.drop idx) with
    | none =>
      rw [hfu] at h
      dsimp only at h
      rcases h with h | h
      · omega
      · exact absurd rfl h.1
    | some iu =>
      rw [hfu] at h
      dsimp only at h
      simp only [Option.getD_some]
      rcases h with h | h
      · omega
      · have := h.2
        omega

theorem lruLoop_mem (la : List (PRef × Nat)) :
    ∀ (fs : List Frame) (acc : Frame) (o : Option Nat),
      lruLoop la fs acc o = acc ∨ lruLoop la fs acc o ∈ fs := by
  intro fs
  induction fs with
  | nil => intro acc o; left; rfl
  | cons f fs' ih =>
    intro acc o
    rw [show lruLoop la (f :: fs') acc o =
      if (match o with
          | none => true
          | some ol => decide ((assocGet (refOf f) la).getD 0 < ol)) = true
      then lruLoop la fs' f (some ((assocGet (refOf f) la).getD 0))
      else lruLoop la fs' acc o from rfl]
    by_cases hc : (match o with
        | none => true
        | some ol => decide ((assocGet (refOf f) la).getD 0 < ol)) = true
    · rw [if_pos hc]
      rcases ih f (some ((assocGet (refOf f) la).getD 0)) with h | h
      · right; rw [h]; exact List.mem_cons_self f fs'
      · right; exact List.mem_cons_of_mem f h
    · rw [if_neg hc]
      rcases ih acc o with h | h
      · left; exact h
      · right; exact List.mem_cons_of_mem f h

theorem optLoop_spec (s : PagingState) (idx : Nat) :
    ∀ (fs : List Frame) (acc : Frame) (fur : Int),
      fur ≤ nuOf s idx acc →
      (optLoop s idx fs acc fur = acc ∨ optLoop s idx fs acc fur ∈ fs) ∧
      (nuOf s idx (optLoop s idx fs acc fur) = -1 ∨
        fur ≤ nuOf s idx (optLoop s idx fs acc fur)) ∧
      (∀ g ∈ fs, nuOf s idx (optLoop s idx fs acc fur) = -1 ∨
        (nuOf s idx g ≠ -1 ∧
         nuOf s idx g ≤ nuOf s idx (optLoop s idx fs acc fur))) := by
  intro fs
  induction fs with
  | nil =>
    intro acc fur hfa
    refine ⟨Or.inl rfl, Or.inr hfa, ?_⟩
    intro g hg
    cases hg
  | cons f fs' ih =>
    intro acc fur hfa
    rw [show optLoop s idx (f :: fs') acc fur =
      if nextUseIndex s (f.processId.getD 0) (f.pageId.getD 0) idx = -1
      then f
      else if fur <
          nextUseIndex s (f.processId.getD 0) (f.pageId.getD 0) idx then
        optLoop s idx fs' f
          (nextUseIndex s (f.processId.getD 0) (f.pageId.getD 0) idx)
      else optLoop s idx fs' acc fur from rfl]
    by_cases h1 : nextUseIndex s (f.processId.getD 0) (f.pageId.getD 0) idx
        = -1
    · rw [if_pos h1]
      refine ⟨Or.inr (List.mem_cons_self f fs'), Or.inl h1, ?_⟩
      intro g _
      exact Or.inl h1
    · rw [if_neg h1]
      by_cases h2 : fur <
          nextUseIndex s (f.processId.getD 0) (f.pageId.getD 0) idx
      · rw [if_pos h2]
        obtain ⟨hmem, hfur, hall⟩ := ih f
          (nextUseIndex s (f.processId.getD 0) (f.pageId.getD 0) idx)
          (le_refl _)
        refine ⟨?_, ?_, ?_⟩
        · rcases hmem with h | h
          · right; rw [h]; exact List.mem_cons_self f fs'
          · right; exact List.mem_cons_of_mem f h
        · rcases hfur with h | h
          · exact Or.inl h
          · right
            omega
        · intro g hg
          rcases List.mem_cons.mp hg with hg | hg
          · rcases hfur with h | h
            · exact Or.inl h
            · right
              rw [hg]
              exact ⟨h1, h⟩
          · exact hall g hg
      · rw [if_neg h2]
        obtain ⟨hmem, hfur, hall⟩ := ih acc fur hfa
        refine ⟨?_, hfur, ?_⟩
        · rcases hmem with h | h
          · exact Or.inl h
          · right; exact List.mem_cons_of_mem f h
        · intro g hg
          rcases List.mem_cons.mp hg with hg | hg
          · rcases hfur with h | h
            · exact Or.inl h
            · right
              rw [hg]
              refine ⟨h1, ?_⟩
              show nextUseIndex s (f.processId.getD 0) (f.pageId.getD 0) idx
                ≤ _
              omega
          · exact hall g hg

theorem headD_mem {α : Type} [Inhabited α] {l : List α} (h : l ≠ []) :
    l.headD default ∈ l := by
  cases l with
  | nil => exact absurd rfl h
  | cons a as => exact List.mem_cons_self a as

theorem selectVictimFrame_spec {s : PagingState} (hinv : PInv s) (idx : Nat)
    (hfull : s.frames.find? (fun f => f.isFree) = none) :
    ((selectVictimFrame s idx).1 = s ∨
      (s.algorithm = PAlgo.FIFO ∧ (selectVictimFrame s idx).1 =
        { s with fifoQueue := s.fifoQueue.tail })) ∧
    (selectVictimFrame s idx).2.frameId < s.frames.length ∧
    s.frames.getD (selectVictimFrame s idx).2.frameId default =
      (selectVictimFrame s idx).2 ∧
    (selectVictimFrame s idx).2.isFree = false ∧
    (s.algorithm = PAlgo.OPTIMAL →
      ∀ u ∈ cacheOf s, idxN u (s.referenceQueue.drop idx) ≤
        idxN (refOf (selectVictimFrame s idx).2)
          (s.referenceQueue.drop idx)) ∧
    (s.algorithm = PAlgo.FIFO → s.fifoQueue ≠ [] →
      (selectVictimFrame s idx).2 =
        s.frames.getD (s.fifoQueue.headD default).frameId default ∧
      (selectVictimFrame s idx).1 =
        { s with fifoQueue := s.fifoQueue.tail }) := by
  have hallocc : ∀ f ∈ s.frames, f.isFree = false := by
    intro f hf
    have := List.find?_eq_none.mp hfull f hf
    simpa using this
  have hocceq : s.frames.filter (fun f => !f.isFree) = s.frames := by
    apply List.filter_eq_self.mpr
    intro f hf
    rw [hallocc f hf]
    rfl
  have hfne : s.frames ≠ [] := by
    intro h
    have h0 := hinv.1
    rw [h] at h0
    have h1 := hinv.2.1
    simp at h0
    omega
  have hvictim_occ : ∀ f ∈ s.frames,
      f.frameId < s.frames.length ∧
      s.frames.getD f.frameId default = f ∧ f.isFree = false := by
    intro f hf
    obtain ⟨h1, h2⟩ := mem_frames_idx hinv hf
    exact ⟨h1, h2, hallocc f hf⟩
  unfold selectVictimFrame
  dsimp only
  by_cases hfif : s.algorithm = PAlgo.FIFO ∧ s.fifoQueue ≠ []
  · rw [if_pos hfif]
    have hhead : s.fifoQueue.headD default ∈ s.fifoQueue :=
      headD_mem hfif.2
    have hid := hinv.2.2.2.2.2.2.1 _ hhead
    have hfmem : s.frames.getD (s.fifoQueue.headD default).frameId default
        ∈ s.frames := by
      rw [List.getD_eq_getElem _ _ hid]
      exact List.getElem_mem hid
    obtain ⟨h1, h2, h3⟩ := hvictim_occ _ hfmem
    refine ⟨Or.inr ⟨hfif.1, rfl⟩, h1, h2, h3, ?_, ?_⟩
    · intro hopt
      rw [hfif.1] at hopt
      cases hopt
    · intro _ _
      exact ⟨rfl, rfl⟩
  · rw [if_neg hfif]
    rw [hocceq]
    rw [if_neg hfne]
    by_cases hlru : s.algorithm = PAlgo.LRU
    · rw [if_pos hlru]
      have hmem : lruLoop s.lastAccessed s.frames
          (s.frames.headD default) none ∈ s.frames := by
        rcases lruLoop_mem s.lastAccessed s.frames
            (s.frames.headD default) none with h | h
        · rw [h]; exact headD_mem hfne
        · exact h
      obtain ⟨h1, h2, h3⟩ := hvictim_occ _ hmem
      refine ⟨Or.inl rfl, h1, h2, h3, ?_, ?_⟩
      · intro hopt
        rw [hlru] at hopt
        cases hopt
      · intro h1' h2'
        exact absurd ⟨h1', h2'⟩ hfif
    · rw [if_neg hlru]
      by_cases hoptm : s.algorithm = PAlgo.OPTIMAL
      · rw [if_pos hoptm]
        obtain ⟨hmem0, _, hall⟩ := optLoop_spec s idx s.frames
          (s.frames.headD default) (-1) (neg_one_le_nuOf s idx _)
        have hmem : optLoop s idx s.frames (s.frames.headD default) (-1)
            ∈ s.frames := by
          rcases hmem0 with h | h
          · rw [h]; exact headD_mem hfne
          · exact h
        obtain ⟨h1, h2, h3⟩ := hvictim_occ _ hmem
        refine ⟨Or.inl rfl, h1, h2, h3, ?_, ?_⟩
        swap
        · intro h1' h2'
          exact absurd ⟨h1', h2'⟩ hfif
        intro _ u hu
        obtain ⟨i, hi, hoc, hrf⟩ := mem_cacheOf.mp hu
        have hgmem : s.frames.getD i default ∈ s.frames := by
          rw [List.getD_eq_getElem _ _ hi]
          exact List.getElem_mem hi
        have := hall (s.frames.getD i default) hgmem
        rw [← hrf]
        exact nuLE_idxN this
      · rw [if_neg hoptm]
        obtain ⟨h1, h2, h3⟩ := hvictim_occ _ (headD_mem hfne)
        refine ⟨Or.inl rfl, h1, h2, h3, ?_, ?_⟩
        · intro hopt
          exact absurd hopt hoptm
        · intro h1' h2'
          exact absurd ⟨h1', h2'⟩ hfif

theorem not_done_lt {s : PagingState} (hnd : pIsDone s = false) :
    s.currentIndex < s.referenceQueue.length := by
  unfold pIsDone at hnd
  simpa using hnd

theorem curRef_mem {s : PagingState} (hnd : pIsDone s = false) :
    s.referenceQueue.getD s.currentIndex default ∈ s.referenceQueue := by
  have h := not_done_lt hnd
  rw [List.getD_eq_getElem _ _ h]
  exact List.getElem_mem h

theorem pstep_hit {s : PagingState} (hinv : PInv s)
    (hnd : pIsDone s = false)
    (hhit : s.referenceQueue.getD s.currentIndex default ∈ cacheOf s) :
    PInv (pstep s) ∧ cacheOf (pstep s) = cacheOf s ∧
    (pstep s).pageFaults = s.pageFaults ∧
    (pstep s).currentIndex = s.currentIndex + 1 ∧
    (pstep s).referenceQueue = s.referenceQueue ∧
    (pstep s).frameCount = s.frameCount ∧
    (pstep s).algorithm = s.algorithm ∧
    (pstep s).fifoQueue = s.fifoQueue ∧
    (pstep s).frames = s.frames := by
  obtain ⟨f, hf⟩ := (cache_iff_table hinv _).mp hhit
  have hstep : pstep s = markAccessed
      { s with currentIndex := s.currentIndex + 1,
               pageHits := s.pageHits + 1 }
      (s.frames.getD f default) (s.currentIndex + 1) := by
    unfold pstep
    rw [if_neg (by rw [hnd]; exact Bool.false_ne_true)]
    dsimp only
    rw [hf]
  obtain ⟨la, hla⟩ := markAccessed_eq
    { s with currentIndex := s.currentIndex + 1,
             pageHits := s.pageHits + 1 }
    (s.frames.getD f default) (s.currentIndex + 1)
  rw [hstep, hla]
  exact ⟨hinv, rfl, rfl, rfl, rfl, rfl, rfl, rfl, rfl⟩

theorem pstep_fault_free {s : PagingState} (hinv : PInv s)
    (hnd : pIsDone s = false)
    (hmiss : s.referenceQueue.getD s.currentIndex default ∉ cacheOf s)
    {fr : Frame} (hfree : s.frames.find? (fun f => f.isFree) = some fr) :
    PInv (pstep s) ∧
    cacheOf (pstep s) =
      insert (s.referenceQueue.getD s.currentIndex default) (cacheOf s) ∧
    (pstep s).pageFaults = s.pageFaults + 1 ∧
    (pstep s).currentIndex = s.currentIndex + 1 ∧
    (pstep s).referenceQueue = s.referenceQueue ∧
    (pstep s).frameCount = s.frameCount ∧
    (pstep s).algorithm = s.algorithm ∧
    (pstep s).frames.length = s.frames.length ∧
    (pstep s).fifoQueue = (if s.algorithm = PAlgo.FIFO then
      s.fifoQueue ++ [(⟨fr.frameId,
        (s.referenceQueue.getD s.currentIndex default).1,
        (s.referenceQueue.getD s.currentIndex default).2⟩ : FifoEntry)]
    else s.fifoQueue) := by
  have htget : tableGet s.pageTables
      (s.referenceQueue.getD s.currentIndex default).1
      (s.referenceQueue.getD s.currentIndex default).2 = none := by
    cases htg : tableGet s.pageTables
        (s.referenceQueue.getD s.currentIndex default).1
        (s.referenceQueue.getD s.currentIndex default).2 with
    | none => rfl
    | some f =>
      exact absurd ((cache_iff_table hinv _).mpr ⟨f, htg⟩) hmiss
  have hfrmem := List.mem_of_find?_eq_some hfree
  have hfrfree : fr.isFree = true := by
    have := List.find?_some hfree
    simpa using this
  obtain ⟨hfrid, hfrget⟩ := mem_frames_idx hinv hfrmem
  have hstep : pstep s = loadPage
      { s with currentIndex := s.currentIndex + 1,
               pageFaults := s.pageFaults + 1 }
      (s.referenceQueue.getD s.currentIndex default).1
      (s.referenceQueue.getD s.currentIndex default).2
      fr.frameId (s.currentIndex + 1) := by
    unfold pstep
    rw [if_neg (by rw [hnd]; exact Bool.false_ne_true)]
    dsimp only
    rw [htget]
    dsimp only
    rw [hfree]
  have hinv1 : PInv { s with
      currentIndex := s.currentIndex + 1
      pageFaults := s.pageFaults + 1 } := by
    unfold PInv at hinv ⊢
    exact hinv
  obtain ⟨pp, hpp, hppid⟩ := hinv.2.2.2.2.2.2.2 _ (curRef_mem hnd)
  have hkeyne : assocGet
      (s.referenceQueue.getD s.currentIndex default).1 s.pageTables
      ≠ none := by
    intro hcontra
    rw [assocGet_eq_none_iff] at hcontra
    exact hcontra (hppid ▸ List.mem_map_of_mem Prod.fst hpp)
  cases hkey : assocGet
      (s.referenceQueue.getD s.currentIndex default).1 s.pageTables with
  | none => exact absurd hkey hkeyne
  | some t =>
    have := loadPage_spec hinv1 (s.currentIndex + 1)
      (show fr.frameId < s.frames.length from hfrid)
      (by show (s.frames.getD fr.frameId default).isFree = true
          rw [hfrget]
          exact hfrfree)
      (show assocGet _ _ = some t from hkey)
      (show tableGet _ _ _ = none from htget)
    rw [hstep]
    obtain ⟨h1, h2, h3, h4, h5, h6, h7, h8, h9, h10, h11⟩ := this
    refine ⟨h1, ?_, h3, h5, h6, h7, h8, h9, h10⟩
    rw [h2]
    rfl

theorem mem_of_mem_tail {α : Type} {e : α} : ∀ {l : List α},
    e ∈ l.tail → e ∈ l := by
  intro l
  cases l with
  | nil => intro h; cases h
  | cons a as => intro h; exact List.mem_cons_of_mem a h

theorem pstep_fault_evict {s : PagingState} (hinv : PInv s)
    (hnd : pIsDone s = false)
    (hmiss : s.referenceQueue.getD s.currentIndex default ∉ cacheOf s)
    (hfull : s.frames.find? (fun f => f.isFree) = none) :
    ∃ v ∈ cacheOf s,
      PInv (pstep s) ∧
      cacheOf (pstep s) =
        insert (s.referenceQueue.getD s.currentIndex default)
          ((cacheOf s).erase v) ∧
      (pstep s).pageFaults = s.pageFaults + 1 ∧
      (pstep s).currentIndex = s.currentIndex + 1 ∧
      (pstep s).referenceQueue = s.referenceQueue ∧
      (pstep s).frameCount = s.frameCount ∧
      (pstep s).algorithm = s.algorithm ∧
      (pstep s).frames.length = s.frames.length ∧
      (s.algorithm = PAlgo.OPTIMAL →
        ∀ u ∈ cacheOf s,
          idxN u (s.referenceQueue.drop (s.currentIndex + 1)) ≤
            idxN v (s.referenceQueue.drop (s.currentIndex + 1))) := by
  have htget : tableGet s.pageTables
      (s.referenceQueue.getD s.currentIndex default).1
      (s.referenceQueue.getD s.currentIndex default).2 = none := by
    cases htg : tableGet s.pageTables
        (s.referenceQueue.getD s.currentIndex default).1
        (s.referenceQueue.getD s.currentIndex default).2 with
    | none => rfl
    | some f =>
      exact absurd ((cache_iff_table hinv _).mpr ⟨f, htg⟩) hmiss
  set s1 : PagingState := { s with
    currentIndex := s.currentIndex + 1
    pageFaults := s.pageFaults + 1 } with hs1
  have hinv1 : PInv s1 := by
    unfold PInv at hinv ⊢
    exact hinv
  set pr := selectVictimFrame s1 (s.currentIndex + 1) with hprd
  have hstep : pstep s =
      loadPage (evictFrame pr.1 pr.2.frameId)
        (s.referenceQueue.getD s.currentIndex default).1
        (s.referenceQueue.getD s.currentIndex default).2
        pr.2.frameId (evictFrame pr.1 pr.2.frameId).currentIndex := by
    unfold pstep
    rw [if_neg (by rw [hnd]; exact Bool.false_ne_true)]
    dsimp only
    rw [htget]
    dsimp only
    rw [show List.find? (fun f => f.isFree) s.frames = none from hfull]
  have hsv := selectVictimFrame_spec hinv1 (s.currentIndex + 1)
    (show List.find? (fun f => f.isFree) s.frames = none from hfull)
  rw [← hprd] at hsv
  obtain ⟨hbranch, hvid, hvget, hvocc, hvopt, hvfifo⟩ := hsv
  have hprops :
      PInv pr.1 ∧ pr.1.frames = s.frames ∧
      pr.1.pageTables = s.pageTables ∧
      pr.1.pageFaults = s.pageFaults + 1 ∧
      pr.1.currentIndex = s.currentIndex + 1 ∧
      pr.1.referenceQueue = s.referenceQueue ∧
      pr.1.frameCount = s.frameCount ∧
      pr.1.algorithm = s.algorithm := by
    rcases hbranch with hb | ⟨_, hb⟩
    · rw [hb]
      exact ⟨hinv1, rfl, rfl, rfl, rfl, rfl, rfl, rfl⟩
    · rw [hb]
      refine ⟨?_, rfl, rfl, rfl, rfl, rfl, rfl, rfl⟩
      obtain ⟨h1, h2, h3, h4, h5, h6, h7, h8⟩ := hinv
      exact ⟨h1, h2, h3, h4, h5, h6,
        fun e he => h7 e (mem_of_mem_tail he), h8⟩
  obtain ⟨hprI, hprF, hprT, hprPF, hprCI, hprRQ, hprFC, hprA⟩ := hprops
  have hev := evictFrame_spec hprI
    (show pr.2.frameId < pr.1.frames.length by rw [hprF]; exact hvid)
    (by rw [hprF, hvget]; exact hvocc)
  obtain ⟨hevI, hevC, hevPF, hevPH, hevCI, hevRQ, hevFC, hevA, hevL,
    hevFQ, hevClr, hevKeys, hevTG, hevFR⟩ := hev
  rw [hstep]
  refine ⟨refOf pr.2, ?_, ?_⟩
  · rw [mem_cacheOf]
    refine ⟨pr.2.frameId, hvid, ?_, ?_⟩
    · rw [hvget]
      exact hvocc
    · rw [hvget]
  · obtain ⟨pp, hpp, hppid⟩ := hinv.2.2.2.2.2.2.2 _ (curRef_mem hnd)
    have hkeyne : assocGet
        (s.referenceQueue.getD s.currentIndex default).1
        (evictFrame pr.1 pr.2.frameId).pageTables ≠ none := by
      intro hcontra
      rw [assocGet_eq_none_iff, hevKeys, hprT] at hcontra
      exact hcontra (hppid ▸ List.mem_map_of_mem Prod.fst hpp)
    cases hkey : assocGet
        (s.referenceQueue.getD s.currentIndex default).1
        (evictFrame pr.1 pr.2.frameId).pageTables with
    | none => exact absurd hkey hkeyne
    | some t3 =>
      have hlp := loadPage_spec hevI
        ((evictFrame pr.1 pr.2.frameId).currentIndex)
        (show pr.2.frameId <
            (evictFrame pr.1 pr.2.frameId).frames.length by
          rw [hevL, hprF]; exact hvid)
        (by rw [hevClr])
        hkey
        (hevTG _ _ (by rw [hprT]; exact htget))
      obtain ⟨hl1, hl2, hl3, hl4, hl5, hl6, hl7, hl8, hl9, hl10, hl11⟩
        := hlp
      refine ⟨hl1, ?_, ?_, ?_, ?_, ?_, ?_, ?_, ?_⟩
      · rw [hl2, hevC, hprF, hvget]
        have hco : cacheOf pr.1 = cacheOf s := by
          unfold cacheOf
          rw [hprF]
        rw [hco]
      · rw [hl3, hevPF, hprPF]
      · rw [hl5, hevCI, hprCI]
      · rw [hl6, hevRQ, hprRQ]
      · rw [hl7, hevFC, hprFC]
      · rw [hl8, hevA, hprA]
      · rw [hl9, hevL, hprF]
      · intro halg u hu
        exact hvopt halg u hu

theorem map_fst_assocSet_none {κ α : Type} [DecidableEq κ] {k : κ} (v : α) :
    ∀ {l : List (κ × α)}, assocGet k l = none →
    (assocSet k v l).map Prod.fst = l.map Prod.fst ++ [k] := by
  intro l
  induction l with
  | nil => intro _; rfl
  | cons p rest ih =>
    intro h
    rw [show assocGet k (p :: rest) =
      if p.1 = k then some p.2 else assocGet k rest from rfl] at h
    rw [show assocSet k v (p :: rest) =
      if p.1 = k then (k, v) :: rest
      else p :: assocSet k v rest from by cases p; rfl]
    by_cases hk : p.1 = k
    · rw [if_pos hk] at h
      cases h
    · rw [if_neg hk] at h
      rw [if_neg hk]
      simp only [List.map_cons, List.cons_append]
      rw [ih h]

theorem nodup_assocSet {κ α : Type} [DecidableEq κ] (k : κ) (v : α)
    {l : List (κ × α)} (h : (l.map Prod.fst).Nodup) :
    ((assocSet k v l).map Prod.fst).Nodup := by
  cases hget : assocGet k l with
  | none =>
    rw [map_fst_assocSet_none v hget]
    rw [List.nodup_append]
    refine ⟨h, List.nodup_singleton k, ?_⟩
    intro x hx
    simp only [List.mem_singleton]
    intro hxk
    rw [hxk] at hx
    exact (assocGet_eq_none_iff.mp hget) hx
  | some t =>
    rw [map_fst_assocSet v (by rw [hget]; exact fun hc => Option.noConfusion hc)]
    exact h

theorem buildPageTables_nodup (procs : List PProc) :
    ((buildPageTables procs).map Prod.fst).Nodup := by
  unfold buildPageTables
  suffices h : ∀ (acc : List (Nat × List (Option Nat))),
      (acc.map Prod.fst).Nodup →
      ((procs.foldl (fun tables p =>
        assocSet p.pid (List.replicate p.totalPages none) tables)
        acc).map Prod.fst).Nodup by
    exact h [] (by simp)
  induction procs with
  | nil => intro acc hacc; exact hacc
  | cons p rest ih =>
    intro acc hacc
    rw [List.foldl_cons]
    exact ih _ (nodup_assocSet _ _ hacc)

theorem buildPageTables_mem_gen :
    ∀ (procs : List PProc) (acc : List (Nat × List (Option Nat)))
      (pp : Nat × List (Option Nat)),
    pp ∈ procs.foldl (fun tables p =>
      assocSet p.pid (List.replicate p.totalPages none) tables) acc →
    pp ∈ acc ∨ ∃ p ∈ procs, pp = (p.pid, List.replicate p.totalPages none)
  := by
  intro procs
  induction procs with
  | nil =>
    intro acc pp h
    exact Or.inl h
  | cons p rest ih =>
    intro acc pp h
    rw [List.foldl_cons] at h
    rcases ih _ pp h with h1 | ⟨p', hp', heq⟩
    · rcases mem_assocSet_weak h1 with h2 | h2
      · exact Or.inr ⟨p, List.mem_cons_self p rest, h2⟩
      · exact Or.inl h2
    · exact Or.inr ⟨p', List.mem_cons_of_mem p hp', heq⟩

theorem buildPageTables_mem {procs : List PProc}
    {pp : Nat × List (Option Nat)} (h : pp ∈ buildPageTables procs) :
    ∃ p ∈ procs, pp = (p.pid, List.replicate p.totalPages none) := by
  unfold buildPageTables at h
  rcases buildPageTables_mem_gen procs [] pp h with h1 | h1
  · cases h1
  · exact h1

theorem buildPageTables_key {procs : List PProc} {p : PProc}
    (hp : p ∈ procs) :
    ∃ pp ∈ buildPageTables procs, pp.1 = p.pid := by
  unfold buildPageTables
  suffices hgen : ∀ (acc : List (Nat × List (Option Nat))),
      (p ∈ procs ∨ (∃ pp ∈ acc, pp.1 = p.pid)) →
      ∃ pp ∈ procs.foldl (fun tables q =>
        assocSet q.pid (List.replicate q.totalPages none) tables) acc,
        pp.1 = p.pid by
    exact hgen [] (Or.inl hp)
  clear hp
  induction procs with
  | nil =>
    intro acc h
    rcases h with h | h
    · cases h
    · exact h
  | cons q rest ih =>
    intro acc h
    rw [List.foldl_cons]
    apply ih
    rcases h with h | ⟨pp, hpp, hppid⟩
    · rcases List.mem_cons.mp h with h | h
      · right
        refine ⟨(q.pid, List.replicate q.totalPages none),
          self_mem_assocSet _ _ _, ?_⟩
        rw [h]
      · left
        exact h
    · by_cases hk : pp.1 = q.pid
      · right
        refine ⟨(q.pid, List.replicate q.totalPages none),
          self_mem_assocSet _ _ _, ?_⟩
        rw [← hk, hppid]
      · right
        exact ⟨pp, mem_assocSet_of_ne _ hpp hk, hppid⟩

theorem buildReferenceQueue_pid {procs : List PProc} (hne : procs ≠ [])
    {r : PRef} (hr : r ∈ buildReferenceQueue procs) :
    ∃ p ∈ procs, r.1 = p.pid := by
  unfold buildReferenceQueue at hr
  dsimp only at hr
  by_cases hq : ((List.range (maxRefLength procs)).map fun st =>
      procs.filterMap fun p =>
        (p.referenceString.get? st).map fun page => (p.pid, page)).flatten
      = []
  · rw [if_pos hq] at hr
    rcases List.mem_cons.mp hr with hr1 | hr1
    · refine ⟨procs.headD default, headD_mem hne, ?_⟩
      rw [hr1]
    · cases hr1
  · rw [if_neg hq] at hr
    rw [List.mem_flatten] at hr
    obtain ⟨l, hl, hrl⟩ := hr
    rw [List.mem_map] at hl
    obtain ⟨st, _, hst⟩ := hl
    rw [← hst] at hrl
    rw [List.mem_filterMap] at hrl
    obtain ⟨p, hp, hpr⟩ := hrl
    cases hg : p.referenceString.get? st with
    | none => rw [hg] at hpr; cases hpr
    | some page =>
      rw [hg] at hpr
      dsimp only [Option.map] at hpr
      injection hpr with hpr
      refine ⟨p, hp, ?_⟩
      rw [← hpr]

theorem normalizeProcesses_ne_nil (specs : List PSpec) :
    normalizeProcesses specs ≠ [] := by
  unfold normalizeProcesses
  by_cases h : specs = []
  · rw [if_pos h]
    exact List.cons_ne_nil _ _
  · rw [if_neg h]
    intro hc
    exact h (List.map_eq_nil_iff.mp hc)

theorem PInv_mk (specs : List PSpec) (algo : PAlgo) (fc : Int) :
    PInv (mkPagingEngine specs algo fc) := by
  unfold mkPagingEngine
  dsimp only
  have hfc : 1 ≤ ((max 3 (if fc = 0 then 6 else fc)).toNat) := by
    have h3 : (3 : Int) ≤ max 3 (if fc = 0 then 6 else fc) := le_max_left _ _
    omega
  refine ⟨by rw [List.length_map, List.length_range], hfc, ?_, ?_, ?_, ?_,
    ?_, ?_⟩
  · intro i hi
    rw [List.length_map, List.length_range] at hi
    rw [List.getD_eq_getElem _ _
      (by rw [List.length_map, List.length_range]; exact hi)]
    rw [List.getElem_map, List.getElem_range]
  · exact buildPageTables_nodup _
  · intro pp hpp page hp hne
    obtain ⟨p, _, heq⟩ := buildPageTables_mem hpp
    rw [heq] at hne
    dsimp only at hne
    rw [getD_replicate_none] at hne
    exact absurd rfl hne
  · intro i hi hocc
    rw [List.length_map, List.length_range] at hi
    rw [List.getD_eq_getElem _ _
      (by rw [List.length_map, List.length_range]; exact hi)] at hocc
    rw [List.getElem_map, List.getElem_range] at hocc
    cases hocc
  · intro e he
    cases he
  · intro r hr
    obtain ⟨p, hp, hpid⟩ := buildReferenceQueue_pid
      (normalizeProcesses_ne_nil specs) hr
    obtain ⟨pp, hpp, hppid⟩ := buildPageTables_key hp
    exact ⟨pp, hpp, by rw [hppid, hpid]⟩

theorem cacheOf_mk (specs : List PSpec) (algo : PAlgo) (fc : Int) :
    cacheOf (mkPagingEngine specs algo fc) = ∅ := by
  have h : (mkPagingEngine specs algo fc).frames.filter
      (fun f => !f.isFree) = [] := by
    rw [List.filter_eq_nil_iff]
    intro f hf
    unfold mkPagingEngine at hf
    dsimp only at hf
    rw [List.mem_map] at hf
    obtain ⟨i, _, hi⟩ := hf
    rw [← hi]
    simp
  unfold cacheOf
  rw [h]
  rfl

/-- Any demand-paging run of the engine (whatever the policy chooses on
each fault) incurs at least the optimal number of faults. -/
theorem optCost_le_run : ∀ (n : Nat) (s : PagingState), PInv s →
    s.referenceQueue.length - s.currentIndex ≤ n →
    optCost s.frameCount (s.referenceQueue.drop s.currentIndex) (cacheOf s)
      + s.pageFaults ≤ (pRunSteps n s).pageFaults := by
  intro n
  induction n with
  | zero =>
    intro s _ hrem
    have : s.referenceQueue.drop s.currentIndex = [] :=
      List.drop_eq_nil_of_le (by omega)
    rw [this, optCost_nil]
    show 0 + s.pageFaults ≤ s.pageFaults
    omega
  | succ n ih =>
    intro s hinv hrem
    by_cases hdone : pIsDone s = true
    · unfold pRunSteps
      rw [if_pos hdone]
      unfold pIsDone at hdone
      simp only [decide_eq_true_eq] at hdone
      have : s.referenceQueue.drop s.currentIndex = [] :=
        List.drop_eq_nil_of_le hdone
      rw [this, optCost_nil]
      omega
    · have hnd : pIsDone s = false := by
        cases h : pIsDone s
        · rfl
        · exact absurd h hdone
      have hlt := not_done_lt hnd
      have hdrop : s.referenceQueue.drop s.currentIndex =
          s.referenceQueue.getD s.currentIndex default ::
            s.referenceQueue.drop (s.currentIndex + 1) := by
        rw [List.drop_eq_getElem_cons hlt, List.getD_eq_getElem _ _ hlt]
      have hstep : pRunSteps (n + 1) s = pRunSteps n (pstep s) := by
        simp only [pRunSteps]
        rw [if_neg (by rw [hnd]; exact Bool.false_ne_true)]
      rw [hstep, hdrop]
      by_cases hhit : s.referenceQueue.getD s.currentIndex default
          ∈ cacheOf s
      · obtain ⟨h1, h2, h3, h4, h5, h6, _, _, _⟩ := pstep_hit hinv hnd hhit
        have := ih (pstep s) h1 (by rw [h5, h4]; omega)
        rw [h2, h3, h4, h5, h6] at this
        rw [optCost_cons_mem _ hhit]
        exact this
      · cases hfree : s.frames.find? (fun f => f.isFree) with
        | some fr =>
          obtain ⟨h1, h2, h3, h4, h5, h6, _, _, _⟩ :=
            pstep_fault_free hinv hnd hhit hfree
          have hcard := cacheOf_card_free hinv hfree
          rw [optCost_cons_small _ hhit hcard]
          have := ih (pstep s) h1 (by rw [h5, h4]; omega)
          rw [h2, h3, h4, h5, h6] at this
          omega
        | none =>
          obtain ⟨v, hv, h1, h2, h3, h4, h5, h6, _, _, _⟩ :=
            pstep_fault_evict hinv hnd hhit hfree
          have hcard := cacheOf_card_full hinv hfree
          have hle := optCost_full_le
            (s.referenceQueue.drop (s.currentIndex + 1)) hhit
            (show ¬ (cacheOf s).card < s.frameCount by omega) hv
          have := ih (pstep s) h1 (by rw [h5, h4]; omega)
          rw [h2, h3, h4, h5, h6] at this
          omega

/-- The OPTIMAL engine achieves the optimal number of faults. -/
theorem run_le_optCost : ∀ (n : Nat) (s : PagingState), PInv s →
    s.algorithm = PAlgo.OPTIMAL →
    s.referenceQueue.length - s.currentIndex ≤ n →
    (pRunSteps n s).pageFaults ≤ s.pageFaults +
      optCost s.frameCount (s.referenceQueue.drop s.currentIndex)
        (cacheOf s) := by
  intro n
  induction n with
  | zero =>
    intro s _ _ _
    exact Nat.le_add_right _ _
  | succ n ih =>
    intro s hinv halg hrem
    by_cases hdone : pIsDone s = true
    · unfold pRunSteps
      rw [if_pos hdone]
      exact Nat.le_add_right _ _
    · have hnd : pIsDone s = false := by
        cases h : pIsDone s
        · rfl
        · exact absurd h hdone
      have hlt := not_done_lt hnd
      have hdrop : s.referenceQueue.drop s.currentIndex =
          s.referenceQueue.getD s.currentIndex default ::
            s.referenceQueue.drop (s.currentIndex + 1) := by
        rw [List.drop_eq_getElem_cons hlt, List.getD_eq_getElem _ _ hlt]
      have hstep : pRunSteps (n + 1) s = pRunSteps n (pstep s) := by
        simp only [pRunSteps]
        rw [if_neg (by rw [hnd]; exact Bool.false_ne_true)]
      rw [hstep, hdrop]
      by_cases hhit : s.referenceQueue.getD s.currentIndex default
          ∈ cacheOf s
      · obtain ⟨h1, h2, h3, h4, h5, h6, h7, _, _⟩ := pstep_hit hinv hnd hhit
        have := ih (pstep s) h1 (by rw [h7, halg]) (by rw [h5, h4]; omega)
        rw [h2, h3, h4, h5, h6] at this
        rw [optCost_cons_mem _ hhit]
        exact this
      · cases hfree : s.frames.find? (fun f => f.isFree) with
        | some fr =>
          obtain ⟨h1, h2, h3, h4, h5, h6, h7, _, _⟩ :=
            pstep_fault_free hinv hnd hhit hfree
          have hcard := cacheOf_card_free hinv hfree
          rw [optCost_cons_small _ hhit hcard]
          have := ih (pstep s) h1 (by rw [h7, halg]) (by rw [h5, h4]; omega)
          rw [h2, h3, h4, h5, h6] at this
          omega
        | none =>
          obtain ⟨v, hv, h1, h2, h3, h4, h5, h6, h7, h8, hopt⟩ :=
            pstep_fault_evict hinv hnd hhit hfree
          have hcard := cacheOf_card_full hinv hfree
          have hbest := optCost_evict_best
            (s.referenceQueue.drop (s.currentIndex + 1)) (cacheOf s)
            (s.referenceQueue.getD s.currentIndex default) hhit
            (show ¬ (cacheOf s).card < s.frameCount by omega)
            (by omega) hv (hopt halg)
          have := ih (pstep s) h1 (by rw [h7, halg]) (by rw [h5, h4]; omega)
          rw [h2, h3, h4, h5, h6] at this
          omega

/-- C6 helper: simulating either engine on the same workload (the queue,
frame count and initial state are identical across policies). -/
theorem belady_le (specs : List PSpec) (fc : Int) (other : PAlgo) :
    (pRunSteps (mkPagingEngine specs PAlgo.OPTIMAL fc).referenceQueue.length
      (mkPagingEngine specs PAlgo.OPTIMAL fc)).pageFaults ≤
    (pRunSteps (mkPagingEngine specs other fc).referenceQueue.length
      (mkPagingEngine specs other fc)).pageFaults := by
  show (pRunSteps
      (mkPagingEngine specs PAlgo.OPTIMAL fc).referenceQueue.length
      (mkPagingEngine specs PAlgo.OPTIMAL fc)).pageFaults ≤
    (pRunSteps (mkPagingEngine specs PAlgo.OPTIMAL fc).referenceQueue.length
      (mkPagingEngine specs other fc)).pageFaults
  have hup := run_le_optCost
    (mkPagingEngine specs PAlgo.OPTIMAL fc).referenceQueue.length
    (mkPagingEngine specs PAlgo.OPTIMAL fc)
    (PInv_mk specs PAlgo.OPTIMAL fc) rfl (Nat.sub_le _ _)
  have hlo := optCost_le_run
    (mkPagingEngine specs PAlgo.OPTIMAL fc).referenceQueue.length
    (mkPagingEngine specs other fc)
    (PInv_mk specs other fc) (Nat.sub_le _ _)
  rw [cacheOf_mk] at hup hlo
  have heq : optCost (mkPagingEngine specs other fc).frameCount
      (List.drop (mkPagingEngine specs other fc).currentIndex
        (mkPagingEngine specs other fc).referenceQueue) ∅ =
      optCost (mkPagingEngine specs PAlgo.OPTIMAL fc).frameCount
      (List.drop (mkPagingEngine specs PAlgo.OPTIMAL fc).currentIndex
        (mkPagingEngine specs PAlgo.OPTIMAL fc).referenceQueue) ∅ := rfl
  rw [heq] at hlo
  have h0 : (mkPagingEngine specs PAlgo.OPTIMAL fc).pageFaults = 0 := rfl
  have h0' : (mkPagingEngine specs other fc).pageFaults = 0 := rfl
  rw [h0] at hup
  rw [h0'] at hlo
  omega

/-- A FIFO fault with no free frame evicts the frame at the head of the
fifo queue — the occupied frame loaded earliest — and requeues the newly
loaded page at the tail. -/
theorem fifo_evict_step {s : PagingState} (hinv : PInv s)
    (hnd : pIsDone s = false) (halg : s.algorithm = PAlgo.FIFO)
    (hmiss : s.referenceQueue.getD s.currentIndex default ∉ cacheOf s)
    (hfull : s.frames.find? (fun f => f.isFree) = none)
    {e : FifoEntry} {rest : List FifoEntry}
    (hfq : s.fifoQueue = e :: rest)
    (hnodup : e.frameId ∉ rest.map FifoEntry.frameId) :
    (s.frames.getD e.frameId default).isFree = false ∧
    (pstep s).frames = s.frames.set e.frameId
      { frameId := e.frameId, isFree := false,
        pageId := some (s.referenceQueue.getD s.currentIndex default).2,
        processId :=
          some (s.referenceQueue.getD s.currentIndex default).1 } ∧
    (pstep s).fifoQueue = rest ++
      [(⟨e.frameId, (s.referenceQueue.getD s.currentIndex default).1,
        (s.referenceQueue.getD s.currentIndex default).2⟩ : FifoEntry)] ∧
    (pstep s).pageFaults = s.pageFaults + 1 := by
  have htget : tableGet s.pageTables
      (s.referenceQueue.getD s.currentIndex default).1
      (s.referenceQueue.getD s.currentIndex default).2 = none := by
    cases htg : tableGet s.pageTables
        (s.referenceQueue.getD s.currentIndex default).1
        (s.referenceQueue.getD s.currentIndex default).2 with
    | none => rfl
    | some f =>
      exact absurd ((cache_iff_table hinv _).mpr ⟨f, htg⟩) hmiss
  have hemem : e ∈ s.fifoQueue := by
    rw [hfq]
    exact List.mem_cons_self e rest
  have heid : e.frameId < s.frames.length :=
    hinv.2.2.2.2.2.2.1 e hemem
  have hallocc : ∀ f ∈ s.frames, f.isFree = false := by
    intro f hf
    have := List.find?_eq_none.mp hfull f hf
    simpa using this
  have hocc : (s.frames.getD e.frameId default).isFree = false := by
    apply hallocc
    rw [List.getD_eq_getElem _ _ heid]
    exact List.getElem_mem heid
  set s1 : PagingState := { s with
    currentIndex := s.currentIndex + 1
    pageFaults := s.pageFaults + 1 } with hs1
  have hinv1 : PInv s1 := by
    unfold PInv at hinv ⊢
    exact hinv
  set pr := selectVictimFrame s1 (s.currentIndex + 1) with hprd
  have hstep : pstep s =
      loadPage (evictFrame pr.1 pr.2.frameId)
        (s.referenceQueue.getD s.currentIndex default).1
        (s.referenceQueue.getD s.currentIndex default).2
        pr.2.frameId (evictFrame pr.1 pr.2.frameId).currentIndex := by
    unfold pstep
    rw [if_neg (by rw [hnd]; exact Bool.false_ne_true)]
    dsimp only
    rw [htget]
    dsimp only
    rw [show List.find? (fun f => f.isFree) s.frames = none from hfull]
  have hsv := selectVictimFrame_spec hinv1 (s.currentIndex + 1)
    (show List.find? (fun f => f.isFree) s.frames = none from hfull)
  rw [← hprd] at hsv
  obtain ⟨_, hvid, hvget, hvocc, _, hvfifo⟩ := hsv
  obtain ⟨hv2, hv1⟩ := hvfifo halg (by
    show s.fifoQueue ≠ []
    rw [hfq]
    exact List.cons_ne_nil _ _)
  rw [show s1.fifoQueue = e :: rest from hfq, List.headD_cons] at hv2
  rw [show s1.fifoQueue = e :: rest from hfq, List.tail_cons] at hv1
  have hvid2 : pr.2.frameId = e.frameId := by
    rw [hv2]
    exact hinv.2.2.1 e.frameId heid
  have hprI : PInv pr.1 := by
    rw [hv1]
    obtain ⟨h1, h2, h3, h4, h5, h6, h7, h8⟩ := hinv
    refine ⟨h1, h2, h3, h4, h5, h6, ?_, h8⟩
    intro e' he'
    apply h7
    rw [hfq]
    exact List.mem_cons_of_mem e he'
  have hev := evictFrame_spec hprI
    (show pr.2.frameId < pr.1.frames.length by
      rw [hv1, hvid2]
      exact heid)
    (by rw [hv1, hvid2]
        exact hocc)
  obtain ⟨hevI, hevC, hevPF, hevPH, hevCI, hevRQ, hevFC, hevA, hevL,
    hevFQ, hevClr, hevKeys, hevTG, hevFR⟩ := hev
  obtain ⟨pp, hpp, hppid⟩ := hinv.2.2.2.2.2.2.2 _ (curRef_mem hnd)
  have hkeyne : assocGet
      (s.referenceQueue.getD s.currentIndex default).1
      (evictFrame pr.1 pr.2.frameId).pageTables ≠ none := by
    intro hcontra
    rw [assocGet_eq_none_iff, hevKeys] at hcontra
    rw [show pr.1.pageTables = s.pageTables from by rw [hv1]] at hcontra
    exact hcontra (hppid ▸ List.mem_map_of_mem Prod.fst hpp)
  cases hkey : assocGet
      (s.referenceQueue.getD s.currentIndex default).1
      (evictFrame pr.1 pr.2.frameId).pageTables with
  | none => exact absurd hkey hkeyne
  | some t3 =>
    have hlp := loadPage_spec hevI
      ((evictFrame pr.1 pr.2.frameId).currentIndex)
      (show pr.2.frameId <
          (evictFrame pr.1 pr.2.frameId).frames.length by
        rw [hevL, hv1, hvid2]
        exact heid)
      (by rw [hevClr])
      hkey
      (hevTG _ _ (by
        rw [show pr.1.pageTables = s.pageTables from by rw [hv1]]
        exact htget))
    obtain ⟨hl1, hl2, hl3, hl4, hl5, hl6, hl7, hl8, hl9, hl10, hl11⟩
      := hlp
    rw [hstep]
    refine ⟨hocc, ?_, ?_, ?_⟩
    · rw [hl11, hevFR]
      rw [show pr.1.frames = s.frames from by rw [hv1]]
      rw [List.set_set, hvid2]
    · rw [hl10]
      rw [if_pos (by
        rw [hevA]
        rw [show pr.1.algorithm = s.algorithm from by rw [hv1]]
        exact halg)]
      rw [hevFQ]
      rw [show pr.1.fifoQueue = rest from by rw [hv1]]
      rw [hvid2]
      rw [List.filter_eq_self.mpr ?_]
      intro a ha
      simp only [decide_eq_true_eq]
      intro hc
      exact hnodup (hc ▸ List.mem_map_of_mem FifoEntry.frameId ha)
    · rw [hl3, hevPF]
      rw [show pr.1.pageFaults = s.pageFaults + 1 from by rw [hv1]]

/-- C5: under FIFO, a hit never touches the fifo queue, the frames or the
fault counter; a fault into a free frame appends the loaded page at the
tail of the queue; and a fault with no free frame evicts exactly the
frame at the head of the queue — the occupied frame whose page was loaded
earliest, since loads append at the tail and hits never reorder — then
requeues the new page at the tail.  In the demo (3 frames, FIFO, pages
0,1,2,3): all four references fault, after three steps the queue is
frames 0,1,2 in load order, and the fourth reference evicts frame 0
(holding page 0, loaded first) — page 0 leaves the page table while page
1 stays resident. -/
theorem C5_fifo_eviction (s : PagingState) (hinv : PInv s)
    (hnd : pIsDone s = false) :
    ((s.referenceQueue.getD s.currentIndex default ∈ cacheOf s →
      (pstep s).fifoQueue = s.fifoQueue ∧ (pstep s).frames = s.frames ∧
      (pstep s).pageFaults = s.pageFaults) ∧
    (∀ fr : Frame, s.algorithm = PAlgo.FIFO →
      s.referenceQueue.getD s.currentIndex default ∉ cacheOf s →
      s.frames.find? (fun f => f.isFree) = some fr →
      (pstep s).fifoQueue = s.fifoQueue ++
        [(⟨fr.frameId, (s.referenceQueue.getD s.currentIndex default).1,
          (s.referenceQueue.getD s.currentIndex default).2⟩ :
            FifoEntry)]) ∧
    (∀ (e : FifoEntry) (rest : List FifoEntry),
      s.algorithm = PAlgo.FIFO →
      s.referenceQueue.getD s.currentIndex default ∉ cacheOf s →
      s.frames.find? (fun f => f.isFree) = none →
      s.fifoQueue = e :: rest →
      e.frameId ∉ rest.map FifoEntry.frameId →
      (s.frames.getD e.frameId default).isFree = false ∧
      (pstep s).frames = s.frames.set e.frameId
        { frameId := e.frameId, isFree := false,
          pageId := some (s.referenceQueue.getD s.currentIndex default).2,
          processId :=
            some (s.referenceQueue.getD s.currentIndex default).1 } ∧
      (pstep s).fifoQueue = rest ++
        [(⟨e.frameId, (s.referenceQueue.getD s.currentIndex default).1,
          (s.referenceQueue.getD s.currentIndex default).2⟩ :
            FifoEntry)] ∧
      (pstep s).pageFaults = s.pageFaults + 1)) ∧
    ((pRunSteps 4 pagingDemo).pageFaults = 4 ∧
    (pRunSteps 4 pagingDemo).pageHits = 0 ∧
    (pRunSteps 3 pagingDemo).fifoQueue =
      [⟨0, 1, 0⟩, ⟨1, 1, 1⟩, ⟨2, 1, 2⟩] ∧
    (pRunSteps 4 pagingDemo).frames.getD 0 default =
      { frameId := 0, isFree := false, pageId := some 3,
        processId := some 1 } ∧
    tableGet (pRunSteps 4 pagingDemo).pageTables 1 0 = none ∧
    tableGet (pRunSteps 4 pagingDemo).pageTables 1 1 = some 1) := by
  refine ⟨⟨?_, ?_, ?_⟩, by decide, by decide, by decide, by decide,
    by decide, by decide⟩
  · intro hhit
    obtain ⟨_, _, h3, _, _, _, _, h8, h9⟩ := pstep_hit hinv hnd hhit
    exact ⟨h8, h9, h3⟩
  · intro fr halg hmiss hfree
    obtain ⟨_, _, _, _, _, _, _, _, h9⟩ :=
      pstep_fault_free hinv hnd hmiss hfree
    rw [h9, if_pos halg]
  · intro e rest halg hmiss hfull hfq hnodup
    exact fifo_evict_step hinv hnd halg hmiss hfull hfq hnodup

theorem C5_fifo_eviction_witness :
    PInv (pRunSteps 3 pagingDemo) ∧
    pIsDone (pRunSteps 3 pagingDemo) = false ∧
    (((pRunSteps 3 pagingDemo).referenceQueue.getD
        (pRunSteps 3 pagingDemo).currentIndex default
        ∈ cacheOf (pRunSteps 3 pagingDemo) →
      (pstep (pRunSteps 3 pagingDemo)).fifoQueue =
        (pRunSteps 3 pagingDemo).fifoQueue ∧
      (pstep (pRunSteps 3 pagingDemo)).frames =
        (pRunSteps 3 pagingDemo).frames ∧
      (pstep (pRunSteps 3 pagingDemo)).pageFaults =
        (pRunSteps 3 pagingDemo).pageFaults) ∧
    (∀ fr : Frame,
      (pRunSteps 3 pagingDemo).algorithm = PAlgo.FIFO →
      (pRunSteps 3 pagingDemo).referenceQueue.getD
        (pRunSteps 3 pagingDemo).currentIndex default
        ∉ cacheOf (pRunSteps 3 pagingDemo) →
      (pRunSteps 3 pagingDemo).frames.find? (fun f => f.isFree) =
        some fr →
      (pstep (pRunSteps 3 pagingDemo)).fifoQueue =
        (pRunSteps 3 pagingDemo).fifoQueue ++
        [(⟨fr.frameId, ((pRunSteps 3 pagingDemo).referenceQueue.getD
            (pRunSteps 3 pagingDemo).currentIndex default).1,
          ((pRunSteps 3 pagingDemo).referenceQueue.getD
            (pRunSteps 3 pagingDemo).currentIndex default).2⟩ :
            FifoEntry)]) ∧
    (∀ (e : FifoEntry) (rest : List FifoEntry),
      (pRunSteps 3 pagingDemo).algorithm = PAlgo.FIFO →
      (pRunSteps 3 pagingDemo).referenceQueue.getD
        (pRunSteps 3 pagingDemo).currentIndex default
        ∉ cacheOf (pRunSteps 3 pagingDemo) →
      (pRunSteps 3 pagingDemo).frames.find? (fun f => f.isFree) = none →
      (pRunSteps 3 pagingDemo).fifoQueue = e :: rest →
      e.frameId ∉ rest.map FifoEntry.frameId →
      ((pRunSteps 3 pagingDemo).frames.getD e.frameId default).isFree
        = false ∧
      (pstep (pRunSteps 3 pagingDemo)).frames =
        (pRunSteps 3 pagingDemo).frames.set e.frameId
        { frameId := e.frameId, isFree := false,
          pageId := some ((pRunSteps 3 pagingDemo).referenceQueue.getD
            (pRunSteps 3 pagingDemo).currentIndex default).2,
          processId :=
            some ((pRunSteps 3 pagingDemo).referenceQueue.getD
              (pRunSteps 3 pagingDemo).currentIndex default).1 } ∧
      (pstep (pRunSteps 3 pagingDemo)).fifoQueue = rest ++
        [(⟨e.frameId, ((pRunSteps 3 pagingDemo).referenceQueue.getD
            (pRunSteps 3 pagingDemo).currentIndex default).1,
          ((pRunSteps 3 pagingDemo).referenceQueue.getD
            (pRunSteps 3 pagingDemo).currentIndex default).2⟩ :
            FifoEntry)] ∧
      (pstep (pRunSteps 3 pagingDemo)).pageFaults =
        (pRunSteps 3 pagingDemo).pageFaults + 1)) ∧
    ((pRunSteps 4 pagingDemo).pageFaults = 4 ∧
    (pRunSteps 4 pagingDemo).pageHits = 0 ∧
    (pRunSteps 3 pagingDemo).fifoQueue =
      [⟨0, 1, 0⟩, ⟨1, 1, 1⟩, ⟨2, 1, 2⟩] ∧
    (pRunSteps 4 pagingDemo).frames.getD 0 default =
      { frameId := 0, isFree := false, pageId := some 3,
        processId := some 1 } ∧
    tableGet (pRunSteps 4 pagingDemo).pageTables 1 0 = none ∧
    tableGet (pRunSteps 4 pagingDemo).pageTables 1 1 = some 1) :=
  ⟨by decide, by decide,
    C5_fifo_eviction (pRunSteps 3 pagingDemo) (by decide) (by decide)⟩

/-- C6: on any paging workload — any process specs and any frame-count
option — the fault count after running the OPTIMAL engine to completion
is at most the fault count of the FIFO engine and at most that of the LRU
engine on the identical reference queue and frame count (Belady
optimality). -/
theorem C6_optimal_min_faults (specs : List PSpec) (fc : Int) :
    (pRunSteps (mkPagingEngine specs PAlgo.OPTIMAL fc).referenceQueue.length
      (mkPagingEngine specs PAlgo.OPTIMAL fc)).pageFaults ≤
      (pRunSteps (mkPagingEngine specs PAlgo.FIFO fc).referenceQueue.length
        (mkPagingEngine specs PAlgo.FIFO fc)).pageFaults ∧
    (pRunSteps (mkPagingEngine specs PAlgo.OPTIMAL fc).referenceQueue.length
      (mkPagingEngine specs PAlgo.OPTIMAL fc)).pageFaults ≤
      (pRunSteps (mkPagingEngine specs PAlgo.LRU fc).referenceQueue.length
        (mkPagingEngine specs PAlgo.LRU fc)).pageFaults :=
  ⟨belady_le specs fc PAlgo.FIFO, belady_le specs fc PAlgo.LRU⟩

end Paging

namespace Coerce

/-- C9, counterexample: the claim says every invalid or missing numeric
field is replaced by a minimum valid default at construction time, so no
step operates on a `NaN`.  But `SchedulerEngine.cloneProcesses` applies
bare `Number()` to `arrivalTime` and `burstTime`: a missing `burstTime`
yields `NaN` for both `burstTime` and `remainingTime`, a non-numeric
string likewise, and a present non-numeric `priority` yields `NaN` while
only an absent one defaults to `0`. -/
theorem C9_counterexample :
    (cloneProcess ⟨1, JSVal.num 0, JSVal.undef, JSVal.undef⟩).burstTime
      = none ∧
    (cloneProcess
        ⟨1, JSVal.num 0, JSVal.undef, JSVal.undef⟩).remainingTime
      = none ∧
    (cloneProcess ⟨1, JSVal.undef, JSVal.num 1, JSVal.undef⟩).arrivalTime
      = none ∧
    (cloneProcess ⟨1, JSVal.num 0, JSVal.num 1, JSVal.str ['x']⟩).priority
      = none := by
  decide

/-- C9, amended: the memory and paging constructors do coerce — a `NaN`
request size becomes the default `1`, `totalPages` is always at least
`1`, and a parsed page number always lands in `[0, totalPages - 1]` —
and the scheduler defaults an absent `priority` to `0`; but a `NaN`
`burstTime` flows uncorrected into `remainingTime`, the field every
scheduler step decrements. -/
theorem C9_coercion_amended (r : RawReq) (v : JSVal) (p : RawProc)
    (hmiss : jsNumber r.size = none) (hpr : p.priority = JSVal.undef) :
    (hydrateRequest r).2 = 1 ∧
    1 ≤ normalizeTotalPages v ∧
    (0 ≤ normalizePage v (normalizeTotalPages v) ∧
      normalizePage v (normalizeTotalPages v) ≤
        normalizeTotalPages v - 1) ∧
    (cloneProcess p).priority = some 0 ∧
    (jsNumber p.burstTime = none →
      (cloneProcess p).remainingTime = none) := by
  refine ⟨?_, ?_, ⟨?_, ?_⟩, ?_, ?_⟩
  · unfold hydrateRequest
    rw [hmiss]
    rfl
  · exact le_max_left 1 _
  · unfold normalizePage Paging.clampI
    have h1 : (1 : Int) ≤ normalizeTotalPages v := le_max_left 1 _
    have h0 : (0 : Int) ≤ normalizeTotalPages v - 1 := by omega
    exact le_min (le_max_right _ 0) h0
  · unfold normalizePage Paging.clampI
    exact min_le_right _ _
  · unfold cloneProcess
    rw [if_pos hpr]
  · intro hb
    unfold cloneProcess
    dsimp only
    rw [hb]

theorem C9_coercion_amended_witness :
    jsNumber (RawReq.mk 1 JSVal.undef).size = none ∧
    (RawProc.mk 1 (JSVal.num 0) JSVal.undef JSVal.undef).priority
      = JSVal.undef ∧
    ((hydrateRequest ⟨1, JSVal.undef⟩).2 = 1 ∧
    1 ≤ normalizeTotalPages JSVal.undef ∧
    (0 ≤ normalizePage JSVal.undef (normalizeTotalPages JSVal.undef) ∧
      normalizePage JSVal.undef (normalizeTotalPages JSVal.undef) ≤
        normalizeTotalPages JSVal.undef - 1) ∧
    (cloneProcess
        ⟨1, JSVal.num 0, JSVal.undef, JSVal.undef⟩).priority = some 0 ∧
    (jsNumber (RawProc.mk 1 (JSVal.num 0) JSVal.undef
        JSVal.undef).burstTime = none →
      (cloneProcess
        ⟨1, JSVal.num 0, JSVal.undef, JSVal.undef⟩).remainingTime
        = none)) :=
  ⟨by decide, by decide,
    C9_coercion_amended ⟨1, JSVal.undef⟩ JSVal.undef
      ⟨1, JSVal.num 0, JSVal.undef, JSVal.undef⟩ (by decide) (by decide)⟩

end Coerce

namespace Paging

/-- C10, counterexample: the claim says the snapshot holds no references
to the engine's mutable state, so mutating a snapshot never changes the
engine.  But `getSnapshot` returns `referenceQueue: this.referenceQueue`
— the very array the engine reads — so writing through the snapshot's
queue address changes what the next step loads: overwriting the demo's
queue with `[(1, 3)]` through the snapshot makes the first step fault in
page 3 instead of page 0. -/
theorem C10_counterexample :
    (hGetSnapshot rheapDemo rpagingDemo).referenceQueue
      = rpagingDemo.rqA ∧
    (hstep (writeRQ rheapDemo
        (hGetSnapshot rheapDemo rpagingDemo).referenceQueue
        [(1, 3)]) rpagingDemo).st.frames ≠
      (hstep rheapDemo rpagingDemo).st.frames := by
  refine ⟨rfl, ?_⟩
  decide

/-- C10, amended: `getSnapshot` mutates nothing, so two calls with no
intervening step return equal snapshots; `frames` and `pageTables` are
value copies of the engine's current ones; but the snapshot's
`referenceQueue` is the engine's own heap address, so a write through it
is seen by the engine's next step, which then runs on the mutated
queue. -/
theorem C10_snapshot_amended (h : PHeap) (e : RPaging) (l : List PRef)
    (ha : e.rqA < h.cells.length) :
    (hGetSnapshotRun h e).1 =
      (hGetSnapshotRun (hGetSnapshotRun h e).2.1
        (hGetSnapshotRun h e).2.2).1 ∧
    (hGetSnapshot h e).frames = e.st.frames ∧
    (hGetSnapshot h e).pageTables = e.st.pageTables ∧
    (hGetSnapshot h e).referenceQueue = e.rqA ∧
    readRQ (writeRQ h (hGetSnapshot h e).referenceQueue l) e.rqA = l ∧
    hstep (writeRQ h (hGetSnapshot h e).referenceQueue l) e =
      ⟨e.rqA, pstep { e.st with referenceQueue := l }⟩ := by
  have hr : readRQ (writeRQ h (hGetSnapshot h e).referenceQueue l) e.rqA
      = l := by
    unfold hGetSnapshot readRQ writeRQ
    dsimp only
    exact getD_set_self h.cells e.rqA l [] ha
  refine ⟨rfl, rfl, rfl, rfl, hr, ?_⟩
  unfold hstep
  rw [hr]

theorem C10_snapshot_amended_witness :
    rpagingDemo.rqA < rheapDemo.cells.length ∧
    ((hGetSnapshotRun rheapDemo rpagingDemo).1 =
      (hGetSnapshotRun (hGetSnapshotRun rheapDemo rpagingDemo).2.1
        (hGetSnapshotRun rheapDemo rpagingDemo).2.2).1 ∧
    (hGetSnapshot rheapDemo rpagingDemo).frames
      = rpagingDemo.st.frames ∧
    (hGetSnapshot rheapDemo rpagingDemo).pageTables
      = rpagingDemo.st.pageTables ∧
    (hGetSnapshot rheapDemo rpagingDemo).referenceQueue
      = rpagingDemo.rqA ∧
    readRQ (writeRQ rheapDemo
        (hGetSnapshot rheapDemo rpagingDemo).referenceQueue
        [(1, 2)]) rpagingDemo.rqA = [(1, 2)] ∧
    hstep (writeRQ rheapDemo
        (hGetSnapshot rheapDemo rpagingDemo).referenceQueue
        [(1, 2)]) rpagingDemo =
      ⟨rpagingDemo.rqA,
        pstep { rpagingDemo.st with referenceQueue := [(1, 2)] }⟩) :=
  ⟨by decide,
    C10_snapshot_amended rheapDemo rpagingDemo [(1, 2)] (by decide)⟩

end Paging
